import Mathlib

/-!
# Tic-tac-toe state and negamax search (`ttt/tic-tac-toe.go`, `ttt/minmax/main.go`)

A shallow embedding of the Go sources.

* Go's `int` (and `Player`, an `int`) is modelled by `Int`; the three places where the
  program does arithmetic on it (`3 - player`, `depth - 1`, `-score`) wrap around at 64 bits
  through `wrap64`.
* `State.Board` is the array `[9]int`: a function on `Fin 9`.
* Methods with a pointer receiver that mutate the state return the new state.  `Clone` is a
  value copy, so it is the identity on the model.
* Indexing `s.Board[action]` with `action` outside `0..8` is a run-time panic in Go: the
  model returns `none`.
* The recursion of `miniMaxScore` is not structural (the depth may be negative), so it is
  written with a fuel counter; `none` also stands for "fuel exhausted".  The theorems below
  show that the fuel used is always enough.
-/

namespace TTT

/-- The value of a 64-bit two's complement `int` holding the mathematical result `x`
(the constants are `2 ^ 63` and `2 ^ 64`). -/
def wrap64 (x : Int) : Int :=
  (x + 9223372036854775808) % 18446744073709551616 - 9223372036854775808

/-- The constant `math.MinInt`, that is `-2 ^ 63`. -/
def minInt : Int := -9223372036854775808

/-- The struct `State`: the board `[9]int` and the player to move. -/
structure State where
  Board : Fin 9 → Int
  CurrentPlayer : Int

/-- The indices of the board in scan order, as visited by `for i, v := range s.Board`. -/
def cells : List (Fin 9) := [0, 1, 2, 3, 4, 5, 6, 7, 8]

/-- The function `NewState`: empty board, player 1 to move. -/
def NewState : State := { Board := fun _ => 0, CurrentPlayer := 1 }

/-- The method `GetLegalActions`: scan the board, append the index of every cell equal to 0. -/
def State.GetLegalActions (s : State) : List Int :=
  cells.foldl (fun actions i => if s.Board i = 0 then actions ++ [(i.val : Int)] else actions) []

/-- The cell of the board addressed by an in-range action. -/
def cellOf (a : Int) (h : 0 ≤ a ∧ a < 9) : Fin 9 := ⟨a.toNat, by omega⟩

/-- The function `switchPlayer`: `3 - player`. -/
def switchPlayer (player : Int) : Int := wrap64 (3 - player)

/-- The method `ApplyAction`: write the current player into the cell, switch the player.
An index outside the array panics (`none`). -/
def State.ApplyAction (s : State) (action : Int) : Option State :=
  if h : 0 ≤ action ∧ action < 9 then
    some { Board := Function.update s.Board (cellOf action h) s.CurrentPlayer
           CurrentPlayer := switchPlayer s.CurrentPlayer }
  else none

/-- The table `lines` of `GetWinner`: rows, columns, diagonals. -/
def lines : List (Fin 9 × Fin 9 × Fin 9) :=
  [(0, 1, 2), (3, 4, 5), (6, 7, 8), (0, 3, 6), (1, 4, 7), (2, 5, 8), (0, 4, 8), (2, 4, 6)]

/-- The loop of `GetWinner`: the occupant of the first complete line, else 0. -/
def scanLines (b : Fin 9 → Int) : List (Fin 9 × Fin 9 × Fin 9) → Int
  | [] => 0
  | l :: rest =>
    if b l.1 ≠ 0 ∧ b l.1 = b l.2.1 ∧ b l.1 = b l.2.2 then b l.1 else scanLines b rest

/-- The method `GetWinner`. -/
def State.GetWinner (s : State) : Int := scanLines s.Board lines

/-- The method `IsTerminal`. -/
def State.IsTerminal (s : State) : Bool :=
  s.GetWinner != 0 || s.GetLegalActions.length == 0

/-- The method `GetScore` of package `ttt`. -/
def State.GetScore (s : State) : Int :=
  let winner := s.GetWinner
  if winner = s.CurrentPlayer then 1
  else if winner = switchPlayer s.CurrentPlayer then -1
  else 0

/-- The function `miniMaxScore` of `ttt/minmax/main.go`, with a fuel counter for the
recursion. -/
def miniMaxScoreFuel : Nat → State → Int → Option Int
  | 0, _, _ => none
  | fuel + 1, state, depth =>
    if state.IsTerminal || depth == 0 then some state.GetScore
    else
      let legalActions := state.GetLegalActions
      if legalActions.length == 0 then some state.GetScore
      else
        legalActions.foldlM (fun bestScore action =>
          (state.ApplyAction action).bind fun nextState =>
          (miniMaxScoreFuel fuel nextState (wrap64 (depth - 1))).bind fun r =>
          let score := wrap64 (-r)
          some (if score > bestScore then score else bestScore)) minInt

/-- The function `miniMaxAction` of `ttt/minmax/main.go`; the pair carried through the loop
is `(bestAction, bestScore)`. -/
def miniMaxActionFuel (fuel : Nat) (state : State) (depth : Int) : Option Int :=
  (state.GetLegalActions.foldlM (fun (best : Int × Int) action =>
    (state.ApplyAction action).bind fun nextState =>
    (miniMaxScoreFuel fuel nextState depth).bind fun r =>
    let score := wrap64 (-r)
    some (if score > best.2 then (action, score) else best)) (-1, minInt)).map Prod.fst

/-- The fuel given to the search: an `ApplyAction` of a legal action fills an empty cell
unless the player to move is 0, which happens at most every other ply, so a branch is never
longer than 19 plies. -/
def searchFuel : Nat := 20

/-- The function `miniMaxScore` with the fuel fixed. -/
def miniMaxScore (state : State) (depth : Int) : Option Int :=
  miniMaxScoreFuel searchFuel state depth

/-- The function `miniMaxAction` with the fuel fixed. -/
def miniMaxAction (state : State) (depth : Int) : Option Int :=
  miniMaxActionFuel searchFuel state depth


/-- The negated score of the position after `action`, as computed in the body of both
search loops: clone, `ApplyAction`, recursive score, negate. -/
def childScore (fuel : Nat) (state : State) (depth : Int) (action : Int) : Option Int :=
  (state.ApplyAction action).bind fun nextState =>
  (miniMaxScoreFuel fuel nextState depth).bind fun r => some (wrap64 (-r))

/-- A bound on the number of plies playable from a state: two per empty cell, one more when
the player to move is 0 (its mark leaves the cell empty). -/
def plyBound (s : State) : Nat :=
  2 * s.GetLegalActions.length + (if s.CurrentPlayer = 0 then 1 else 0)

/-- A state with cell 0 occupied by player 1 and player 2 to move. -/
def occupiedState : State :=
  { Board := fun i => if i = 0 then 1 else 0, CurrentPlayer := 2 }

/-- A board from the list of its cells in scan order (missing cells are empty). -/
def boardOf (l : List Int) : Fin 9 → Int := fun i => l.getD i.val 0

/-- A won board that still has empty cells: player 1 holds the top row, player 2 is to
move. -/
def wonState : State := { Board := boardOf [1, 1, 1, 2, 2, 0, 0, 0, 0], CurrentPlayer := 2 }

/-- The test in the loop of `GetWinner`: the three cells of the line hold the same non-zero
occupant. -/
def lineComplete (b : Fin 9 → Int) (l : Fin 9 × Fin 9 × Fin 9) : Prop :=
  b l.1 ≠ 0 ∧ b l.1 = b l.2.1 ∧ b l.1 = b l.2.2

/-- Cell `c` is empty and completes a line for player `p`: some line through `c` holds `p`
in its two other cells. -/
def completesLine (b : Fin 9 → Int) (p : Int) (c : Fin 9) : Prop :=
  b c = 0 ∧ ∃ l ∈ lines, (l.1 = c ∨ l.2.1 = c ∨ l.2.2 = c)
    ∧ (l.1 ≠ c → b l.1 = p) ∧ (l.2.1 ≠ c → b l.2.1 = p) ∧ (l.2.2 ≠ c → b l.2.2 = p)

instance (b : Fin 9 → Int) (p : Int) (c : Fin 9) : Decidable (completesLine b p c) := by
  unfold completesLine
  infer_instance

/-- The states of a legal game: those reached from `NewState` by applying legal actions to
non-terminal states. -/
inductive Reachable : State → Prop
  | init : Reachable NewState
  | step (s s' : State) (a : Int) : Reachable s → s.IsTerminal = false →
      a ∈ s.GetLegalActions → s.ApplyAction a = some s' → Reachable s'

/-- Play a list of actions from a state, as the driver loop does: each action is applied to
a non-terminal state and has to be legal. -/
def playFrom (s : State) : List Int → Option State
  | [] => some s
  | a :: rest =>
    if s.IsTerminal = false ∧ a ∈ s.GetLegalActions then
      (s.ApplyAction a).bind fun s' => playFrom s' rest
    else none

/-- Player 1 to move holds cells 6 and 7 (cell 8 wins at once); cell 0 makes a fork. -/
def forkState : State := { Board := boardOf [0, 2, 0, 0, 0, 2, 1, 1, 0], CurrentPlayer := 1 }

/-- Player 2 to move has to block cell 6; player 1 then forks at cell 4. -/
def lostState : State := { Board := boardOf [0, 0, 0, 0, 0, 2, 0, 1, 1], CurrentPlayer := 2 }

/-- The state after `ApplyAction` on cell `i`. -/
def State.mark (s : State) (i : Fin 9) : State :=
  { Board := Function.update s.Board i s.CurrentPlayer
    CurrentPlayer := switchPlayer s.CurrentPlayer }

/-! ### Positions as numbers, bounds on the score

These definitions are not part of the program.  They are a certificate checker for the
full-depth search: positions are coded as base-3 numbers so that the checker evaluates
quickly, and `boundCheck_sound`, `actionCheck_sound` below relate it to `miniMaxScore` and
`miniMaxAction`. -/

/-- The state with the cells given by the base-3 digits of `n` (cell `i` is digit `i`) and
player `p` to move. -/
def decode (n p : Nat) : State :=
  { Board := fun i => ((n / 3 ^ i.val % 3 : Nat) : Int), CurrentPlayer := (p : Int) }

/-- The base-3 digit of `n` of weight `c` (a power of 3). -/
def rd (n c : Nat) : Nat := Nat.mod (Nat.div n c) 3

/-- The digits of weights `c1`, `c2`, `c3` are all `p`. -/
def lineC (n p c1 c2 c3 : Nat) : Bool :=
  and (Nat.beq (rd n c1) p) (and (Nat.beq (rd n c2) p) (Nat.beq (rd n c3) p))

/-- Some line of the board coded by `n` holds `p` in its three cells. -/
def wonC (n p : Nat) : Bool :=
  or (lineC n p 1 3 9) (or (lineC n p 27 81 243) (or (lineC n p 729 2187 6561)
    (or (lineC n p 1 27 729) (or (lineC n p 3 81 2187) (or (lineC n p 9 243 6561)
      (or (lineC n p 1 81 6561) (lineC n p 9 81 729)))))))

/-- The cells of the board with their weights, centre first, then corners, then edges. -/
def probes : List (Nat × Nat) :=
  [(4, 81), (0, 1), (2, 9), (6, 729), (8, 6561), (1, 3), (3, 27), (5, 243), (7, 2187)]

/-- A one-sided test of the full-depth score of the position coded by `n`, with `me` to
move against `opp` and `e` empty cells: with `lower` it looks for an empty cell whose
successor scores at most `nv = -v` (so the score is at least `v`), otherwise it requires
the successor of every empty cell to score at least `nv` (so the score is at most `v`). -/
def boundCheck : Nat → Nat → Nat → Nat → Bool → Int → Int → Bool
  | e, n, me, opp, lower, v, nv =>
    cond (wonC n opp) (cond lower (decide (v ≤ -1)) (decide (-1 ≤ v)))
      (match e with
        | 0 => cond lower (decide (v ≤ 0)) (decide (0 ≤ v))
        | e' + 1 =>
          cond lower
            (probes.any fun ic => and (Nat.beq (rd n ic.2) 0)
              (boundCheck e' (Nat.add n (Nat.mul me ic.2)) opp me false nv v))
            (probes.all fun ic => or (not (Nat.beq (rd n ic.2) 0))
              (boundCheck e' (Nat.add n (Nat.mul me ic.2)) opp me true nv v)))

/-- A test that `miniMaxAction` at full depth returns `a`, with negated score at least `m`,
on the position coded by `n` with `me` to move, no complete line and `e + 1` empty cells:
the cells before `a` score below `m`, the cells after `a` at most `m`. -/
def actionCheck (e n me opp : Nat) (a m : Int) : Bool :=
  and (not (wonC n me)) (and (not (wonC n opp))
    (and (probes.any fun ic => and (Nat.beq (rd n ic.2) 0) (decide ((ic.1 : Int) = a)))
      (probes.all fun ic => or (not (Nat.beq (rd n ic.2) 0))
        (if (ic.1 : Int) < a then
          boundCheck e (Nat.add n (Nat.mul me ic.2)) opp me true (1 - m) (m - 1)
        else if (ic.1 : Int) = a then
          boundCheck e (Nat.add n (Nat.mul me ic.2)) opp me false (-m) m
        else boundCheck e (Nat.add n (Nat.mul me ic.2)) opp me true (-m) m))))

/-- The loop of `main` in `ttt/minmax/main.go`, with the search depths of the two players
(6 and 3 in the source) as parameters `d1` and `d2`, and a fuel counter for the loop;
printing is left out.  The result is the state at the exit of the loop. -/
def driverFuel (d1 d2 : Int) : Nat → State → Option State
  | 0, _ => none
  | fuel + 1, state =>
    if state.IsTerminal then some state
    else
      (if state.CurrentPlayer = 1 then miniMaxAction state d1
        else miniMaxAction state d2).bind fun action =>
      (state.ApplyAction action).bind fun next =>
      driverFuel d1 d2 fuel next

/-- The final position of the game between two full-depth searches: a full board without a
complete line. -/
def drawState : State := { Board := boardOf [1, 1, 2, 2, 2, 1, 1, 2, 1], CurrentPlayer := 2 }

/-! ### Well-formed states, the playout loop -/

/-- The well-formedness predicate: every cell is 0, 1 or 2 and the player to move is 1 or
2. -/
def wellFormed (s : State) : Prop :=
  (∀ i : Fin 9, s.Board i = 0 ∨ s.Board i = 1 ∨ s.Board i = 2)
    ∧ (s.CurrentPlayer = 1 ∨ s.CurrentPlayer = 2)

instance (s : State) : Decidable (wellFormed s) := by
  unfold wellFormed
  infer_instance

instance (b : Fin 9 → Int) (l : Fin 9 × Fin 9 × Fin 9) : Decidable (lineComplete b l) := by
  unfold lineComplete
  infer_instance

/-- The function `playout` of `ttt/montecarlo/main.go`, with a fuel counter for the loop.
The random source is the sequence `rnd`, read at the cursor `k`: the call `rand.Intn(len)`
returns `rnd k % len` and moves the cursor (`rand.Intn(0)` panics).  The result is the
returned float64, one of 0, 1/2 and 1, and the new cursor. -/
def playoutFuel (rnd : Nat → Nat) : Nat → State → Nat → Option (ℚ × Nat)
  | 0, _, _ => none
  | fuel + 1, state, k =>
    if state.IsTerminal then some (((state.GetScore + 1 : Int) : ℚ) / 2, k)
    else
      let actions := state.GetLegalActions
      if actions.length = 0 then none
      else
        actions[rnd k % actions.length]?.bind fun action =>
        (state.ApplyAction action).bind fun next =>
        playoutFuel rnd fuel next (k + 1)


/-! ### Monte Carlo tree search (`ttt/montecarlo/main.go`)

The fields `w`, `n` of `Node` and the local `t` are float64.  The model holds the exact value
of each float64 (`n` and `t` are natural numbers, `w` is a multiple of 1/2) and rounds every
sum the program computes on them as float64 does (`roundNat`).  `math.Sqrt` and `math.Log`
are not modelled: the finite float64 value of the UCB1 expression is the parameter `ucb`, a
function of `t`, `w` and `n`, and every theorem holds for all such functions.  The random
source is the parameter `rnd`, see `playoutFuel`. -/

/-- The float64 nearest to the natural number `x`, ties to even: float64 has 53 significant
bits, so every `x < 2 ^ 53` is a float64, and a larger `x` is rounded to a multiple of
`q = 2 ^ (log2 x - 52)`. -/
def roundNat (x : Nat) : Nat :=
  if x < 9007199254740992 then x
  else
    let q := 2 ^ (Nat.log2 x - 52)
    let k := x / q
    let r := x % q
    if 2 * r < q then k * q
    else if q < 2 * r then (k + 1) * q
    else if k % 2 = 0 then k * q else (k + 1) * q

/-- The float64 sum `w + value` of two non-negative multiples of 1/2 (the scaling by 2 is
exact in float64). -/
def fadd (w value : ℚ) : ℚ := ((roundNat (2 * (w + value)).floor.toNat : Nat) : ℚ) / 2

/-- The struct `Node`; a node owns its children. -/
inductive Node where
  | mk (state : State) (w : ℚ) (n : Nat) (childNodes : List Node)

/-- The field `state`. -/
def Node.state : Node → State
  | .mk s _ _ _ => s

/-- The field `w`. -/
def Node.w : Node → ℚ
  | .mk _ w _ _ => w

/-- The field `n`. -/
def Node.n : Node → Nat
  | .mk _ _ n _ => n

/-- The field `childNodes`. -/
def Node.childNodes : Node → List Node
  | .mk _ _ _ cs => cs

/-- The constant `EXPAND_THRESHOLD`. -/
def EXPAND_THRESHOLD : Nat := 10

/-- The function `NewNode`. -/
def NewNode (state : State) : Node := .mk state 0 0 []

/-- The loop of `Expand`: one new node per legal action, in order. -/
def expandLoop (state : State) : List Int → Option (List Node)
  | [] => some []
  | action :: rest =>
    (state.ApplyAction action).bind fun childState =>
    (expandLoop state rest).map fun cs => NewNode childState :: cs

/-- The method `Expand`. -/
def Node.Expand (node : Node) : Option Node :=
  (expandLoop node.state node.state.GetLegalActions).map fun cs =>
    .mk node.state node.w node.n cs

/-- The first loop of `NextChildNode`: the index of the first child with `n == 0`. -/
def firstUnvisited : List Node → Option Nat
  | [] => none
  | c :: rest => if c.n = 0 then some 0 else (firstUnvisited rest).map (· + 1)

/-- The second loop of `NextChildNode`: the float64 sum `t` of the visit counts. -/
def totalVisits (childNodes : List Node) : Nat :=
  childNodes.foldl (fun t c => roundNat (t + c.n)) 0

/-- The float64 `ucb1Value` of a child: with `n = 0` the quotients are `0/0` or `x/0` and the
value is NaN (`none`); otherwise it is the finite number `ucb t w n`. -/
def ucb1Value (ucb : Nat → ℚ → Nat → ℚ) (t : Nat) (w : ℚ) (n : Nat) : Option ℚ :=
  if n = 0 then none else some (ucb t w n)

/-- The third loop of `NextChildNode` from child index `i` on; `best` is the pair
`(bestValue, bestChild)`, with `none` for `-Inf` and for `nil`.  A comparison with NaN is
false. -/
def ucbLoop (ucb : Nat → ℚ → Nat → ℚ) (t : Nat) :
    List Node → Nat → Option ℚ × Option Nat → Option ℚ × Option Nat
  | [], _, best => best
  | c :: rest, i, best =>
    match ucb1Value ucb t c.w c.n with
    | none => ucbLoop ucb t rest (i + 1) best
    | some v =>
      if (match best.1 with | none => true | some b => decide (b < v)) then
        ucbLoop ucb t rest (i + 1) (some v, some i)
      else ucbLoop ucb t rest (i + 1) best

/-- The method `NextChildNode`; the result is the index of the returned child, `none` for
`nil`. -/
def NextChildNode (ucb : Nat → ℚ → Nat → ℚ) (childNodes : List Node) : Option Nat :=
  match firstUnvisited childNodes with
  | some i => some i
  | none => (ucbLoop ucb (totalVisits childNodes) childNodes 0 (none, none)).2

/-- The fuel of the playout loop: never more than 19 applications, see `plyBound`. -/
def playout (rnd : Nat → Nat) (state : State) (k : Nat) : Option (ℚ × Nat) :=
  playoutFuel rnd 20 state k

/-- The method `Evaluate`, with a fuel counter for the recursion: the result is the node
after the call, the returned value and the cursor of the random source. -/
def EvaluateFuel (ucb : Nat → ℚ → Nat → ℚ) (rnd : Nat → Nat) :
    Nat → Node → Nat → Option (Node × ℚ × Nat)
  | 0, _, _ => none
  | fuel + 1, node, k =>
    if node.state.IsTerminal then
      let value : ℚ := if node.state.GetScore = -1 then 0 else 1 / 2
      some (.mk node.state (fadd node.w value) (roundNat (node.n + 1)) node.childNodes, value, k)
    else if node.childNodes.length = 0 then
      (playout rnd node.state k).bind fun vk =>
        let value := vk.1
        let node' : Node :=
          .mk node.state (fadd node.w value) (roundNat (node.n + 1)) node.childNodes
        if node'.n = EXPAND_THRESHOLD then node'.Expand.map fun e => (e, value, vk.2)
        else some (node', value, vk.2)
    else
      (NextChildNode ucb node.childNodes).bind fun i =>
      node.childNodes[i]?.bind fun child =>
      (EvaluateFuel ucb rnd fuel child k).bind fun r =>
        let value := 1 - r.2.1
        some (.mk node.state (fadd node.w value) (roundNat (node.n + 1))
          (node.childNodes.set i r.1), value, r.2.2)

/-- The method `Evaluate`: no path of a tree is longer than 19 plies, see `plyBound`. -/
def Node.Evaluate (ucb : Nat → ℚ → Nat → ℚ) (rnd : Nat → Nat) (node : Node) (k : Nat) :
    Option (Node × ℚ × Nat) :=
  EvaluateFuel ucb rnd 20 node k

/-- The loop `for i := 0; i < playoutNumber; i++ { rootNode.Evaluate() }`. -/
def evaluateLoop (ucb : Nat → ℚ → Nat → ℚ) (rnd : Nat → Nat) :
    Nat → Node → Nat → Option (Node × Nat)
  | 0, rootNode, k => some (rootNode, k)
  | i + 1, rootNode, k =>
    (rootNode.Evaluate ucb rnd k).bind fun r => evaluateLoop ucb rnd i r.1 r.2.2

/-- The tree of `mctsAction` after the loop: the root is expanded, then evaluated
`playoutNumber` times (not at all when `playoutNumber` is negative). -/
def mctsTree (ucb : Nat → ℚ → Nat → ℚ) (rnd : Nat → Nat) (state : State)
    (playoutNumber : Int) : Option Node :=
  (NewNode state).Expand.bind fun rootNode =>
  (evaluateLoop ucb rnd playoutNumber.toNat rootNode 0).map Prod.fst

/-- The last loop of `mctsAction` from index `i` on; `best` is `(bestN, bestAction)`. -/
def decisionLoop (childNodes : List Node) : List Int → Nat → Int × Int → Option (Int × Int)
  | [], _, best => some best
  | action :: rest, i, best =>
    childNodes[i]?.bind fun c =>
      if (c.n : Int) > best.1 then decisionLoop childNodes rest (i + 1) ((c.n : Int), action)
      else decisionLoop childNodes rest (i + 1) best

/-- The function `mctsAction`. -/
def mctsAction (ucb : Nat → ℚ → Nat → ℚ) (rnd : Nat → Nat) (state : State)
    (playoutNumber : Int) : Option Int :=
  (mctsTree ucb rnd state playoutNumber).bind fun rootNode =>
  (decisionLoop rootNode.childNodes state.GetLegalActions 0 (-1, -1)).map Prod.snd

/-- The invariant of the nodes of a search tree, for the root (`isRoot`) and for the nodes
below it: the visit count is a float64 integer, the win credit is a multiple of 1/2 between
0 and the visit count, a node below the root has children exactly when its state is not
terminal and its visit count has reached the threshold, the root has one child per legal
action, the children hold the states after the legal actions, in order, and they satisfy
the invariant. -/
inductive Node.Good : Bool → Node → Prop
  | mk (isRoot : Bool) (state : State) (w : ℚ) (n : Nat) (childNodes : List Node)
      (hn : n ≤ 9007199254740992)
      (hw : ∃ h : Nat, w = (h : ℚ) / 2 ∧ h ≤ 2 * n)
      (hexp : isRoot = false →
        (childNodes ≠ [] ↔ (state.IsTerminal = false ∧ EXPAND_THRESHOLD ≤ n)))
      (hroot : isRoot = true → childNodes.length = state.GetLegalActions.length)
      (hstates : childNodes ≠ [] →
        List.Forall₂ (fun a c => state.ApplyAction a = some (Node.state c))
          state.GetLegalActions childNodes)
      (hsub : ∀ c ∈ childNodes, Node.Good false c) :
      Node.Good isRoot (.mk state w n childNodes)

/-- The node `x` is below the node `y` in the tree of `y`. -/
inductive Node.Below : Node → Node → Prop
  | child (x y : Node) : x ∈ y.childNodes → Node.Below x y
  | deeper (x c y : Node) : c ∈ y.childNodes → Node.Below x c → Node.Below x y

/-- A position with one empty cell and no complete line, cross to move: the root of a tree
with exactly one child. -/
def lastMoveState : State :=
  { Board := boardOf [1, 2, 1, 1, 2, 2, 2, 1, 0], CurrentPlayer := 1 }

/-! ## The copy of the game and of the negamax search in `main.go`

The file `main.go` at the root of the repository (package `main`) has its own struct `State`
with unexported fields and its own `miniMaxScore` and `miniMaxAction`. Its `GetScore` takes
the player as an argument, and its second test is `winner != 0` where package `ttt` tests
`winner == switchPlayer(s.CurrentPlayer)`. -/

namespace Main

/-- The struct `State` of `main.go`: the board `[9]int` and the player to move. -/
structure State where
  board : Fin 9 → Int
  currentPlayer : Int

/-- The function `NewState` of `main.go`. -/
def NewState : State := { board := fun _ => 0, currentPlayer := 1 }

/-- The method `GetLegalActions` of `main.go`. -/
def State.GetLegalActions (s : State) : List Int :=
  cells.foldl (fun actions i => if s.board i = 0 then actions ++ [(i.val : Int)] else actions) []

/-- The method `ApplyAction` of `main.go`: write the current player into the cell, then
`s.currentPlayer = 3 - s.currentPlayer`. An index outside the array panics (`none`). -/
def State.ApplyAction (s : State) (action : Int) : Option State :=
  if h : 0 ≤ action ∧ action < 9 then
    some { board := Function.update s.board (cellOf action h) s.currentPlayer
           currentPlayer := wrap64 (3 - s.currentPlayer) }
  else none

/-- The method `GetWinner` of `main.go`: the same table of lines and the same loop. -/
def State.GetWinner (s : State) : Int := scanLines s.board lines

/-- The method `IsTerminal` of `main.go`. -/
def State.IsTerminal (s : State) : Bool :=
  s.GetWinner != 0 || s.GetLegalActions.length == 0

/-- The method `GetScore(currentPlayer int)` of `main.go`. -/
def State.GetScore (s : State) (currentPlayer : Int) : Int :=
  let winner := s.GetWinner
  if winner = currentPlayer then 1
  else if winner ≠ 0 then -1
  else 0

/-- The function `miniMaxScore` of `main.go`, with a fuel counter for the recursion. -/
def miniMaxScoreFuel : Nat → State → Int → Option Int
  | 0, _, _ => none
  | fuel + 1, state, depth =>
    if state.IsTerminal || depth == 0 then some (state.GetScore state.currentPlayer)
    else
      let legalActions := state.GetLegalActions
      if legalActions.length == 0 then some (state.GetScore state.currentPlayer)
      else
        legalActions.foldlM (fun bestScore action =>
          (state.ApplyAction action).bind fun nextState =>
          (miniMaxScoreFuel fuel nextState (wrap64 (depth - 1))).bind fun r =>
          let score := wrap64 (-r)
          some (if score > bestScore then score else bestScore)) minInt

/-- The function `miniMaxAction` of `main.go`; the pair carried through the loop is
`(bestAction, bestScore)`. -/
def miniMaxActionFuel (fuel : Nat) (state : State) (depth : Int) : Option Int :=
  (state.GetLegalActions.foldlM (fun (best : Int × Int) action =>
    (state.ApplyAction action).bind fun nextState =>
    (miniMaxScoreFuel fuel nextState depth).bind fun r =>
    let score := wrap64 (-r)
    some (if score > best.2 then (action, score) else best)) (-1, minInt)).map Prod.fst

/-- The function `miniMaxScore` of `main.go` with the fuel fixed. -/
def miniMaxScore (state : State) (depth : Int) : Option Int :=
  miniMaxScoreFuel searchFuel state depth

/-- The function `miniMaxAction` of `main.go` with the fuel fixed. -/
def miniMaxAction (state : State) (depth : Int) : Option Int :=
  miniMaxActionFuel searchFuel state depth

end Main

/-- The state of `main.go` with the same board and the same player to move as a state of
package `ttt`. -/
def State.toMain (s : State) : Main.State :=
  { board := s.Board, currentPlayer := s.CurrentPlayer }

/-- A finished game: player 1 has completed the left column with the last move, player 2
holds cells 1 and 4. -/
def columnState : State := { Board := boardOf [1, 2, 0, 1, 2, 0, 1, 0, 0], CurrentPlayer := 2 }
/-! ## The board scan and `ApplyAction` -/

theorem cells_eq_finRange : cells = List.finRange 9 := by decide

theorem legalLoop_eq (b : Fin 9 → Int) (l : List (Fin 9)) (acc : List Int) :
    l.foldl (fun actions i => if b i = 0 then actions ++ [(i.val : Int)] else actions) acc
      = acc ++ (l.filter (fun i => b i = 0)).map (fun i => (i.val : Int)) := by
  induction l generalizing acc with
  | nil => simp
  | cons x xs ih =>
    simp only [List.foldl_cons, ih]
    by_cases hx : b x = 0 <;> simp [hx, List.filter_cons]

theorem getLegalActions_eq (s : State) :
    s.GetLegalActions
      = ((List.finRange 9).filter (fun i => s.Board i = 0)).map (fun i => (i.val : Int)) := by
  unfold State.GetLegalActions
  rw [legalLoop_eq, cells_eq_finRange]
  simp

theorem mem_getLegalActions (s : State) (a : Int) :
    a ∈ s.GetLegalActions ↔ ∃ i : Fin 9, (i.val : Int) = a ∧ s.Board i = 0 := by
  rw [getLegalActions_eq]
  simp only [List.mem_map, List.mem_filter, List.mem_finRange, true_and, decide_eq_true_eq]
  constructor
  · rintro ⟨i, h0, rfl⟩
    exact ⟨i, rfl, h0⟩
  · rintro ⟨i, rfl, h0⟩
    exact ⟨i, h0, rfl⟩

theorem getLegalActions_sorted (s : State) :
    List.Pairwise (fun x y => x < y) s.GetLegalActions := by
  rw [getLegalActions_eq, List.pairwise_map]
  refine List.Pairwise.imp ?_ ((List.pairwise_lt_finRange 9).filter _)
  intro i j hij
  exact Int.ofNat_lt.mpr hij

theorem getLegalActions_nodup (s : State) : s.GetLegalActions.Nodup :=
  (getLegalActions_sorted s).imp (fun h => ne_of_lt h)

theorem mem_getLegalActions_range {s : State} {a : Int} (h : a ∈ s.GetLegalActions) :
    0 ≤ a ∧ a < 9 := by
  obtain ⟨i, rfl, -⟩ := (mem_getLegalActions s a).mp h
  have := i.isLt
  omega

theorem cellOf_val (i : Fin 9) (h : 0 ≤ (i.val : Int) ∧ (i.val : Int) < 9) :
    cellOf (i.val : Int) h = i := by
  apply Fin.ext
  simp [cellOf]

theorem val_cellOf (a : Int) (h : 0 ≤ a ∧ a < 9) : ((cellOf a h).val : Int) = a := by
  simp only [cellOf]
  omega

theorem applyAction_inRange (s : State) (a : Int) (h : 0 ≤ a ∧ a < 9) :
    s.ApplyAction a = some { Board := Function.update s.Board (cellOf a h) s.CurrentPlayer
                             CurrentPlayer := switchPlayer s.CurrentPlayer } := by
  unfold State.ApplyAction
  rw [dif_pos h]

theorem applyAction_cell (s : State) (i : Fin 9) :
    s.ApplyAction (i.val : Int)
      = some { Board := Function.update s.Board i s.CurrentPlayer
               CurrentPlayer := switchPlayer s.CurrentPlayer } := by
  have h : 0 ≤ (i.val : Int) ∧ (i.val : Int) < 9 := by
    have := i.isLt
    omega
  rw [applyAction_inRange s _ h, cellOf_val]

theorem applyAction_outOfRange (s : State) (a : Int) (h : ¬ (0 ≤ a ∧ a < 9)) :
    s.ApplyAction a = none := by
  unfold State.ApplyAction
  rw [dif_neg h]

theorem switchPlayer_one : switchPlayer 1 = 2 := by decide

theorem switchPlayer_two : switchPlayer 2 = 1 := by decide

/-! ## Claims about the game state -/

/-- C8: `GetLegalActions` is exactly the list of the indices `i` in `0..8` with
`Board[i] = 0`, in scan order; it is strictly increasing, so every empty cell appears once,
and no occupied cell appears. -/
theorem C8_getLegalActions_exact (s : State) :
    s.GetLegalActions
        = ((List.finRange 9).filter (fun i => s.Board i = 0)).map (fun i => (i.val : Int))
      ∧ List.Pairwise (fun x y => x < y) s.GetLegalActions
      ∧ s.GetLegalActions.Nodup
      ∧ (∀ i : Fin 9, s.Board i = 0 → s.GetLegalActions.count (i.val : Int) = 1)
      ∧ (∀ a ∈ s.GetLegalActions, ∃ i : Fin 9, (i.val : Int) = a ∧ s.Board i = 0)
      ∧ (∀ i : Fin 9, s.Board i ≠ 0 → (i.val : Int) ∉ s.GetLegalActions) := by
  refine ⟨getLegalActions_eq s, getLegalActions_sorted s, getLegalActions_nodup s, ?_, ?_, ?_⟩
  · intro i hi
    exact List.count_eq_one_of_mem (getLegalActions_nodup s)
      ((mem_getLegalActions s _).mpr ⟨i, rfl, hi⟩)
  · intro a ha
    exact (mem_getLegalActions s a).mp ha
  · intro i hi hmem
    obtain ⟨j, hj, hj0⟩ := (mem_getLegalActions s _).mp hmem
    have : j = i := Fin.ext (by exact_mod_cast hj)
    exact hi (this ▸ hj0)

theorem getLegalActions_apply (s : State) (i : Fin 9) (hp : s.CurrentPlayer ≠ 0) :
    State.GetLegalActions { Board := Function.update s.Board i s.CurrentPlayer
                            CurrentPlayer := switchPlayer s.CurrentPlayer }
      = s.GetLegalActions.filter (fun x => x != (i.val : Int)) := by
  rw [getLegalActions_eq, getLegalActions_eq, List.filter_map, List.filter_filter]
  congr 1
  apply List.filter_congr
  intro j _
  by_cases hji : j = i
  · subst hji
    simp [hp]
  · have hne : (j.val : Int) ≠ (i.val : Int) := by
      intro h
      exact hji (Fin.ext (by exact_mod_cast h))
    simp [Function.update_noteq hji, hne]

/-- C9: for a state whose player to move is 1 or 2 and a legal action `a`, the legal
actions are pairwise distinct, and after `ApplyAction` they are the former ones with `a`
removed, one fewer. -/
theorem C9_legal_after_apply (s : State) (a : Int)
    (hp : s.CurrentPlayer = 1 ∨ s.CurrentPlayer = 2) (ha : a ∈ s.GetLegalActions) :
    s.GetLegalActions.Nodup
      ∧ ∃ s', s.ApplyAction a = some s'
          ∧ s'.GetLegalActions = s.GetLegalActions.erase a
          ∧ (∀ b, b ∈ s'.GetLegalActions ↔ b ∈ s.GetLegalActions ∧ b ≠ a)
          ∧ s'.GetLegalActions.length + 1 = s.GetLegalActions.length := by
  refine ⟨getLegalActions_nodup s, ?_⟩
  obtain ⟨i, rfl, -⟩ := (mem_getLegalActions s a).mp ha
  have hp0 : s.CurrentPlayer ≠ 0 := by rcases hp with h | h <;> rw [h] <;> decide
  refine ⟨_, applyAction_cell s i, ?_, ?_, ?_⟩
  · rw [getLegalActions_apply s i hp0, (getLegalActions_nodup s).erase_eq_filter]
  · intro b
    rw [getLegalActions_apply s i hp0]
    simp
  · rw [getLegalActions_apply s i hp0, ← (getLegalActions_nodup s).erase_eq_filter,
      List.length_erase_of_mem ha]
    have : 0 < s.GetLegalActions.length := List.length_pos_of_mem ha
    omega

/-- C9 at the initial state and action 4: the hypotheses hold there, and so the conclusion. -/
theorem C9_legal_after_apply_witness :
    (NewState.CurrentPlayer = 1 ∨ NewState.CurrentPlayer = 2)
      ∧ (4 : Int) ∈ NewState.GetLegalActions
      ∧ NewState.GetLegalActions.Nodup
      ∧ ∃ s', NewState.ApplyAction 4 = some s'
          ∧ s'.GetLegalActions = NewState.GetLegalActions.erase 4
          ∧ (∀ b, b ∈ s'.GetLegalActions ↔ b ∈ NewState.GetLegalActions ∧ b ≠ 4)
          ∧ s'.GetLegalActions.length + 1 = NewState.GetLegalActions.length :=
  ⟨Or.inl rfl, by decide, C9_legal_after_apply NewState 4 (Or.inl rfl) (by decide)⟩

/-- C10: for a state whose player to move `p` is 1 or 2 and an in-range action `a`,
`ApplyAction` sets `Board[a]` to `p`, leaves every other cell unchanged and gives the turn to
the other player (1 becomes 2, 2 becomes 1); a second action returns the turn to `p`. -/
theorem C10_applyAction_effect (s : State) (a : Int)
    (hp : s.CurrentPlayer = 1 ∨ s.CurrentPlayer = 2) (ha : 0 ≤ a ∧ a < 9) :
    ∃ s', s.ApplyAction a = some s'
      ∧ s'.Board (cellOf a ha) = s.CurrentPlayer
      ∧ (∀ i : Fin 9, (i.val : Int) ≠ a → s'.Board i = s.Board i)
      ∧ s'.CurrentPlayer = 3 - s.CurrentPlayer
      ∧ (s.CurrentPlayer = 1 → s'.CurrentPlayer = 2)
      ∧ (s.CurrentPlayer = 2 → s'.CurrentPlayer = 1)
      ∧ ∀ b : Int, 0 ≤ b ∧ b < 9 →
          ∃ s'', s'.ApplyAction b = some s'' ∧ s''.CurrentPlayer = s.CurrentPlayer := by
  refine ⟨_, applyAction_inRange s a ha, ?_, ?_, ?_, ?_, ?_, ?_⟩
  · simp
  · intro i hi
    have hne : i ≠ cellOf a ha := by
      intro h
      exact hi (h ▸ val_cellOf a ha)
    simp [Function.update_noteq hne]
  · rcases hp with h | h <;> simp only [h] <;> decide
  · intro h
    simp only [h]
    decide
  · intro h
    simp only [h]
    decide
  · intro b hb
    refine ⟨_, applyAction_inRange _ b hb, ?_⟩
    rcases hp with h | h <;> simp only [h] <;> decide

/-- C10 at the initial state, action 4: the hypotheses hold there, and so the conclusion. -/
theorem C10_applyAction_effect_witness :
    (NewState.CurrentPlayer = 1 ∨ NewState.CurrentPlayer = 2) ∧ ((0 : Int) ≤ 4 ∧ (4 : Int) < 9)
    ∧ ∃ s', NewState.ApplyAction 4 = some s'
      ∧ s'.Board (cellOf 4 (by decide)) = NewState.CurrentPlayer
      ∧ (∀ i : Fin 9, (i.val : Int) ≠ 4 → s'.Board i = NewState.Board i)
      ∧ s'.CurrentPlayer = 3 - NewState.CurrentPlayer
      ∧ (NewState.CurrentPlayer = 1 → s'.CurrentPlayer = 2)
      ∧ (NewState.CurrentPlayer = 2 → s'.CurrentPlayer = 1)
      ∧ ∀ b : Int, 0 ≤ b ∧ b < 9 →
          ∃ s'', s'.ApplyAction b = some s'' ∧ s''.CurrentPlayer = NewState.CurrentPlayer :=
  ⟨Or.inl rfl, by decide, C10_applyAction_effect NewState 4 (Or.inl rfl) (by decide)⟩

/-- C1 fails on an occupied cell: `ApplyAction` succeeds on cell 0 of `occupiedState`, which
holds a 1, and overwrites it with a 2. -/
theorem C1_occupied_cell_overwritten :
    occupiedState.Board 0 = 1
      ∧ (occupiedState.ApplyAction 0).isSome = true
      ∧ (occupiedState.ApplyAction 0).map (fun s => s.Board 0) = some 2 := by
  decide

/-- C1 amended: `ApplyAction` fails exactly when the action is outside `0..8` (the
index-out-of-range panic); on every cell of the board, occupied or not, it succeeds, writes
the current player into the cell and switches the player. -/
theorem C1_applyAction_fails_iff (s : State) (a : Int) :
    (s.ApplyAction a = none ↔ ¬ (0 ≤ a ∧ a < 9))
      ∧ ∀ i : Fin 9, s.ApplyAction (i.val : Int)
          = some { Board := Function.update s.Board i s.CurrentPlayer
                   CurrentPlayer := switchPlayer s.CurrentPlayer } := by
  refine ⟨?_, applyAction_cell s⟩
  constructor
  · intro hnone hr
    rw [applyAction_inRange s a hr] at hnone
    exact Option.noConfusion hnone
  · exact applyAction_outOfRange s a

/-! ## The search loops -/

theorem wrap64_neg_small {r : Int} (h : r = -1 ∨ r = 0 ∨ r = 1) : wrap64 (-r) = -r := by
  rcases h with h | h | h <;> subst h <;> decide

theorem foldlM_of_scores {β : Type} (c g : Int → Option Int) (upd : β → Int → Int → β)
    (l : List Int) (init : β) (h : ∀ a ∈ l, c a = g a) :
    l.foldlM (fun b a => (c a).bind fun sc => some (upd b a sc)) init
      = l.foldlM (fun b a => (g a).bind fun sc => some (upd b a sc)) init := by
  induction l generalizing init with
  | nil => rfl
  | cons x xs ih =>
    simp only [List.foldlM_cons]
    rw [h x (List.mem_cons_self _ _)]
    cases g x with
    | none => rfl
    | some v =>
      simp only [Option.some_bind, Option.bind_eq_bind]
      exact ih _ (fun a ha => h a (List.mem_cons_of_mem _ ha))

theorem scoreLoop_eq (fuel : Nat) (state : State) (depth : Int) (l : List Int) (init : Int) :
    l.foldlM (fun bestScore action =>
        (state.ApplyAction action).bind fun nextState =>
        (miniMaxScoreFuel fuel nextState depth).bind fun r =>
        let score := wrap64 (-r)
        some (if score > bestScore then score else bestScore)) init
      = l.foldlM (fun b a => (childScore fuel state depth a).bind fun sc =>
          some (if sc > b then sc else b)) init := by
  congr 1
  funext b a
  simp only [childScore, Option.bind_assoc, Option.some_bind]

theorem actionLoop_eq (fuel : Nat) (state : State) (depth : Int) (l : List Int)
    (init : Int × Int) :
    l.foldlM (fun (best : Int × Int) action =>
        (state.ApplyAction action).bind fun nextState =>
        (miniMaxScoreFuel fuel nextState depth).bind fun r =>
        let score := wrap64 (-r)
        some (if score > best.2 then (action, score) else best)) init
      = l.foldlM (fun b a => (childScore fuel state depth a).bind fun sc =>
          some (if sc > b.2 then (a, sc) else b)) init := by
  congr 1
  funext b a
  simp only [childScore, Option.bind_assoc, Option.some_bind]

theorem foldlM_getD {β : Type} (c : Int → Option Int) (upd : β → Int → Int → β)
    (l : List Int) (init : β) (h : ∀ a ∈ l, ∃ v, c a = some v) :
    l.foldlM (fun b a => (c a).bind fun sc => some (upd b a sc)) init
      = some (l.foldl (fun b a => upd b a ((c a).getD 0)) init) := by
  induction l generalizing init with
  | nil => rfl
  | cons x xs ih =>
    obtain ⟨v, hv⟩ := h x (List.mem_cons_self _ _)
    simp only [List.foldlM_cons, List.foldl_cons, hv, Option.some_bind, Option.bind_eq_bind,
      Option.getD_some]
    exact ih _ (fun a ha => h a (List.mem_cons_of_mem _ ha))

/-! ### The running maximum of `miniMaxScore` -/

theorem maxLoop_ge_init (g : Int → Int) (l : List Int) (init : Int) :
    init ≤ l.foldl (fun b a => if g a > b then g a else b) init := by
  induction l generalizing init with
  | nil => exact le_refl _
  | cons x xs ih =>
    simp only [List.foldl_cons]
    refine le_trans ?_ (ih _)
    split <;> omega

theorem maxLoop_ge (g : Int → Int) (l : List Int) (init : Int) :
    ∀ a ∈ l, g a ≤ l.foldl (fun b a => if g a > b then g a else b) init := by
  induction l generalizing init with
  | nil => intro a ha; cases ha
  | cons x xs ih =>
    intro a ha
    simp only [List.foldl_cons]
    rcases List.mem_cons.mp ha with rfl | hmem
    · refine le_trans ?_ (maxLoop_ge_init g xs _)
      split <;> omega
    · exact ih _ a hmem

theorem maxLoop_mem (g : Int → Int) (l : List Int) (init : Int) :
    l.foldl (fun b a => if g a > b then g a else b) init = init
      ∨ ∃ a ∈ l, l.foldl (fun b a => if g a > b then g a else b) init = g a := by
  induction l generalizing init with
  | nil => exact Or.inl rfl
  | cons x xs ih =>
    simp only [List.foldl_cons]
    rcases ih (if g x > init then g x else init) with h | ⟨a, ha, h⟩
    · rw [h]
      by_cases hx : g x > init
      · rw [if_pos hx]
        exact Or.inr ⟨x, List.mem_cons_self _ _, rfl⟩
      · rw [if_neg hx]
        exact Or.inl rfl
    · exact Or.inr ⟨a, List.mem_cons_of_mem _ ha, h⟩

/-- On a non-empty list of scores above `math.MinInt` the loop returns the score of an
element, and it is the greatest. -/
theorem maxLoop_spec (g : Int → Int) (l : List Int) (hl : l ≠ [])
    (hg : ∀ a ∈ l, minInt < g a) :
    (∃ a ∈ l, l.foldl (fun b a => if g a > b then g a else b) minInt = g a)
      ∧ ∀ a ∈ l, g a ≤ l.foldl (fun b a => if g a > b then g a else b) minInt := by
  refine ⟨?_, maxLoop_ge g l minInt⟩
  rcases maxLoop_mem g l minInt with h | h
  · obtain ⟨x, hx⟩ := List.exists_mem_of_ne_nil l hl
    have h1 := maxLoop_ge g l minInt x hx
    have h2 := hg x hx
    rw [h] at h1
    omega
  · exact h

/-! ### The running best action of `miniMaxAction` -/

theorem pickLoop_spec (g : Int → Int) (l : List Int) (hs : List.Pairwise (fun x y => x < y) l)
    (init : Int × Int) :
    let r := l.foldl (fun (b : Int × Int) a => if g a > b.2 then (a, g a) else b) init
    (r = init ∧ ∀ b ∈ l, g b ≤ init.2)
      ∨ (r.1 ∈ l ∧ r.2 = g r.1 ∧ init.2 < r.2 ∧ (∀ b ∈ l, g b ≤ r.2)
          ∧ ∀ b ∈ l, g b = r.2 → r.1 ≤ b) := by
  induction l generalizing init with
  | nil =>
    left
    exact ⟨rfl, fun b hb => by cases hb⟩
  | cons x xs ih =>
    simp only [List.foldl_cons]
    have hxs := (List.pairwise_cons.mp hs).2
    have hx := (List.pairwise_cons.mp hs).1
    by_cases hgx : g x > init.2
    · rw [if_pos hgx]
      rcases ih hxs (x, g x) with ⟨h1, h2⟩ | ⟨h1, h2, h3, h4, h5⟩
      · right
        rw [h1]
        refine ⟨List.mem_cons_self _ _, rfl, hgx, ?_, ?_⟩
        · intro b hb
          rcases List.mem_cons.mp hb with rfl | hmem
          · exact le_refl _
          · exact h2 b hmem
        · intro b hb _
          rcases List.mem_cons.mp hb with rfl | hmem
          · exact le_refl _
          · exact le_of_lt (hx b hmem)
      · right
        simp only at h3
        refine ⟨List.mem_cons_of_mem _ h1, h2, by omega, ?_, ?_⟩
        · intro b hb
          rcases List.mem_cons.mp hb with rfl | hmem
          · omega
          · exact h4 b hmem
        · intro b hb hb2
          rcases List.mem_cons.mp hb with rfl | hmem
          · omega
          · exact h5 b hmem hb2
    · rw [if_neg hgx]
      rcases ih hxs init with ⟨h1, h2⟩ | ⟨h1, h2, h3, h4, h5⟩
      · left
        refine ⟨h1, ?_⟩
        intro b hb
        rcases List.mem_cons.mp hb with rfl | hmem
        · omega
        · exact h2 b hmem
      · right
        refine ⟨List.mem_cons_of_mem _ h1, h2, h3, ?_, ?_⟩
        · intro b hb
          rcases List.mem_cons.mp hb with rfl | hmem
          · omega
          · exact h4 b hmem
        · intro b hb hb2
          rcases List.mem_cons.mp hb with rfl | hmem
          · omega
          · exact h5 b hmem hb2

/-! ## Termination of the search: the fuel is enough -/

theorem getScore_range (s : State) : s.GetScore = -1 ∨ s.GetScore = 0 ∨ s.GetScore = 1 := by
  unfold State.GetScore
  simp only
  split
  · exact Or.inr (Or.inr rfl)
  · split
    · exact Or.inl rfl
    · exact Or.inr (Or.inl rfl)

theorem score_of_terminal (fuel : Nat) (s : State) (d : Int) (h : s.IsTerminal = true) :
    miniMaxScoreFuel (fuel + 1) s d = some s.GetScore := by
  simp [miniMaxScoreFuel, h]

theorem score_of_depth_zero (fuel : Nat) (s : State) :
    miniMaxScoreFuel (fuel + 1) s 0 = some s.GetScore := by
  simp [miniMaxScoreFuel]

theorem legal_ne_nil_of_not_terminal {s : State} (h : s.IsTerminal = false) :
    s.GetLegalActions ≠ [] := by
  intro hnil
  simp [State.IsTerminal, hnil] at h

theorem score_of_step (fuel : Nat) (s : State) (d : Int) (h : s.IsTerminal = false)
    (hd : d ≠ 0) :
    miniMaxScoreFuel (fuel + 1) s d
      = s.GetLegalActions.foldlM (fun b a =>
          (childScore fuel s (wrap64 (d - 1)) a).bind fun sc =>
            some (if sc > b then sc else b)) minInt := by
  have hlen : s.GetLegalActions.length ≠ 0 := by
    intro h0
    exact legal_ne_nil_of_not_terminal h (List.length_eq_zero.mp h0)
  rw [← scoreLoop_eq]
  simp [miniMaxScoreFuel, h, hd, hlen]

theorem action_eq (fuel : Nat) (s : State) (d : Int) :
    miniMaxActionFuel fuel s d
      = (s.GetLegalActions.foldlM (fun (b : Int × Int) a =>
          (childScore fuel s d a).bind fun sc =>
            some (if sc > b.2 then (a, sc) else b)) (-1, minInt)).map Prod.fst := by
  unfold miniMaxActionFuel
  rw [actionLoop_eq]

theorem length_getLegalActions_le (s : State) : s.GetLegalActions.length ≤ 9 := by
  rw [getLegalActions_eq, List.length_map]
  exact le_trans (List.length_filter_le _ _) (by simp)

theorem plyBound_le (s : State) : plyBound s ≤ 19 := by
  have := length_getLegalActions_le s
  unfold plyBound
  split <;> omega

theorem plyBound_apply (s : State) (i : Fin 9) (h0 : s.Board i = 0) :
    plyBound { Board := Function.update s.Board i s.CurrentPlayer
               CurrentPlayer := switchPlayer s.CurrentPlayer } < plyBound s := by
  have hmem : (i.val : Int) ∈ s.GetLegalActions := (mem_getLegalActions s _).mpr ⟨i, rfl, h0⟩
  by_cases hp : s.CurrentPlayer = 0
  · have hb : Function.update s.Board i s.CurrentPlayer = s.Board := by
      rw [hp, ← h0]
      exact Function.update_eq_self i s.Board
    have hsw : switchPlayer s.CurrentPlayer ≠ 0 := by
      rw [hp]
      decide
    simp only [plyBound, hb, if_neg hsw, if_pos hp]
    have : State.GetLegalActions { Board := s.Board, CurrentPlayer := switchPlayer s.CurrentPlayer }
        = s.GetLegalActions := rfl
    rw [this]
    omega
  · have hlen : (s.GetLegalActions.filter (fun x => x != (i.val : Int))).length + 1
        = s.GetLegalActions.length := by
      rw [← (getLegalActions_nodup s).erase_eq_filter, List.length_erase_of_mem hmem]
      have : 0 < s.GetLegalActions.length := List.length_pos_of_mem hmem
      omega
    simp only [plyBound, getLegalActions_apply s i hp, if_neg hp]
    split <;> omega

/-- Every legal action can be applied, and the successor has a smaller ply bound. -/
theorem apply_legal {s : State} {a : Int} (ha : a ∈ s.GetLegalActions) :
    ∃ s', s.ApplyAction a = some s' ∧ plyBound s' < plyBound s := by
  obtain ⟨i, rfl, h0⟩ := (mem_getLegalActions s a).mp ha
  exact ⟨_, applyAction_cell s i, plyBound_apply s i h0⟩

/-- With fuel above the ply bound `miniMaxScore` returns, and the score is -1, 0 or 1. -/
theorem score_total (fuel : Nat) (s : State) (d : Int) (hf : plyBound s < fuel) :
    ∃ r, miniMaxScoreFuel fuel s d = some r ∧ (r = -1 ∨ r = 0 ∨ r = 1) := by
  induction fuel generalizing s d with
  | zero => omega
  | succ fuel ih =>
    by_cases ht : s.IsTerminal = true
    · exact ⟨_, score_of_terminal fuel s d ht, getScore_range s⟩
    · by_cases hd : d = 0
      · subst hd
        exact ⟨_, score_of_depth_zero fuel s, getScore_range s⟩
      · have ht' : s.IsTerminal = false := by simpa using ht
        have hchild : ∀ a ∈ s.GetLegalActions, ∃ v,
            childScore fuel s (wrap64 (d - 1)) a = some v ∧ (v = -1 ∨ v = 0 ∨ v = 1) := by
          intro a ha
          obtain ⟨s', hs', hlt⟩ := apply_legal ha
          obtain ⟨r, hr, hrange⟩ := ih s' (wrap64 (d - 1)) (by omega)
          refine ⟨wrap64 (-r), ?_, ?_⟩
          · simp [childScore, hs', hr]
          · rw [wrap64_neg_small hrange]
            omega
        rw [score_of_step fuel s d ht' hd,
          foldlM_getD _ (fun b _ sc => if sc > b then sc else b) _ _
            (fun a ha => (hchild a ha).imp fun _ h => h.1)]
        refine ⟨_, rfl, ?_⟩
        have hspec := maxLoop_spec (fun a => (childScore fuel s (wrap64 (d - 1)) a).getD 0)
          s.GetLegalActions (legal_ne_nil_of_not_terminal ht') (by
            intro a ha
            obtain ⟨v, hv, hrange⟩ := hchild a ha
            simp only [hv, Option.getD_some, minInt]
            omega)
        obtain ⟨a, ha, heq⟩ := hspec.1
        rw [heq]
        obtain ⟨v, hv, hrange⟩ := hchild a ha
        simpa [hv] using hrange

/-- The result of `miniMaxScore` does not depend on the fuel, once above the ply bound. -/
theorem score_fuel_irrelevant (f1 f2 : Nat) (s : State) (d : Int)
    (h1 : plyBound s < f1) (h2 : plyBound s < f2) :
    miniMaxScoreFuel f1 s d = miniMaxScoreFuel f2 s d := by
  induction f1 generalizing f2 s d with
  | zero => omega
  | succ f1 ih =>
    cases f2 with
    | zero => omega
    | succ f2 =>
      by_cases ht : s.IsTerminal = true
      · rw [score_of_terminal f1 s d ht, score_of_terminal f2 s d ht]
      · by_cases hd : d = 0
        · subst hd
          rw [score_of_depth_zero, score_of_depth_zero]
        · have ht' : s.IsTerminal = false := by simpa using ht
          rw [score_of_step f1 s d ht' hd, score_of_step f2 s d ht' hd]
          apply foldlM_of_scores
          intro a ha
          obtain ⟨s', hs', hlt⟩ := apply_legal ha
          simp only [childScore, hs', Option.some_bind]
          rw [ih f2 s' _ (by omega) (by omega)]

theorem childScore_total (fuel : Nat) (s : State) (d : Int) (hf : plyBound s ≤ fuel)
    {a : Int} (ha : a ∈ s.GetLegalActions) :
    ∃ v, childScore fuel s d a = some v ∧ (v = -1 ∨ v = 0 ∨ v = 1) := by
  obtain ⟨s', hs', hlt⟩ := apply_legal ha
  obtain ⟨r, hr, hrange⟩ := score_total fuel s' d (by omega)
  refine ⟨wrap64 (-r), ?_, ?_⟩
  · simp [childScore, hs', hr]
  · rw [wrap64_neg_small hrange]
    omega

/-- With fuel `searchFuel` or more, `miniMaxAction` gives the same result. -/
theorem action_fuel_irrelevant (fuel : Nat) (s : State) (d : Int) (hf : searchFuel ≤ fuel) :
    miniMaxActionFuel fuel s d = miniMaxAction s d := by
  unfold miniMaxAction
  rw [action_eq, action_eq]
  congr 1
  apply foldlM_of_scores
  intro a ha
  obtain ⟨s', hs', -⟩ := apply_legal ha
  have hb := plyBound_le s'
  simp only [childScore, hs', Option.some_bind]
  rw [score_fuel_irrelevant fuel searchFuel s' d (by unfold searchFuel at hf; omega)
    (by unfold searchFuel; omega)]

/-! ## What `miniMaxAction` returns -/

theorem childScore_unpack (s : State) (d : Int) {a : Int} (ha : a ∈ s.GetLegalActions) :
    ∃ s' r, s.ApplyAction a = some s' ∧ miniMaxScore s' d = some r
      ∧ (r = -1 ∨ r = 0 ∨ r = 1) ∧ childScore searchFuel s d a = some (-r) := by
  obtain ⟨s', hs', -⟩ := apply_legal ha
  have hb := plyBound_le s'
  obtain ⟨r, hr, hrange⟩ := score_total searchFuel s' d (by unfold searchFuel; omega)
  refine ⟨s', r, hs', hr, hrange, ?_⟩
  simp [childScore, hs', hr, wrap64_neg_small hrange]

/-- The action returned on a state with a legal action: it is legal, its negated score is
the greatest, and it is the least action with that score. -/
theorem action_spec (s : State) (d : Int) (h : s.GetLegalActions ≠ []) :
    ∃ a va, miniMaxAction s d = some a ∧ a ∈ s.GetLegalActions
      ∧ childScore searchFuel s d a = some va
      ∧ ∀ b ∈ s.GetLegalActions, ∃ vb, childScore searchFuel s d b = some vb
          ∧ vb ≤ va ∧ (vb = va → a ≤ b) := by
  have hsome : ∀ a ∈ s.GetLegalActions, ∃ v, childScore searchFuel s d a = some v := by
    intro a ha
    obtain ⟨s', r, -, -, -, hc⟩ := childScore_unpack s d ha
    exact ⟨_, hc⟩
  have hgt : ∀ a ∈ s.GetLegalActions, minInt < (childScore searchFuel s d a).getD 0 := by
    intro a ha
    obtain ⟨s', r, -, -, hrange, hc⟩ := childScore_unpack s d ha
    simp only [hc, Option.getD_some, minInt]
    omega
  unfold miniMaxAction
  rw [action_eq, foldlM_getD _ (fun (b : Int × Int) a sc => if sc > b.2 then (a, sc) else b)
    _ _ hsome]
  have hspec := pickLoop_spec (fun a => (childScore searchFuel s d a).getD 0)
    s.GetLegalActions (getLegalActions_sorted s) (-1, minInt)
  simp only at hspec
  rcases hspec with ⟨-, h2⟩ | ⟨h1, h2, -, h4, h5⟩
  · exfalso
    obtain ⟨x, hx⟩ := List.exists_mem_of_ne_nil _ h
    have := h2 x hx
    have := hgt x hx
    omega
  · obtain ⟨v, hv⟩ := hsome _ h1
    refine ⟨_, v, rfl, h1, hv, ?_⟩
    rw [hv, Option.getD_some] at h2
    intro b hb
    obtain ⟨vb, hvb⟩ := hsome b hb
    refine ⟨vb, hvb, ?_, ?_⟩
    · have := h4 b hb
      rw [hvb, Option.getD_some] at this
      omega
    · intro hbv
      apply h5 b hb
      rw [hvb, Option.getD_some]
      omega

theorem action_of_no_legal (s : State) (d : Int) (h : s.GetLegalActions = []) :
    miniMaxAction s d = some (-1) := by
  unfold miniMaxAction
  rw [action_eq, h]
  rfl

theorem legal_ne_nil_iff (s : State) : s.GetLegalActions ≠ [] ↔ ∃ i : Fin 9, s.Board i = 0 := by
  constructor
  · intro h
    obtain ⟨a, ha⟩ := List.exists_mem_of_ne_nil _ h
    obtain ⟨i, -, hi⟩ := (mem_getLegalActions s a).mp ha
    exact ⟨i, hi⟩
  · rintro ⟨i, hi⟩ hnil
    have : (i.val : Int) ∈ s.GetLegalActions := (mem_getLegalActions s _).mpr ⟨i, rfl, hi⟩
    rw [hnil] at this
    cases this

/-- C2 fails on a won board with empty cells: `wonState` is terminal (player 1 holds the
top row) and `miniMaxAction` returns the empty cell 5, not -1. -/
theorem C2_won_board_gets_action :
    wonState.IsTerminal = true ∧ wonState.GetWinner = 1 ∧ miniMaxAction wonState 9 = some 5 := by
  decide

/-- C2 amended: for every state and depth, `miniMaxAction` returns the sentinel -1 exactly
when the board has no empty cell; on a board with an empty cell, won or not, it returns a
legal action. -/
theorem C2_sentinel_iff_full (s : State) (d : Int) :
    (miniMaxAction s d = some (-1) ↔ ∀ i : Fin 9, s.Board i ≠ 0)
      ∧ ((∃ i : Fin 9, s.Board i = 0) ↔ ∃ a ∈ s.GetLegalActions, miniMaxAction s d = some a) := by
  have hfull : (∀ i : Fin 9, s.Board i ≠ 0) ↔ s.GetLegalActions = [] := by
    rw [← not_iff_not, ← ne_eq, legal_ne_nil_iff]
    push_neg
    rfl
  constructor
  · rw [hfull]
    constructor
    · intro hm
      by_contra hne
      obtain ⟨a, va, ha, hmem, -⟩ := action_spec s d hne
      rw [ha] at hm
      have := mem_getLegalActions_range hmem
      have : a = -1 := Option.some.inj hm
      omega
    · exact action_of_no_legal s d
  · rw [← legal_ne_nil_iff]
    constructor
    · intro hne
      obtain ⟨a, va, ha, hmem, -⟩ := action_spec s d hne
      exact ⟨a, hmem, ha⟩
    · rintro ⟨a, hmem, -⟩ hnil
      rw [hnil] at hmem
      cases hmem

/-- C3: on a state with at least one empty cell, for every depth (zero and negative
included), `miniMaxAction` returns an element of `GetLegalActions`, never -1. -/
theorem C3_action_is_legal (s : State) (d : Int) (h : ∃ i : Fin 9, s.Board i = 0) :
    ∃ a, miniMaxAction s d = some a ∧ a ∈ s.GetLegalActions ∧ a ≠ -1 := by
  obtain ⟨a, va, ha, hmem, -⟩ := action_spec s d ((legal_ne_nil_iff s).mpr h)
  refine ⟨a, ha, hmem, ?_⟩
  have := mem_getLegalActions_range hmem
  omega

/-- C3 on the won board `wonState`, which has an empty cell, at depth -3. -/
theorem C3_action_is_legal_witness :
    (∃ i : Fin 9, wonState.Board i = 0)
      ∧ ∃ a, miniMaxAction wonState (-3) = some a ∧ a ∈ wonState.GetLegalActions ∧ a ≠ -1 :=
  ⟨⟨5, by decide⟩, C3_action_is_legal wonState (-3) ⟨5, by decide⟩⟩

/-- C4: on a state with at least one empty cell, `miniMaxAction` returns the legal action
that maximises the negated `miniMaxScore` of the position after it, and among the maximisers
the one with the smallest cell index. -/
theorem C4_action_is_first_argmax (s : State) (d : Int) (h : ∃ i : Fin 9, s.Board i = 0) :
    ∃ a s' r, miniMaxAction s d = some a ∧ a ∈ s.GetLegalActions
      ∧ s.ApplyAction a = some s' ∧ miniMaxScore s' d = some r
      ∧ ∀ b ∈ s.GetLegalActions, ∃ t q, s.ApplyAction b = some t ∧ miniMaxScore t d = some q
          ∧ -q ≤ -r ∧ (-q = -r → a ≤ b) := by
  obtain ⟨a, va, ha, hmem, hva, hall⟩ := action_spec s d ((legal_ne_nil_iff s).mpr h)
  obtain ⟨s', r, hs', hr, -, hc⟩ := childScore_unpack s d hmem
  have hvr : va = -r := by
    rw [hc] at hva
    exact (Option.some.inj hva).symm
  refine ⟨a, s', r, ha, hmem, hs', hr, ?_⟩
  intro b hb
  obtain ⟨vb, hvb, hle, hfirst⟩ := hall b hb
  obtain ⟨t, q, ht, hq, -, hcb⟩ := childScore_unpack s d hb
  have hvq : vb = -q := by
    rw [hcb] at hvb
    exact (Option.some.inj hvb).symm
  refine ⟨t, q, ht, hq, by omega, ?_⟩
  intro heq
  exact hfirst (by omega)

/-- C4 on the initial state, which has an empty cell, at depth 1. -/
theorem C4_action_is_first_argmax_witness :
    (∃ i : Fin 9, NewState.Board i = 0)
    ∧ ∃ a s' r, miniMaxAction NewState 1 = some a ∧ a ∈ NewState.GetLegalActions
      ∧ NewState.ApplyAction a = some s' ∧ miniMaxScore s' 1 = some r
      ∧ ∀ b ∈ NewState.GetLegalActions, ∃ t q, NewState.ApplyAction b = some t
          ∧ miniMaxScore t 1 = some q ∧ -q ≤ -r ∧ (-q = -r → a ≤ b) :=
  ⟨⟨0, rfl⟩, C4_action_is_first_argmax NewState 1 ⟨0, rfl⟩⟩

/-! ## Legal games, lines and winners -/

theorem state_ext {s t : State} (hb : ∀ i, s.Board i = t.Board i)
    (hp : s.CurrentPlayer = t.CurrentPlayer) : s = t := by
  cases s
  cases t
  simp only [State.mk.injEq]
  exact ⟨funext hb, hp⟩

theorem reachable_playFrom (s : State) (moves : List Int) (t : State) (hs : Reachable s)
    (h : playFrom s moves = some t) : Reachable t := by
  induction moves generalizing s with
  | nil =>
    simp only [playFrom, Option.some.injEq] at h
    exact h ▸ hs
  | cons a rest ih =>
    simp only [playFrom] at h
    split at h
    · rename_i hcond
      cases hs' : s.ApplyAction a with
      | none => simp [hs'] at h
      | some s' =>
        rw [hs', Option.some_bind] at h
        exact ih s' (Reachable.step s s' a hs hcond.1 hcond.2 hs') h
    · exact Option.noConfusion h

theorem reachable_player {s : State} (h : Reachable s) :
    s.CurrentPlayer = 1 ∨ s.CurrentPlayer = 2 := by
  induction h with
  | init => exact Or.inl rfl
  | step s s' a _ _ ha happ ih =>
    have hr := mem_getLegalActions_range ha
    rw [applyAction_inRange s a hr] at happ
    have := Option.some.inj happ
    subst this
    rcases ih with h | h
    · right
      simp only [h]
      decide
    · left
      simp only [h]
      decide

theorem scanLines_eq_zero_iff (b : Fin 9 → Int) (L : List (Fin 9 × Fin 9 × Fin 9)) :
    scanLines b L = 0 ↔ ∀ l ∈ L, ¬ lineComplete b l := by
  induction L with
  | nil => simp [scanLines]
  | cons x xs ih =>
    simp only [scanLines, List.forall_mem_cons]
    by_cases hx : b x.1 ≠ 0 ∧ b x.1 = b x.2.1 ∧ b x.1 = b x.2.2
    · rw [if_pos hx]
      constructor
      · intro h0
        exact absurd h0 hx.1
      · intro h
        exact absurd hx h.1
    · rw [if_neg hx, ih]
      constructor
      · intro h
        exact ⟨hx, h⟩
      · intro h
        exact h.2

theorem scanLines_ne_zero (b : Fin 9 → Int) (L : List (Fin 9 × Fin 9 × Fin 9))
    (h : scanLines b L ≠ 0) : ∃ l ∈ L, lineComplete b l ∧ scanLines b L = b l.1 := by
  induction L with
  | nil => exact absurd rfl h
  | cons x xs ih =>
    simp only [scanLines] at h ⊢
    by_cases hx : b x.1 ≠ 0 ∧ b x.1 = b x.2.1 ∧ b x.1 = b x.2.2
    · rw [if_pos hx]
      exact ⟨x, List.mem_cons_self _ _, hx, rfl⟩
    · rw [if_neg hx] at h ⊢
      obtain ⟨l, hl, hc, he⟩ := ih h
      exact ⟨l, List.mem_cons_of_mem _ hl, hc, he⟩

/-- After a mark `p ≠ 0` on a board without a complete line, a complete line goes through
the marked cell and holds `p`. -/
theorem lineComplete_update {b : Fin 9 → Int} {p : Int} {c : Fin 9}
    {l : Fin 9 × Fin 9 × Fin 9} (hl : l ∈ lines) (h0 : scanLines b lines = 0)
    (hc : lineComplete (Function.update b c p) l) :
    (l.1 = c ∨ l.2.1 = c ∨ l.2.2 = c)
      ∧ (l.1 ≠ c → b l.1 = p) ∧ (l.2.1 ≠ c → b l.2.1 = p) ∧ (l.2.2 ≠ c → b l.2.2 = p)
      ∧ Function.update b c p l.1 = p := by
  have hnot := (scanLines_eq_zero_iff b lines).mp h0 l hl
  unfold lineComplete at hc hnot
  by_cases h1 : l.1 = c <;> by_cases h2 : l.2.1 = c <;> by_cases h3 : l.2.2 = c <;>
    simp only [Function.update_apply, h1, h2, h3, if_true, if_false, ne_eq, not_true_eq_false,
      not_false_eq_true, true_or, or_true, or_false, false_or, true_and, and_true,
      false_implies, true_implies, and_self] at hc hnot ⊢ <;>
    first
      | exact absurd hc hnot
      | (obtain ⟨ha, hb, hd⟩ := hc; refine ⟨?_, ?_⟩ <;> omega)
      | (obtain ⟨ha, hb, hd⟩ := hc; omega)

theorem applyAction_mark (s : State) (i : Fin 9) :
    s.ApplyAction (i.val : Int) = some (s.mark i) :=
  applyAction_cell s i

theorem plyBound_mark (s : State) (i : Fin 9) (h0 : s.Board i = 0) :
    plyBound (s.mark i) < plyBound s :=
  plyBound_apply s i h0

theorem mark_winner_cases (s : State) (i : Fin 9) (h0 : s.GetWinner = 0) :
    (s.mark i).GetWinner = 0 ∨ (s.mark i).GetWinner = s.CurrentPlayer := by
  by_cases h : (s.mark i).GetWinner = 0
  · exact Or.inl h
  · right
    obtain ⟨l, hl, hc, he⟩ := scanLines_ne_zero _ lines h
    have := lineComplete_update hl h0 hc
    exact he.trans this.2.2.2.2

theorem mark_winner_iff (s : State) (i : Fin 9) (h0 : s.GetWinner = 0)
    (hp : s.CurrentPlayer ≠ 0) (hi : s.Board i = 0) :
    (s.mark i).GetWinner = s.CurrentPlayer ↔ completesLine s.Board s.CurrentPlayer i := by
  constructor
  · intro hw
    have hne : (s.mark i).GetWinner ≠ 0 := by
      rw [hw]
      exact hp
    obtain ⟨l, hl, hc, -⟩ := scanLines_ne_zero _ lines hne
    have := lineComplete_update hl h0 hc
    exact ⟨hi, l, hl, this.1, this.2.1, this.2.2.1, this.2.2.2.1⟩
  · rintro ⟨-, l, hl, hmem, h1, h2, h3⟩
    have hcell : ∀ j : Fin 9, (j ≠ i → s.Board j = s.CurrentPlayer) →
        Function.update s.Board i s.CurrentPlayer j = s.CurrentPlayer := by
      intro j hj
      by_cases hji : j = i
      · rw [hji, Function.update_same]
      · rw [Function.update_noteq hji, hj hji]
    have hc : lineComplete (Function.update s.Board i s.CurrentPlayer) l := by
      unfold lineComplete
      rw [hcell _ h1, hcell _ h2, hcell _ h3]
      exact ⟨hp, rfl, rfl⟩
    have hne : (s.mark i).GetWinner ≠ 0 := by
      intro hz
      exact (scanLines_eq_zero_iff _ lines).mp hz l hl hc
    rcases mark_winner_cases s i h0 with h | h
    · exact absurd h hne
    · exact h

theorem mark_player (s : State) (i : Fin 9) (hp : s.CurrentPlayer = 1 ∨ s.CurrentPlayer = 2) :
    ((s.mark i).CurrentPlayer = 1 ∨ (s.mark i).CurrentPlayer = 2)
      ∧ (s.mark i).CurrentPlayer ≠ s.CurrentPlayer
      ∧ switchPlayer (s.mark i).CurrentPlayer = s.CurrentPlayer := by
  rcases hp with h | h <;> simp only [State.mark, h] <;> decide

theorem player_ne_zero {s : State} (hp : s.CurrentPlayer = 1 ∨ s.CurrentPlayer = 2) :
    s.CurrentPlayer ≠ 0 := by
  rcases hp with h | h <;> rw [h] <;> decide

theorem getScore_no_winner (t : State) (h0 : t.GetWinner = 0)
    (hp : t.CurrentPlayer = 1 ∨ t.CurrentPlayer = 2) : t.GetScore = 0 := by
  unfold State.GetScore
  simp only [h0]
  rcases hp with h | h <;> simp only [h] <;> decide

theorem getScore_mark_won (s : State) (i : Fin 9)
    (hp : s.CurrentPlayer = 1 ∨ s.CurrentPlayer = 2)
    (hw : (s.mark i).GetWinner = s.CurrentPlayer) : (s.mark i).GetScore = -1 := by
  obtain ⟨-, hne, hsw⟩ := mark_player s i hp
  unfold State.GetScore
  simp only [hw, hsw, if_neg (Ne.symm hne), if_true]

theorem isTerminal_of_winner (t : State) (h : t.GetWinner ≠ 0) : t.IsTerminal = true := by
  simp [State.IsTerminal, h]

theorem winner_of_not_terminal {t : State} (h : t.IsTerminal = false) : t.GetWinner = 0 := by
  simp only [State.IsTerminal, Bool.or_eq_false_iff, bne_eq_false_iff_eq] at h
  exact h.1

/-- The negamax equation at an inner node: the score is the greatest negated child score. -/
theorem score_step_spec (fuel : Nat) (s : State) (d : Int) (ht : s.IsTerminal = false)
    (hd : d ≠ 0) (hf : plyBound s < fuel + 1) :
    ∃ r, miniMaxScoreFuel (fuel + 1) s d = some r
      ∧ (∃ a ∈ s.GetLegalActions, childScore fuel s (wrap64 (d - 1)) a = some r)
      ∧ ∀ a ∈ s.GetLegalActions, ∃ v, childScore fuel s (wrap64 (d - 1)) a = some v ∧ v ≤ r := by
  have hchild : ∀ a ∈ s.GetLegalActions, ∃ v,
      childScore fuel s (wrap64 (d - 1)) a = some v ∧ (v = -1 ∨ v = 0 ∨ v = 1) :=
    fun a ha => childScore_total fuel s _ (by omega) ha
  rw [score_of_step fuel s d ht hd,
    foldlM_getD _ (fun b _ sc => if sc > b then sc else b) _ _
      (fun a ha => (hchild a ha).imp fun _ h => h.1)]
  refine ⟨_, rfl, ?_, ?_⟩
  · have hspec := maxLoop_spec (fun a => (childScore fuel s (wrap64 (d - 1)) a).getD 0)
      s.GetLegalActions (legal_ne_nil_of_not_terminal ht) (by
        intro a ha
        obtain ⟨v, hv, hrange⟩ := hchild a ha
        simp only [hv, Option.getD_some, minInt]
        omega)
    obtain ⟨a, ha, heq⟩ := hspec.1
    obtain ⟨v, hv, -⟩ := hchild a ha
    refine ⟨a, ha, ?_⟩
    rw [heq]
    simp only [hv, Option.getD_some]
  · intro a ha
    obtain ⟨v, hv, -⟩ := hchild a ha
    refine ⟨v, hv, ?_⟩
    have := maxLoop_ge (fun a => (childScore fuel s (wrap64 (d - 1)) a).getD 0)
      s.GetLegalActions minInt a ha
    simpa [hv] using this

theorem childScore_mark (fuel : Nat) (s : State) (d : Int) (i : Fin 9) :
    childScore fuel s d (i.val : Int)
      = (miniMaxScoreFuel fuel (s.mark i) d).bind fun r => some (wrap64 (-r)) := by
  simp only [childScore, applyAction_mark, Option.some_bind]

/-- The negated score of a cell whose mark wins the game is 1. -/
theorem childScore_of_win (fuel : Nat) (s : State) (d : Int) (i : Fin 9)
    (hp : s.CurrentPlayer = 1 ∨ s.CurrentPlayer = 2)
    (hw : (s.mark i).GetWinner = s.CurrentPlayer) :
    childScore (fuel + 1) s d (i.val : Int) = some 1 := by
  have hne : (s.mark i).GetWinner ≠ 0 := by
    rw [hw]
    exact player_ne_zero hp
  rw [childScore_mark, score_of_terminal fuel _ d (isTerminal_of_winner _ hne),
    getScore_mark_won s i hp hw]
  rfl

/-! ## Shallow searches: immediate wins and blocks -/

theorem mem_cells (i : Fin 9) : i ∈ cells := by
  rw [cells_eq_finRange]
  exact List.mem_finRange i

/-- A state whose cells and player are those reached by a legal sequence of actions from
`NewState` is a state of a legal game. -/
theorem reachable_of_play (moves : List Int) (t : State)
    (h : (playFrom NewState moves).map (fun u => (cells.map u.Board, u.CurrentPlayer))
      = some (cells.map t.Board, t.CurrentPlayer)) : Reachable t := by
  cases hplay : playFrom NewState moves with
  | none =>
    rw [hplay] at h
    exact Option.noConfusion h
  | some u =>
    rw [hplay] at h
    simp only [Option.map_some', Option.some.injEq, Prod.mk.injEq] at h
    have hut : u = t :=
      state_ext (fun i => List.map_inj_left.mp h.1 i (mem_cells i)) h.2
    exact hut ▸ reachable_playFrom NewState moves u Reachable.init hplay

theorem score_range (fuel : Nat) (t : State) (d r : Int) (hf : plyBound t < fuel)
    (h : miniMaxScoreFuel fuel t d = some r) : r = -1 ∨ r = 0 ∨ r = 1 := by
  obtain ⟨r', hr', hrange⟩ := score_total fuel t d hf
  rw [h] at hr'
  exact (Option.some.inj hr') ▸ hrange

theorem isTerminal_false_of (t : State) (h0 : t.GetWinner = 0) (j : Fin 9)
    (hj : t.Board j = 0) : t.IsTerminal = false := by
  have hne : t.GetLegalActions ≠ [] := (legal_ne_nil_iff t).mpr ⟨j, hj⟩
  have hlen : t.GetLegalActions.length ≠ 0 := fun h => hne (List.length_eq_zero.mp h)
  simp [State.IsTerminal, h0, hlen]

/-- At depth 0 or 1 a position without a complete line does not score below 0 for the
player to move: the opponent has had no time to win. -/
theorem score_shallow_nonneg (fuel : Nat) (t : State) (d : Int) (h0 : t.GetWinner = 0)
    (hp : t.CurrentPlayer = 1 ∨ t.CurrentPlayer = 2) (hd : d = 0 ∨ d = 1)
    (hf : plyBound t < fuel) : ∃ r, miniMaxScoreFuel fuel t d = some r ∧ 0 ≤ r := by
  cases fuel with
  | zero => omega
  | succ f =>
    by_cases ht : t.IsTerminal = true
    · exact ⟨_, score_of_terminal f t d ht, by rw [getScore_no_winner t h0 hp]⟩
    · have ht' : t.IsTerminal = false := by simpa using ht
      rcases hd with rfl | rfl
      · exact ⟨_, score_of_depth_zero f t, by rw [getScore_no_winner t h0 hp]⟩
      · obtain ⟨r, hr, -, hall⟩ := score_step_spec f t 1 ht' (by decide) hf
        refine ⟨r, hr, ?_⟩
        obtain ⟨a, ha⟩ := List.exists_mem_of_ne_nil _ (legal_ne_nil_of_not_terminal ht')
        obtain ⟨i, rfl, hi⟩ := (mem_getLegalActions t a).mp ha
        obtain ⟨v, hv, hle⟩ := hall _ ha
        have hlt := plyBound_mark t i hi
        cases f with
        | zero => omega
        | succ g =>
          have h10 : wrap64 (1 - 1) = 0 := by decide
          rw [childScore_mark, h10, score_of_depth_zero] at hv
          simp only [Option.some_bind, Option.some.injEq] at hv
          rcases mark_winner_cases t i h0 with hw | hw
          · rw [getScore_no_winner _ hw (mark_player t i hp).1] at hv
            have : v = 0 := by
              rw [← hv]
              decide
            omega
          · rw [getScore_mark_won t i hp hw] at hv
            have : v = 1 := by
              rw [← hv]
              decide
            omega

/-- Up to depth 2 a position without a complete line, in which the player to move has no
winning cell, does not score above 0. -/
theorem score_shallow_nonpos (fuel : Nat) (t : State) (d : Int) (h0 : t.GetWinner = 0)
    (hp : t.CurrentPlayer = 1 ∨ t.CurrentPlayer = 2)
    (hno : ∀ i, ¬ completesLine t.Board t.CurrentPlayer i) (hd : d = 0 ∨ d = 1 ∨ d = 2)
    (hf : plyBound t < fuel) : ∃ r, miniMaxScoreFuel fuel t d = some r ∧ r ≤ 0 := by
  cases fuel with
  | zero => omega
  | succ f =>
    by_cases ht : t.IsTerminal = true
    · exact ⟨_, score_of_terminal f t d ht, by rw [getScore_no_winner t h0 hp]⟩
    · have ht' : t.IsTerminal = false := by simpa using ht
      by_cases hd0 : d = 0
      · subst hd0
        exact ⟨_, score_of_depth_zero f t, by rw [getScore_no_winner t h0 hp]⟩
      · obtain ⟨r, hr, ⟨a, ha, hra⟩, -⟩ := score_step_spec f t d ht' hd0 hf
        refine ⟨r, hr, ?_⟩
        obtain ⟨i, rfl, hi⟩ := (mem_getLegalActions t a).mp ha
        have hlt := plyBound_mark t i hi
        have hw : (t.mark i).GetWinner = 0 := by
          rcases mark_winner_cases t i h0 with h | h
          · exact h
          · exact absurd ((mark_winner_iff t i h0 (player_ne_zero hp) hi).mp h) (hno i)
        have hdd : wrap64 (d - 1) = 0 ∨ wrap64 (d - 1) = 1 := by
          rcases hd with rfl | rfl | rfl
          · exact absurd rfl hd0
          · left
            decide
          · right
            decide
        obtain ⟨r', hr', hpos⟩ := score_shallow_nonneg f (t.mark i) _ hw
          (mark_player t i hp).1 hdd (by omega)
        have hrange := score_range f (t.mark i) _ r' (by omega) hr'
        rw [childScore_mark, hr', Option.some_bind, wrap64_neg_small hrange] at hra
        have := Option.some.inj hra
        omega

theorem completesLine_update_other {b : Fin 9 → Int} {p q : Int} {c i : Fin 9}
    (hc : completesLine b q c) (hi : b i = 0) (hic : i ≠ c) (hq : q ≠ 0) :
    completesLine (Function.update b i p) q c := by
  obtain ⟨hc0, l, hl, hmem, h1, h2, h3⟩ := hc
  have hcell : ∀ j : Fin 9, (j ≠ c → b j = q) → j ≠ c → Function.update b i p j = q := by
    intro j hj hjc
    have hji : j ≠ i := by
      intro h
      rw [h] at hj
      exact hq ((hj (h ▸ hjc)).symm.trans hi)
    rw [Function.update_noteq hji]
    exact hj hjc
  refine ⟨?_, l, hl, hmem, hcell _ h1, hcell _ h2, hcell _ h3⟩
  rw [Function.update_noteq (Ne.symm hic)]
  exact hc0

theorem completesLine_of_update {b : Fin 9 → Int} {p q : Int} {c j : Fin 9}
    (h : completesLine (Function.update b c p) q j) (hpq : p ≠ q) (hp : p ≠ 0) :
    completesLine b q j := by
  obtain ⟨hj0, l, hl, hmem, h1, h2, h3⟩ := h
  have hjc : j ≠ c := by
    intro hjc
    rw [hjc, Function.update_same] at hj0
    exact hp hj0
  have hcell : ∀ k : Fin 9, (k ≠ j → Function.update b c p k = q) → k ≠ j → b k = q := by
    intro k hk hkj
    have hkc : k ≠ c := by
      intro h
      have := hk hkj
      rw [h, Function.update_same] at this
      exact hpq this
    have := hk hkj
    rwa [Function.update_noteq hkc] at this
  refine ⟨?_, l, hl, hmem, hcell _ h1, hcell _ h2, hcell _ h3⟩
  rwa [Function.update_noteq hjc] at hj0

theorem reachable_forkState : Reachable forkState :=
  reachable_of_play [6, 1, 7, 5] forkState (by decide)

theorem reachable_lostState : Reachable lostState :=
  reachable_of_play [7, 5, 8] lostState (by decide)

/-- C5 fails at depth 2: in the legal position `forkState` player 1 is to move, cell 8 is
the only one completing a line, and `miniMaxAction` returns cell 0 (a fork, which also
scores 1 and comes first in scan order). -/
theorem C5_fork_preferred_at_depth_two :
    Reachable forkState ∧ forkState.IsTerminal = false
      ∧ completesLine forkState.Board forkState.CurrentPlayer 8
      ∧ (∀ c, completesLine forkState.Board forkState.CurrentPlayer c → c = 8)
      ∧ miniMaxAction forkState 2 = some 0 :=
  ⟨reachable_forkState, by decide, by decide, by decide, by decide!⟩

/-- C5 amended: in a non-terminal state of a legal game where exactly one empty cell `c`
completes a line for the player to move, `miniMaxAction` returns, at every depth, the least
legal action after which the score of the opponent is -1 (the best possible outcome); its
index is at most `c`, and at depth 0 and depth 1 it is `c`. -/
theorem C5_immediate_win (s : State) (d : Int) (c : Fin 9) (hr : Reachable s)
    (ht : s.IsTerminal = false) (hc : completesLine s.Board s.CurrentPlayer c)
    (hu : ∀ c', completesLine s.Board s.CurrentPlayer c' → c' = c) :
    ∃ a s', miniMaxAction s d = some a ∧ a ∈ s.GetLegalActions ∧ a ≤ (c.val : Int)
      ∧ s.ApplyAction a = some s' ∧ miniMaxScore s' d = some (-1)
      ∧ (∀ b ∈ s.GetLegalActions, ∀ t, s.ApplyAction b = some t →
          miniMaxScore t d = some (-1) → a ≤ b)
      ∧ (d = 0 ∨ d = 1 → a = (c.val : Int)) := by
  have hp := reachable_player hr
  have h0 := winner_of_not_terminal ht
  have hwc : (s.mark c).GetWinner = s.CurrentPlayer :=
    (mark_winner_iff s c h0 (player_ne_zero hp) hc.1).mpr hc
  have hsc : childScore searchFuel s d (c.val : Int) = some 1 :=
    childScore_of_win 19 s d c hp hwc
  have hcmem : (c.val : Int) ∈ s.GetLegalActions := (mem_getLegalActions s _).mpr ⟨c, rfl, hc.1⟩
  obtain ⟨a, va, ha, hmem, hva, hall⟩ := action_spec s d (legal_ne_nil_of_not_terminal ht)
  obtain ⟨s', r, hs', hr', hrange, hcs⟩ := childScore_unpack s d hmem
  obtain ⟨vb, hvb, hle, hfirst⟩ := hall _ hcmem
  have hvb1 : vb = 1 := by
    rw [hsc] at hvb
    exact (Option.some.inj hvb).symm
  have hvar : va = -r := by
    rw [hcs] at hva
    exact (Option.some.inj hva).symm
  have hr1 : r = -1 := by omega
  refine ⟨a, s', ha, hmem, hfirst (by omega), hs', hr1 ▸ hr', ?_, ?_⟩
  · intro b hb t ht' hscore
    obtain ⟨wb, hwb, -, hfirstb⟩ := hall b hb
    have hwb1 : childScore searchFuel s d b = some 1 := by
      unfold miniMaxScore at hscore
      simp only [childScore, ht', hscore, Option.some_bind]
      rfl
    rw [hwb1] at hwb
    have := Option.some.inj hwb
    exact hfirstb (by omega)
  · intro hd
    by_contra hac
    obtain ⟨i, rfl, hi⟩ := (mem_getLegalActions s a).mp hmem
    have hic : i ≠ c := fun h => hac (h ▸ rfl)
    have hw : (s.mark i).GetWinner = 0 := by
      rcases mark_winner_cases s i h0 with h | h
      · exact h
      · exact absurd (hu i ((mark_winner_iff s i h0 (player_ne_zero hp) hi).mp h)) hic
    have hlt := plyBound_mark s i hi
    have hb := plyBound_le s
    obtain ⟨r', hr'', hpos⟩ := score_shallow_nonneg searchFuel (s.mark i) d hw
      (mark_player s i hp).1 hd (by unfold searchFuel; omega)
    rw [applyAction_mark] at hs'
    have hs'' := Option.some.inj hs'
    subst hs''
    unfold miniMaxScore at hr'
    rw [hr''] at hr'
    have := Option.some.inj hr'
    omega

/-- C5 amended, on `forkState` at depth 1 with the winning cell 8: the hypotheses hold
there, and so the conclusion. -/
theorem C5_immediate_win_witness :
    Reachable forkState ∧ forkState.IsTerminal = false
    ∧ completesLine forkState.Board forkState.CurrentPlayer 8
    ∧ (∀ c', completesLine forkState.Board forkState.CurrentPlayer c' → c' = 8)
    ∧ ∃ a s', miniMaxAction forkState 1 = some a ∧ a ∈ forkState.GetLegalActions
      ∧ a ≤ ((8 : Fin 9).val : Int)
      ∧ forkState.ApplyAction a = some s' ∧ miniMaxScore s' 1 = some (-1)
      ∧ (∀ b ∈ forkState.GetLegalActions, ∀ t, forkState.ApplyAction b = some t →
          miniMaxScore t 1 = some (-1) → a ≤ b)
      ∧ ((1 : Int) = 0 ∨ (1 : Int) = 1 → a = ((8 : Fin 9).val : Int)) :=
  ⟨reachable_of_play [6, 1, 7, 5] forkState (by decide), by decide, by decide, by decide,
    C5_immediate_win forkState 1 8 (reachable_of_play [6, 1, 7, 5] forkState (by decide))
      (by decide) (by decide) (by decide)⟩

/-- C6 fails at depth 3: in the legal position `lostState` player 2 is to move and cannot
win at once, cell 6 is the only one completing a line for player 1, and `miniMaxAction`
returns cell 0 (every action scores -1 since player 1 forks after the block). -/
theorem C6_no_block_at_depth_three :
    Reachable lostState ∧ lostState.IsTerminal = false
      ∧ (∀ i, ¬ completesLine lostState.Board lostState.CurrentPlayer i)
      ∧ completesLine lostState.Board (switchPlayer lostState.CurrentPlayer) 6
      ∧ (∀ c, completesLine lostState.Board (switchPlayer lostState.CurrentPlayer) c → c = 6)
      ∧ miniMaxAction lostState 3 = some 0 :=
  ⟨reachable_lostState, by decide, by decide, by decide, by decide, by decide!⟩

/-- C6 amended: in a non-terminal state of a legal game where the player to move has no
cell completing a line and exactly one empty cell `c` completes a line for the opponent, at
every depth `d ≥ 1` the position after any legal action other than `c` scores 1 for the
opponent.  At depth 1 and depth 2 `miniMaxAction` returns the blocking cell `c`.  At every
depth the score `rc` of the position after `c` decides: if it is not 1 for the opponent,
`miniMaxAction` returns `c`; if it is 1, every action loses and `miniMaxAction` returns the
first legal action. -/
theorem C6_block_immediate_loss (s : State) (d : Int) (c : Fin 9) (hr : Reachable s)
    (ht : s.IsTerminal = false) (hd : 1 ≤ d)
    (hno : ∀ i, ¬ completesLine s.Board s.CurrentPlayer i)
    (hc : completesLine s.Board (switchPlayer s.CurrentPlayer) c)
    (hu : ∀ c', completesLine s.Board (switchPlayer s.CurrentPlayer) c' → c' = c) :
    (d ≤ 2 → miniMaxAction s d = some (c.val : Int))
      ∧ (∀ a ∈ s.GetLegalActions, a ≠ (c.val : Int) →
          ∃ t, s.ApplyAction a = some t ∧ miniMaxScore t d = some 1)
      ∧ (∃ t rc, s.ApplyAction (c.val : Int) = some t ∧ miniMaxScore t d = some rc
          ∧ (rc ≠ 1 → miniMaxAction s d = some (c.val : Int))
          ∧ (rc = 1 → ∃ a, miniMaxAction s d = some a ∧ a ∈ s.GetLegalActions
              ∧ ∀ b ∈ s.GetLegalActions, a ≤ b)) := by
  have hp := reachable_player hr
  have hp0 := player_ne_zero hp
  have h0 := winner_of_not_terminal ht
  have hb := plyBound_le s
  have hd0 : d ≠ 0 := by omega
  have hcmem : (c.val : Int) ∈ s.GetLegalActions := (mem_getLegalActions s _).mpr ⟨c, rfl, hc.1⟩
  have hmark0 : ∀ i, s.Board i = 0 → (s.mark i).GetWinner = 0 := by
    intro i hi
    rcases mark_winner_cases s i h0 with h | h
    · exact h
    · exact absurd ((mark_winner_iff s i h0 hp0 hi).mp h) (hno i)
  -- after a cell that does not block, the opponent wins at once
  have hother : ∀ i : Fin 9, s.Board i = 0 → i ≠ c →
      miniMaxScoreFuel searchFuel (s.mark i) d = some 1 := by
    intro i hi hic
    have hlt := plyBound_mark s i hi
    have hpi := mark_player s i hp
    have hci : (s.mark i).Board c = 0 := by
      show Function.update s.Board i s.CurrentPlayer c = 0
      rw [Function.update_noteq (Ne.symm hic)]
      exact hc.1
    have hti : (s.mark i).IsTerminal = false := isTerminal_false_of _ (hmark0 i hi) c hci
    obtain ⟨r, hr', -, hge⟩ := score_step_spec 19 (s.mark i) d hti hd0 (by omega)
    have hqc : completesLine (s.mark i).Board (s.mark i).CurrentPlayer c :=
      completesLine_update_other hc hi hic (player_ne_zero hpi.1)
    have hwin : ((s.mark i).mark c).GetWinner = (s.mark i).CurrentPlayer :=
      (mark_winner_iff (s.mark i) c (hmark0 i hi) (player_ne_zero hpi.1) hci).mpr hqc
    obtain ⟨v, hv, hvr⟩ := hge (c.val : Int) ((mem_getLegalActions _ _).mpr ⟨c, rfl, hci⟩)
    rw [childScore_of_win 18 (s.mark i) _ c hpi.1 hwin] at hv
    have hv1 : v = 1 := (Option.some.inj hv).symm
    have hrange := score_range 20 (s.mark i) d r (by omega) hr'
    have hr1 : r = 1 := by omega
    rw [← hr1]
    exact hr'
  have hcs : ∀ (i : Fin 9) (r : Int), miniMaxScoreFuel searchFuel (s.mark i) d = some r →
      (r = -1 ∨ r = 0 ∨ r = 1) → childScore searchFuel s d (i.val : Int) = some (-r) := by
    intro i r hr' hrange
    rw [childScore_mark, hr', Option.some_bind, wrap64_neg_small hrange]
  -- the score after the block
  have hltc := plyBound_mark s c hc.1
  have hfuelc : plyBound (s.mark c) < searchFuel := by
    unfold searchFuel
    omega
  obtain ⟨rc, hrc, hrangec⟩ := score_total searchFuel (s.mark c) d hfuelc
  have hblock : d ≤ 2 → rc ≤ 0 := by
    intro hd2
    have hpc := mark_player s c hp
    have hnoc : ∀ j, ¬ completesLine (s.mark c).Board (s.mark c).CurrentPlayer j := by
      intro j hj
      have hj' : completesLine s.Board (switchPlayer s.CurrentPlayer) j :=
        completesLine_of_update hj (Ne.symm hpc.2.1) hp0
      have hjc := hu j hj'
      have hne : (s.mark c).Board j ≠ 0 := by
        show Function.update s.Board c s.CurrentPlayer j ≠ 0
        rw [hjc, Function.update_same]
        exact hp0
      exact hne hj.1
    obtain ⟨rc', hrc', hle⟩ := score_shallow_nonpos searchFuel (s.mark c) d (hmark0 c hc.1)
      hpc.1 hnoc (by omega) hfuelc
    rw [hrc] at hrc'
    have := Option.some.inj hrc'
    omega
  -- the returned action
  obtain ⟨a, va, ha, hmem, hva, hall⟩ := action_spec s d (legal_ne_nil_of_not_terminal ht)
  obtain ⟨vc, hvc, hvcle, -⟩ := hall _ hcmem
  rw [hcs c rc hrc hrangec] at hvc
  have hvc' := Option.some.inj hvc
  have hcases : a = (c.val : Int) ∨ (a ≠ (c.val : Int) ∧ va = -1) := by
    by_cases hac : a = (c.val : Int)
    · exact Or.inl hac
    · right
      refine ⟨hac, ?_⟩
      obtain ⟨i, rfl, hi⟩ := (mem_getLegalActions s a).mp hmem
      have hic : i ≠ c := fun h => hac (h ▸ rfl)
      rw [hcs i 1 (hother i hi hic) (Or.inr (Or.inr rfl))] at hva
      exact (Option.some.inj hva).symm
  refine ⟨?_, ?_, ?_⟩
  · intro hd2
    have := hblock hd2
    rcases hcases with h | ⟨-, h⟩
    · rw [ha, h]
    · omega
  · intro b hbmem hbc
    obtain ⟨i, rfl, hi⟩ := (mem_getLegalActions s b).mp hbmem
    have hic : i ≠ c := fun h => hbc (h ▸ rfl)
    exact ⟨s.mark i, applyAction_mark s i, hother i hi hic⟩
  · refine ⟨s.mark c, rc, applyAction_mark s c, hrc, ?_, ?_⟩
    · intro hrc1
      rcases hcases with h | ⟨-, h⟩
      · rw [ha, h]
      · omega
    · intro hrc1
      have hva1 : va = -1 := by
        rcases hcases with h | ⟨-, h⟩
        · rw [h, hcs c rc hrc hrangec] at hva
          have := Option.some.inj hva
          omega
        · exact h
      refine ⟨a, ha, hmem, ?_⟩
      intro b hbmem
      obtain ⟨vb, hvb, hvble, hfirst⟩ := hall b hbmem
      obtain ⟨-, r, -, -, hrange, hcsb⟩ := childScore_unpack s d hbmem
      rw [hcsb] at hvb
      have := Option.some.inj hvb
      exact hfirst (by omega)

/-- C6 amended, on `lostState` at depth 2 with the blocking cell 6: the hypotheses hold
there, and so the conclusion. -/
theorem C6_block_immediate_loss_witness :
    Reachable lostState ∧ lostState.IsTerminal = false ∧ (1 : Int) ≤ 2
    ∧ (∀ i, ¬ completesLine lostState.Board lostState.CurrentPlayer i)
    ∧ completesLine lostState.Board (switchPlayer lostState.CurrentPlayer) 6
    ∧ (∀ c', completesLine lostState.Board (switchPlayer lostState.CurrentPlayer) c' → c' = 6)
    ∧ ((2 : Int) ≤ 2 → miniMaxAction lostState 2 = some ((6 : Fin 9).val : Int))
      ∧ (∀ a ∈ lostState.GetLegalActions, a ≠ ((6 : Fin 9).val : Int) →
          ∃ t, lostState.ApplyAction a = some t ∧ miniMaxScore t 2 = some 1)
      ∧ (∃ t rc, lostState.ApplyAction ((6 : Fin 9).val : Int) = some t
          ∧ miniMaxScore t 2 = some rc
          ∧ (rc ≠ 1 → miniMaxAction lostState 2 = some ((6 : Fin 9).val : Int))
          ∧ (rc = 1 → ∃ a, miniMaxAction lostState 2 = some a ∧ a ∈ lostState.GetLegalActions
              ∧ ∀ b ∈ lostState.GetLegalActions, a ≤ b)) :=
  ⟨reachable_of_play [7, 5, 8] lostState (by decide), by decide, by decide, by decide,
    by decide, by decide,
    C6_block_immediate_loss lostState 2 6 (reachable_of_play [7, 5, 8] lostState (by decide))
      (by decide) (by decide) (by decide) (by decide) (by decide)⟩

/-! ## Positions as numbers -/

theorem digit_add_low (n p i j : Nat) (hji : j < i) :
    (n + p * 3 ^ i) / 3 ^ j % 3 = n / 3 ^ j % 3 := by
  obtain ⟨k, rfl⟩ : ∃ k, i = j + (k + 1) := ⟨i - j - 1, by omega⟩
  have hpos : 0 < 3 ^ j := Nat.pow_pos (by decide)
  have h1 : n + p * 3 ^ (j + (k + 1)) = n + (p * 3 ^ k * 3) * 3 ^ j := by ring
  rw [h1, Nat.add_mul_div_right _ _ hpos, Nat.add_mul_mod_self_right]

theorem digit_add_same (n p i : Nat) (h0 : n / 3 ^ i % 3 = 0) (hp : p < 3) :
    (n + p * 3 ^ i) / 3 ^ i % 3 = p := by
  have hpos : 0 < 3 ^ i := Nat.pow_pos (by decide)
  rw [Nat.add_mul_div_right _ _ hpos]
  omega

theorem digit_add_high (n p i j : Nat) (h0 : n / 3 ^ i % 3 = 0) (hp : p < 3) (hij : i < j) :
    (n + p * 3 ^ i) / 3 ^ j % 3 = n / 3 ^ j % 3 := by
  obtain ⟨k, rfl⟩ : ∃ k, j = i + (k + 1) := ⟨j - i - 1, by omega⟩
  have hpos : 0 < 3 ^ i := Nat.pow_pos (by decide)
  have h1 : (3 : Nat) ^ (i + (k + 1)) = 3 ^ i * (3 * 3 ^ k) := by ring
  rw [h1, ← Nat.div_div_eq_div_mul, ← Nat.div_div_eq_div_mul, ← Nat.div_div_eq_div_mul,
    ← Nat.div_div_eq_div_mul, Nat.add_mul_div_right _ _ hpos]
  have h2 : (n / 3 ^ i + p) / 3 = n / 3 ^ i / 3 := by omega
  rw [h2]

theorem digit_add (n p : Nat) (i j : Fin 9) (h0 : n / 3 ^ i.val % 3 = 0) (hp : p < 3) :
    (n + p * 3 ^ i.val) / 3 ^ j.val % 3 = if j = i then p else n / 3 ^ j.val % 3 := by
  by_cases hji : j = i
  · subst hji
    rw [if_pos rfl]
    exact digit_add_same n p _ h0 hp
  · rw [if_neg hji]
    have hne : j.val ≠ i.val := fun h => hji (Fin.ext h)
    rcases Nat.lt_or_gt_of_ne hne with h | h
    · exact digit_add_low n p _ _ h
    · exact digit_add_high n p _ _ h0 hp h

theorem switchPlayer_code {me opp : Nat} (h : (me = 1 ∧ opp = 2) ∨ (me = 2 ∧ opp = 1)) :
    switchPlayer (me : Int) = (opp : Int) := by
  rcases h with ⟨rfl, rfl⟩ | ⟨rfl, rfl⟩ <;> decide

/-- A mark on an empty cell adds the weight of the cell, times the player, to the code. -/
theorem decode_mark (n me opp : Nat) (i : Fin 9)
    (h : (me = 1 ∧ opp = 2) ∨ (me = 2 ∧ opp = 1)) (h0 : n / 3 ^ i.val % 3 = 0) :
    (decode n me).mark i = decode (n + me * 3 ^ i.val) opp := by
  have hme : me < 3 := by rcases h with ⟨rfl, -⟩ | ⟨rfl, -⟩ <;> decide
  apply state_ext
  · intro j
    show Function.update (decode n me).Board i (me : Int) j
      = (((n + me * 3 ^ i.val) / 3 ^ j.val % 3 : Nat) : Int)
    rw [digit_add n me i j h0 hme, Function.update_apply]
    by_cases hji : j = i
    · rw [if_pos hji, if_pos hji]
    · rw [if_neg hji, if_neg hji]
      rfl
  · exact switchPlayer_code h

theorem decode_board (n p : Nat) (i : Fin 9) :
    (decode n p).Board i = ((n / 3 ^ i.val % 3 : Nat) : Int) := rfl

theorem decode_board_zero (n p : Nat) (i : Fin 9) :
    (decode n p).Board i = 0 ↔ n / 3 ^ i.val % 3 = 0 := by
  rw [decode_board]
  exact Int.natCast_eq_zero

theorem probes_weight : ∀ ic ∈ probes, ic.1 < 9 ∧ ic.2 = 3 ^ ic.1 := by decide

theorem probes_complete : ∀ i : Fin 9, (i.val, 3 ^ i.val) ∈ probes := by decide
theorem nat_beq_iff (a b : Nat) : Nat.beq a b = true ↔ a = b :=
  ⟨Nat.eq_of_beq_eq_true, fun h => h ▸ Nat.beq_refl a⟩

theorem rd_def (n c : Nat) : rd n c = n / c % 3 := rfl

theorem wonC_iff (n p : Nat) :
    wonC n p = true ↔ ∃ l ∈ lines, n / 3 ^ l.1.val % 3 = p ∧ n / 3 ^ l.2.1.val % 3 = p
      ∧ n / 3 ^ l.2.2.val % 3 = p := by
  have h3 : ((3 : Fin 9) : Nat) = 3 := rfl
  have h4 : ((4 : Fin 9) : Nat) = 4 := rfl
  have h5 : ((5 : Fin 9) : Nat) = 5 := rfl
  have h6 : ((6 : Fin 9) : Nat) = 6 := rfl
  have h7 : ((7 : Fin 9) : Nat) = 7 := rfl
  have h8 : ((8 : Fin 9) : Nat) = 8 := rfl
  simp only [wonC, lineC, Bool.or_eq_true, Bool.and_eq_true, nat_beq_iff, rd_def, lines,
    List.mem_cons, List.mem_singleton, exists_eq_or_imp, exists_eq_left, List.not_mem_nil,
    false_and, exists_false, or_false, h3, h4, h5, h6, h7, h8]
  norm_num

theorem digit_lt (n i : Nat) : n / 3 ^ i % 3 < 3 := Nat.mod_lt _ (by decide)

/-- A complete line of a decoded board holds a player whose win the code test sees. -/
theorem lineComplete_decode {n p : Nat} {l : Fin 9 × Fin 9 × Fin 9} (hl : l ∈ lines)
    (hc : lineComplete (decode n p).Board l) :
    ∃ x : Nat, (x = 1 ∨ x = 2) ∧ (decode n p).Board l.1 = (x : Int) ∧ wonC n x = true := by
  obtain ⟨h0, h1, h2⟩ := hc
  simp only [decode_board] at h0 h1 h2
  have hlt := digit_lt n l.1.val
  refine ⟨n / 3 ^ l.1.val % 3, ?_, rfl, ?_⟩
  · have : n / 3 ^ l.1.val % 3 ≠ 0 := fun h => h0 (by rw [h]; rfl)
    omega
  · exact (wonC_iff n _).mpr ⟨l, hl, rfl, (Int.ofNat_inj.mp h1).symm, (Int.ofNat_inj.mp h2).symm⟩

theorem getWinner_decode_none (n p : Nat) (h1 : wonC n 1 = false) (h2 : wonC n 2 = false) :
    (decode n p).GetWinner = 0 := by
  apply (scanLines_eq_zero_iff _ lines).mpr
  intro l hl hc
  obtain ⟨x, hx, -, hw⟩ := lineComplete_decode hl hc
  rcases hx with rfl | rfl
  · rw [h1] at hw
    exact Bool.noConfusion hw
  · rw [h2] at hw
    exact Bool.noConfusion hw

theorem getWinner_decode_opp (n me opp : Nat) (h : (me = 1 ∧ opp = 2) ∨ (me = 2 ∧ opp = 1))
    (hme : wonC n me = false) (hopp : wonC n opp = true) :
    (decode n me).GetWinner = (opp : Int) := by
  obtain ⟨l, hl, hl1, hl2, hl3⟩ := (wonC_iff n opp).mp hopp
  have hopp0 : opp ≠ 0 := by rcases h with ⟨-, rfl⟩ | ⟨-, rfl⟩ <;> decide
  have hc : lineComplete (decode n me).Board l := by
    unfold lineComplete
    rw [decode_board, decode_board, decode_board, hl1, hl2, hl3]
    exact ⟨by exact_mod_cast hopp0, rfl, rfl⟩
  have hne : (decode n me).GetWinner ≠ 0 := fun hz =>
    (scanLines_eq_zero_iff _ lines).mp hz l hl hc
  obtain ⟨l', hl', hc', he⟩ := scanLines_ne_zero _ lines hne
  obtain ⟨x, hx, hbx, hw⟩ := lineComplete_decode hl' hc'
  have hxo : x = opp := by
    rcases h with ⟨rfl, rfl⟩ | ⟨rfl, rfl⟩ <;> rcases hx with rfl | rfl
    · rw [hme] at hw
      exact Bool.noConfusion hw
    · rfl
    · rfl
    · rw [hme] at hw
      exact Bool.noConfusion hw
  show scanLines (decode n me).Board lines = (opp : Int)
  rw [he, hbx, hxo]

/-- The opponent completes no line by a mark of the player to move. -/
theorem wonC_mark_opp (n me opp : Nat) (i : Fin 9)
    (h : (me = 1 ∧ opp = 2) ∨ (me = 2 ∧ opp = 1)) (h0 : n / 3 ^ i.val % 3 = 0)
    (hopp : wonC n opp = false) : wonC (n + me * 3 ^ i.val) opp = false := by
  have hme : me < 3 := by rcases h with ⟨rfl, -⟩ | ⟨rfl, -⟩ <;> decide
  have hne : me ≠ opp := by rcases h with ⟨rfl, rfl⟩ | ⟨rfl, rfl⟩ <;> decide
  by_contra hw
  have hw' : wonC (n + me * 3 ^ i.val) opp = true := by simpa using hw
  obtain ⟨l, hl, hl1, hl2, hl3⟩ := (wonC_iff _ opp).mp hw'
  have hcell : ∀ j : Fin 9, (n + me * 3 ^ i.val) / 3 ^ j.val % 3 = opp →
      n / 3 ^ j.val % 3 = opp := by
    intro j hj
    rw [digit_add n me i j h0 hme] at hj
    by_cases hji : j = i
    · rw [if_pos hji] at hj
      exact absurd hj hne
    · rwa [if_neg hji] at hj
  have : wonC n opp = true := (wonC_iff n opp).mpr ⟨l, hl, hcell _ hl1, hcell _ hl2, hcell _ hl3⟩
  rw [hopp] at this
  exact Bool.noConfusion this

theorem length_legal_mark (s : State) (i : Fin 9) (hp : s.CurrentPlayer ≠ 0)
    (h0 : s.Board i = 0) :
    (s.mark i).GetLegalActions.length + 1 = s.GetLegalActions.length := by
  have hmem : (i.val : Int) ∈ s.GetLegalActions := (mem_getLegalActions s _).mpr ⟨i, rfl, h0⟩
  show (State.GetLegalActions { Board := Function.update s.Board i s.CurrentPlayer
                                CurrentPlayer := switchPlayer s.CurrentPlayer }).length + 1 = _
  rw [getLegalActions_apply s i hp, ← (getLegalActions_nodup s).erase_eq_filter,
    List.length_erase_of_mem hmem]
  have : 0 < s.GetLegalActions.length := List.length_pos_of_mem hmem
  omega

theorem wrap64_small {x : Int} (h1 : -9223372036854775808 ≤ x) (h2 : x < 9223372036854775808) :
    wrap64 x = x := by
  unfold wrap64
  omega

theorem boundCheck_won (e n me opp : Nat) (lower : Bool) (v nv : Int)
    (h : wonC n opp = true) :
    boundCheck e n me opp lower v nv = cond lower (decide (v ≤ -1)) (decide (-1 ≤ v)) := by
  unfold boundCheck
  rw [h]
  rfl

theorem boundCheck_zero (n me opp : Nat) (lower : Bool) (v nv : Int)
    (h : wonC n opp = false) :
    boundCheck 0 n me opp lower v nv = cond lower (decide (v ≤ 0)) (decide (0 ≤ v)) := by
  unfold boundCheck
  rw [h]
  rfl

theorem boundCheck_succ (e n me opp : Nat) (lower : Bool) (v nv : Int)
    (h : wonC n opp = false) :
    boundCheck (e + 1) n me opp lower v nv
      = cond lower
          (probes.any fun ic => and (Nat.beq (rd n ic.2) 0)
            (boundCheck e (n + me * ic.2) opp me false nv v))
          (probes.all fun ic => or (not (Nat.beq (rd n ic.2) 0))
            (boundCheck e (n + me * ic.2) opp me true nv v)) := by
  conv_lhs => unfold boundCheck
  rw [h]
  rfl

theorem pair_player {n me opp : Nat} (h : (me = 1 ∧ opp = 2) ∨ (me = 2 ∧ opp = 1)) :
    (decode n me).CurrentPlayer = 1 ∨ (decode n me).CurrentPlayer = 2 := by
  rcases h with ⟨rfl, -⟩ | ⟨rfl, -⟩
  · exact Or.inl rfl
  · exact Or.inr rfl

theorem pair_swap {me opp : Nat} (h : (me = 1 ∧ opp = 2) ∨ (me = 2 ∧ opp = 1)) :
    (opp = 1 ∧ me = 2) ∨ (opp = 2 ∧ me = 1) := by
  rcases h with ⟨rfl, rfl⟩ | ⟨rfl, rfl⟩
  · exact Or.inr ⟨rfl, rfl⟩
  · exact Or.inl ⟨rfl, rfl⟩

theorem wonC_none {n me opp : Nat} (h : (me = 1 ∧ opp = 2) ∨ (me = 2 ∧ opp = 1))
    (hme : wonC n me = false) (hopp : wonC n opp = false) :
    wonC n 1 = false ∧ wonC n 2 = false := by
  rcases h with ⟨rfl, rfl⟩ | ⟨rfl, rfl⟩
  · exact ⟨hme, hopp⟩
  · exact ⟨hopp, hme⟩

/-- The score of a decoded position won by the player who has just moved. -/
theorem score_decode_won (fuel n me opp : Nat) (d : Int)
    (h : (me = 1 ∧ opp = 2) ∨ (me = 2 ∧ opp = 1))
    (hme : wonC n me = false) (hopp : wonC n opp = true) :
    miniMaxScoreFuel (fuel + 1) (decode n me) d = some (-1) := by
  have hw := getWinner_decode_opp n me opp h hme hopp
  have hne : (decode n me).GetWinner ≠ 0 := by
    rw [hw]
    rcases h with ⟨-, rfl⟩ | ⟨-, rfl⟩ <;> decide
  rw [score_of_terminal fuel _ d (isTerminal_of_winner _ hne)]
  congr 1
  unfold State.GetScore
  simp only [hw]
  show (if (opp : Int) = (me : Int) then (1 : Int)
    else if (opp : Int) = switchPlayer (me : Int) then -1 else 0) = -1
  rw [switchPlayer_code h]
  rcases h with ⟨rfl, rfl⟩ | ⟨rfl, rfl⟩ <;> decide

/-- The facts about the successor of a decoded position used by the bound test. -/
theorem decode_child (n me opp : Nat) (i : Fin 9)
    (h : (me = 1 ∧ opp = 2) ∨ (me = 2 ∧ opp = 1)) (h0 : n / 3 ^ i.val % 3 = 0)
    (hopp : wonC n opp = false) :
    (decode n me).ApplyAction (i.val : Int) = some (decode (n + me * 3 ^ i.val) opp)
      ∧ (decode (n + me * 3 ^ i.val) opp).GetLegalActions.length + 1
          = (decode n me).GetLegalActions.length
      ∧ wonC (n + me * 3 ^ i.val) opp = false
      ∧ plyBound (decode (n + me * 3 ^ i.val) opp) < plyBound (decode n me) := by
  have hb0 : (decode n me).Board i = 0 := (decode_board_zero n me i).mpr h0
  have hmark := decode_mark n me opp i h h0
  refine ⟨?_, ?_, wonC_mark_opp n me opp i h h0 hopp, ?_⟩
  · rw [applyAction_mark, hmark]
  · rw [← hmark]
    exact length_legal_mark _ i (player_ne_zero (pair_player h)) hb0
  · rw [← hmark]
    exact plyBound_mark _ i hb0

/-- The bound test is sound: when it succeeds on a position with `e` empty cells in which
the player to move holds no line, a search of depth at least `e` returns a score on the
tested side of `v`. -/
theorem boundCheck_sound (e : Nat) :
    ∀ (n me opp : Nat) (lower : Bool) (v nv : Int) (fuel : Nat) (d : Int),
      ((me = 1 ∧ opp = 2) ∨ (me = 2 ∧ opp = 1)) → nv = -v →
      (decode n me).GetLegalActions.length = e → wonC n me = false →
      (e : Int) ≤ d → d < 9223372036854775808 → plyBound (decode n me) < fuel →
      boundCheck e n me opp lower v nv = true →
      ∃ r, miniMaxScoreFuel fuel (decode n me) d = some r
        ∧ (lower = true → v ≤ r) ∧ (lower = false → r ≤ v) := by
  induction e with
  | zero =>
    intro n me opp lower v nv fuel d hpair _ hlen hme _ _ hf h
    obtain ⟨f, rfl⟩ : ∃ f, fuel = f + 1 := ⟨fuel - 1, by omega⟩
    by_cases hopp : wonC n opp = true
    · rw [boundCheck_won _ _ _ _ _ _ _ hopp] at h
      refine ⟨-1, score_decode_won f n me opp d hpair hme hopp, ?_, ?_⟩
      · intro hl
        simpa [hl] using h
      · intro hl
        simpa [hl] using h
    · have hopp' : wonC n opp = false := by simpa using hopp
      rw [boundCheck_zero _ _ _ _ _ _ hopp'] at h
      have hw := getWinner_decode_none n me (wonC_none hpair hme hopp').1
        (wonC_none hpair hme hopp').2
      have ht : (decode n me).IsTerminal = true := by
        simp [State.IsTerminal, hlen]
      refine ⟨0, ?_, ?_, ?_⟩
      · rw [score_of_terminal f _ d ht, getScore_no_winner _ hw (pair_player hpair)]
      · intro hl
        simpa [hl] using h
      · intro hl
        simpa [hl] using h
  | succ e ih =>
    intro n me opp lower v nv fuel d hpair hnv hlen hme hd hd2 hf h
    obtain ⟨f, rfl⟩ : ∃ f, fuel = f + 1 := ⟨fuel - 1, by omega⟩
    by_cases hopp : wonC n opp = true
    · rw [boundCheck_won _ _ _ _ _ _ _ hopp] at h
      refine ⟨-1, score_decode_won f n me opp d hpair hme hopp, ?_, ?_⟩
      · intro hl
        simpa [hl] using h
      · intro hl
        simpa [hl] using h
    · have hopp' : wonC n opp = false := by simpa using hopp
      rw [boundCheck_succ _ _ _ _ _ _ _ hopp'] at h
      have hw := getWinner_decode_none n me (wonC_none hpair hme hopp').1
        (wonC_none hpair hme hopp').2
      have ht : (decode n me).IsTerminal = false := by
        simp [State.IsTerminal, hw, hlen]
      have hd0 : d ≠ 0 := by
        intro h0
        rw [h0] at hd
        omega
      have hdw : wrap64 (d - 1) = d - 1 := wrap64_small (by omega) (by omega)
      obtain ⟨r, hr, ⟨a, ha, hra⟩, hall⟩ := score_step_spec f (decode n me) d ht hd0 hf
      rw [hdw] at hra hall
      -- the score of the successor by an empty cell, given a bound test on it
      have hchild : ∀ (i : Fin 9) (lo : Bool) (w nw : Int), n / 3 ^ i.val % 3 = 0 →
          nw = -w → boundCheck e (n + me * 3 ^ i.val) opp me lo w nw = true →
          ∃ r', childScore f (decode n me) (d - 1) (i.val : Int) = some (-r')
            ∧ (lo = true → w ≤ r') ∧ (lo = false → r' ≤ w) := by
        intro i lo w nw hi hnw hb
        obtain ⟨happ, hlen', hwon', hply⟩ := decode_child n me opp i hpair hi hopp'
        obtain ⟨r', hr', hlo⟩ := ih (n + me * 3 ^ i.val) opp me lo w nw f (d - 1)
          (pair_swap hpair) hnw (by omega) hwon' (by push_cast at hd ⊢; omega) (by omega)
          (by omega) hb
        have hrange := score_range f _ _ r' (by omega) hr'
        refine ⟨r', ?_, hlo⟩
        simp only [childScore, happ, hr', Option.some_bind, wrap64_neg_small hrange]
      refine ⟨r, hr, ?_, ?_⟩
      · intro hl
        rw [hl] at h
        simp only [cond_true, List.any_eq_true, Bool.and_eq_true, nat_beq_iff] at h
        obtain ⟨ic, hic, hrd, hb⟩ := h
        obtain ⟨hlt, hwt⟩ := probes_weight ic hic
        have hi : n / 3 ^ (⟨ic.1, hlt⟩ : Fin 9).val % 3 = 0 := by
          rw [hwt] at hrd
          exact hrd
        rw [hwt] at hb
        obtain ⟨r', hcs, -, hup⟩ := hchild ⟨ic.1, hlt⟩ false nv v hi (by omega) hb
        have hmem : (((⟨ic.1, hlt⟩ : Fin 9).val : Nat) : Int) ∈ (decode n me).GetLegalActions :=
          (mem_getLegalActions _ _).mpr ⟨_, rfl, (decode_board_zero n me _).mpr hi⟩
        obtain ⟨v', hv', hle⟩ := hall _ hmem
        rw [hcs] at hv'
        have := Option.some.inj hv'
        have := hup rfl
        omega
      · intro hl
        rw [hl] at h
        simp only [cond_false, List.all_eq_true, Bool.or_eq_true, Bool.not_eq_true',
          nat_beq_iff] at h
        obtain ⟨i, rfl, hi⟩ := (mem_getLegalActions _ a).mp ha
        have hi' : n / 3 ^ i.val % 3 = 0 := (decode_board_zero n me i).mp hi
        have hb := h _ (probes_complete i)
        rcases hb with hb | hb
        · have : rd n (3 ^ i.val) = 0 := hi'
          have hb' : Nat.beq (rd n (3 ^ i.val)) 0 = false := hb
          rw [this] at hb'
          exact Bool.noConfusion hb'
        · obtain ⟨r', hcs, hlo, -⟩ := hchild i true nv v hi' (by omega) hb
          rw [hcs] at hra
          have := Option.some.inj hra
          have := hlo rfl
          omega

/-- The action test is sound: when it succeeds, `miniMaxAction` returns `a` at every depth
not below the number of cells left empty by the action. -/
theorem actionCheck_sound (e n me opp : Nat) (a m d : Int)
    (hpair : (me = 1 ∧ opp = 2) ∨ (me = 2 ∧ opp = 1))
    (hlen : (decode n me).GetLegalActions.length = e + 1)
    (hd : (e : Int) ≤ d) (hd2 : d < 9223372036854775808)
    (h : actionCheck e n me opp a m = true) :
    miniMaxAction (decode n me) d = some a := by
  simp only [actionCheck, Bool.and_eq_true, Bool.not_eq_true', List.any_eq_true,
    List.all_eq_true, Bool.or_eq_true, nat_beq_iff, decide_eq_true_eq] at h
  obtain ⟨-, hopp, ⟨ic, hic, hrd, hica⟩, hall⟩ := h
  -- the negated score of every empty cell, as bounded by the test
  have hscore : ∀ j : Fin 9, n / 3 ^ j.val % 3 = 0 →
      ∃ vj, childScore searchFuel (decode n me) d (j.val : Int) = some vj
        ∧ ((j.val : Int) < a → vj ≤ m - 1) ∧ ((j.val : Int) = a → m ≤ vj)
        ∧ (a < (j.val : Int) → vj ≤ m) := by
    intro j hj
    obtain ⟨happ, hlen', hwon', -⟩ := decode_child n me opp j hpair hj hopp
    have hply := plyBound_le (decode (n + me * 3 ^ j.val) opp)
    have hfuel : plyBound (decode (n + me * 3 ^ j.val) opp) < searchFuel := by
      unfold searchFuel
      omega
    have hsound := fun lo w nw hnw hb =>
      boundCheck_sound e (n + me * 3 ^ j.val) opp me lo w nw searchFuel d (pair_swap hpair)
        hnw (by omega) hwon' hd hd2 hfuel hb
    have hcs : ∀ r, miniMaxScoreFuel searchFuel (decode (n + me * 3 ^ j.val) opp) d = some r →
        childScore searchFuel (decode n me) d (j.val : Int) = some (-r) := by
      intro r hr
      have hrange := score_range searchFuel _ _ r hfuel hr
      simp only [childScore, happ, hr, Option.some_bind, wrap64_neg_small hrange]
    have hb := hall _ (probes_complete j)
    rcases hb with hb | hb
    · have hz : rd n (3 ^ j.val) = 0 := hj
      have hb' : Nat.beq (rd n (3 ^ j.val)) 0 = false := hb
      rw [hz] at hb'
      exact Bool.noConfusion hb'
    · simp only at hb
      by_cases h1 : (j.val : Int) < a
      · rw [if_pos h1] at hb
        obtain ⟨r, hr, hlo, -⟩ := hsound true (1 - m) (m - 1) (by omega) hb
        have := hlo rfl
        exact ⟨-r, hcs r hr, fun _ => by omega, fun _ => by omega, fun _ => by omega⟩
      · rw [if_neg h1] at hb
        by_cases h2 : (j.val : Int) = a
        · rw [if_pos h2] at hb
          obtain ⟨r, hr, -, hup⟩ := hsound false (-m) m (by omega) hb
          have := hup rfl
          exact ⟨-r, hcs r hr, fun _ => by omega, fun _ => by omega, fun _ => by omega⟩
        · rw [if_neg h2] at hb
          obtain ⟨r, hr, hlo, -⟩ := hsound true (-m) m (by omega) hb
          have := hlo rfl
          exact ⟨-r, hcs r hr, fun _ => by omega, fun _ => by omega, fun _ => by omega⟩
  -- the action `a` is an empty cell
  obtain ⟨hlt, hwt⟩ := probes_weight ic hic
  have hi : n / 3 ^ (⟨ic.1, hlt⟩ : Fin 9).val % 3 = 0 := by
    rw [hwt] at hrd
    exact hrd
  obtain ⟨va, hva, -, hva2, -⟩ := hscore ⟨ic.1, hlt⟩ hi
  have hva' : childScore searchFuel (decode n me) d a = some va := hica ▸ hva
  have hm : m ≤ va := hva2 hica
  have hamem : a ∈ (decode n me).GetLegalActions :=
    (mem_getLegalActions _ _).mpr ⟨⟨ic.1, hlt⟩, hica, (decode_board_zero n me _).mpr hi⟩
  -- the returned action has the greatest score and comes first
  obtain ⟨b, vb, hb, hbmem, hvb, hbest⟩ :=
    action_spec (decode n me) d (List.ne_nil_of_mem hamem)
  rw [hb]
  congr 1
  obtain ⟨j, rfl, hj⟩ := (mem_getLegalActions _ b).mp hbmem
  obtain ⟨vj, hvj, hj1, -, hj3⟩ := hscore j ((decode_board_zero n me j).mp hj)
  rw [hvb] at hvj
  have hvj' := Option.some.inj hvj
  obtain ⟨va', hva'', hle, hfirst⟩ := hbest a hamem
  rw [hva'] at hva''
  have hva3 := Option.some.inj hva''
  rcases lt_trichotomy (j.val : Int) a with hlt' | heq | hgt
  · have := hj1 hlt'
    omega
  · exact heq
  · have := hj3 hgt
    have := hfirst (by omega)
    omega

theorem driver_step (d1 d2 : Int) (fuel : Nat) (s s' : State) (a : Int)
    (ht : s.IsTerminal = false)
    (ha : (if s.CurrentPlayer = 1 then miniMaxAction s d1 else miniMaxAction s d2) = some a)
    (happ : s.ApplyAction a = some s') :
    driverFuel d1 d2 (fuel + 1) s = driverFuel d1 d2 fuel s' := by
  simp only [driverFuel, ht, Bool.false_eq_true, if_false, ha, Option.some_bind, happ]

theorem driver_exit (d1 d2 : Int) (fuel : Nat) (s : State) (ht : s.IsTerminal = true) :
    driverFuel d1 d2 (fuel + 1) s = some s := by
  simp only [driverFuel, ht, if_true]

/-- One turn of the driver with both depths 9, on a decoded position passing the action
test. -/
theorem driver_step_code (fuel e n me opp : Nat) (i : Fin 9) (m : Int)
    (hpair : (me = 1 ∧ opp = 2) ∨ (me = 2 ∧ opp = 1))
    (hlen : (decode n me).GetLegalActions.length = e + 1) (he : e ≤ 9)
    (h : actionCheck e n me opp (i.val : Int) m = true) :
    driverFuel 9 9 (fuel + 1) (decode n me)
      = driverFuel 9 9 fuel (decode (n + me * 3 ^ i.val) opp) := by
  have hact := actionCheck_sound e n me opp _ m 9 hpair hlen (by omega) (by decide) h
  have h' := h
  simp only [actionCheck, Bool.and_eq_true, Bool.not_eq_true'] at h'
  obtain ⟨hme, hopp, -, -⟩ := h'
  have hw := getWinner_decode_none n me (wonC_none hpair hme hopp).1 (wonC_none hpair hme hopp).2
  have ht : (decode n me).IsTerminal = false := by
    simp [State.IsTerminal, hw, hlen]
  have hmem : (i.val : Int) ∈ (decode n me).GetLegalActions := by
    obtain ⟨b, -, hb, hbmem, -⟩ := action_spec (decode n me) 9
      (fun hnil => by rw [hnil] at hlen; cases hlen)
    rw [hact] at hb
    exact (Option.some.inj hb) ▸ hbmem
  obtain ⟨j, hj, hj0⟩ := (mem_getLegalActions _ _).mp hmem
  have hji : j = i := Fin.ext (by exact_mod_cast hj)
  subst hji
  obtain ⟨happ, -, -, -⟩ := decode_child n me opp j hpair ((decode_board_zero n me j).mp hj0) hopp
  exact driver_step 9 9 fuel _ _ _ ht (by rw [ite_self]; exact hact) happ

/-! ## The game between two full-depth searches -/

theorem newState_eq_decode : NewState = decode 0 1 :=
  state_ext (fun i => by simp [NewState, decode]) rfl

theorem drawState_eq_decode : decode 12145 2 = drawState :=
  state_ext (by decide) rfl

set_option maxRecDepth 1000000 in
theorem game_step0 (fuel : Nat) :
    driverFuel 9 9 (fuel + 1) (decode 0 1) = driverFuel 9 9 fuel (decode 1 2) :=
  driver_step_code fuel 8 0 1 2 0 0 (Or.inl ⟨rfl, rfl⟩) (by decide) (by decide) (by decide!)

set_option maxRecDepth 1000000 in
theorem game_step1 (fuel : Nat) :
    driverFuel 9 9 (fuel + 1) (decode 1 2) = driverFuel 9 9 fuel (decode 163 1) :=
  driver_step_code fuel 7 1 2 1 4 0 (Or.inr ⟨rfl, rfl⟩) (by decide) (by decide) (by decide!)

set_option maxRecDepth 1000000 in
theorem game_step2 (fuel : Nat) :
    driverFuel 9 9 (fuel + 1) (decode 163 1) = driverFuel 9 9 fuel (decode 166 2) :=
  driver_step_code fuel 6 163 1 2 1 0 (Or.inl ⟨rfl, rfl⟩) (by decide) (by decide) (by decide!)

set_option maxRecDepth 1000000 in
theorem game_step3 (fuel : Nat) :
    driverFuel 9 9 (fuel + 1) (decode 166 2) = driverFuel 9 9 fuel (decode 184 1) :=
  driver_step_code fuel 5 166 2 1 2 0 (Or.inr ⟨rfl, rfl⟩) (by decide) (by decide) (by decide!)

set_option maxRecDepth 1000000 in
theorem game_step4 (fuel : Nat) :
    driverFuel 9 9 (fuel + 1) (decode 184 1) = driverFuel 9 9 fuel (decode 913 2) :=
  driver_step_code fuel 4 184 1 2 6 0 (Or.inl ⟨rfl, rfl⟩) (by decide) (by decide) (by decide!)

set_option maxRecDepth 1000000 in
theorem game_step5 (fuel : Nat) :
    driverFuel 9 9 (fuel + 1) (decode 913 2) = driverFuel 9 9 fuel (decode 967 1) :=
  driver_step_code fuel 3 913 2 1 3 0 (Or.inr ⟨rfl, rfl⟩) (by decide) (by decide) (by decide!)

set_option maxRecDepth 1000000 in
theorem game_step6 (fuel : Nat) :
    driverFuel 9 9 (fuel + 1) (decode 967 1) = driverFuel 9 9 fuel (decode 1210 2) :=
  driver_step_code fuel 2 967 1 2 5 0 (Or.inl ⟨rfl, rfl⟩) (by decide) (by decide) (by decide!)

set_option maxRecDepth 1000000 in
theorem game_step7 (fuel : Nat) :
    driverFuel 9 9 (fuel + 1) (decode 1210 2) = driverFuel 9 9 fuel (decode 5584 1) :=
  driver_step_code fuel 1 1210 2 1 7 0 (Or.inr ⟨rfl, rfl⟩) (by decide) (by decide) (by decide!)

set_option maxRecDepth 1000000 in
theorem game_step8 (fuel : Nat) :
    driverFuel 9 9 (fuel + 1) (decode 5584 1) = driverFuel 9 9 fuel (decode 12145 2) :=
  driver_step_code fuel 0 5584 1 2 8 0 (Or.inl ⟨rfl, rfl⟩) (by decide) (by decide) (by decide!)

/-- C7: the driver loop from `NewState`, both players choosing `miniMaxAction(state, 9)`,
leaves the loop (with 10 units of loop fuel or more) in `drawState`: the board is full,
no line is complete, and `GetWinner` is 0. -/
theorem C7_full_depth_game_is_draw (k : Nat) :
    driverFuel 9 9 (10 + k) NewState = some drawState
      ∧ drawState.IsTerminal = true ∧ drawState.GetWinner = 0
      ∧ ∀ i : Fin 9, drawState.Board i ≠ 0 := by
  refine ⟨?_, by decide, by decide, by decide⟩
  have h10 : 10 + k = k + 1 + 1 + 1 + 1 + 1 + 1 + 1 + 1 + 1 + 1 := by omega
  rw [h10, newState_eq_decode, game_step0, game_step1, game_step2, game_step3, game_step4,
    game_step5, game_step6, game_step7, game_step8, drawState_eq_decode]
  exact driver_exit 9 9 k drawState (by decide)

/-! ## The winner, well-formed states, the range of the score -/

theorem scanLines_first (b : Fin 9 → Int) (pre post : List (Fin 9 × Fin 9 × Fin 9))
    (l : Fin 9 × Fin 9 × Fin 9) (hpre : ∀ l' ∈ pre, ¬ lineComplete b l')
    (hl : lineComplete b l) : scanLines b (pre ++ l :: post) = b l.1 := by
  induction pre with
  | nil => exact if_pos hl
  | cons x xs ih =>
    have hx : ¬ (b x.1 ≠ 0 ∧ b x.1 = b x.2.1 ∧ b x.1 = b x.2.2) :=
      hpre x (List.mem_cons_self _ _)
    show (if b x.1 ≠ 0 ∧ b x.1 = b x.2.1 ∧ b x.1 = b x.2.2 then b x.1
      else scanLines b (xs ++ l :: post)) = b l.1
    rw [if_neg hx]
    exact ih (fun l' hl' => hpre l' (List.mem_cons_of_mem _ hl'))

/-- C11: `GetWinner` returns 0 if and only if none of the 8 lines (3 rows, 3 columns, 2
diagonals) holds three equal non-empty occupants; otherwise it returns the occupant of the
first complete line in the order rows, columns, diagonals. -/
theorem C11_getWinner_first_complete_line (s : State) :
    lines = [(0, 1, 2), (3, 4, 5), (6, 7, 8), (0, 3, 6), (1, 4, 7), (2, 5, 8), (0, 4, 8),
        (2, 4, 6)]
      ∧ (s.GetWinner = 0 ↔ ∀ l ∈ lines, ¬ lineComplete s.Board l)
      ∧ (∀ pre l post, lines = pre ++ l :: post → (∀ l' ∈ pre, ¬ lineComplete s.Board l') →
          lineComplete s.Board l → s.GetWinner = s.Board l.1 ∧ s.GetWinner ≠ 0) := by
  refine ⟨rfl, scanLines_eq_zero_iff s.Board lines, ?_⟩
  intro pre l post hsplit hpre hl
  have h : s.GetWinner = s.Board l.1 := by
    unfold State.GetWinner
    rw [hsplit]
    exact scanLines_first s.Board pre post l hpre hl
  exact ⟨h, h ▸ hl.1⟩

theorem wellFormed_newState : wellFormed NewState :=
  ⟨fun _ => Or.inl rfl, Or.inl rfl⟩

/-- C15: the well-formedness predicate (every cell is 0, 1 or 2, the player to move is 1 or
2) holds for `NewState` and is preserved by `ApplyAction` for every in-range action;
moreover a cell that is non-empty before `ApplyAction` is non-empty after it. -/
theorem C15_wellFormed_preserved (s : State) (a : Int) (hw : wellFormed s)
    (ha : 0 ≤ a ∧ a < 9) :
    wellFormed NewState
      ∧ ∃ s', s.ApplyAction a = some s' ∧ wellFormed s'
          ∧ ∀ i : Fin 9, s.Board i ≠ 0 → s'.Board i ≠ 0 := by
  refine ⟨wellFormed_newState, _, applyAction_inRange s a ha, ⟨?_, ?_⟩, ?_⟩
  · intro i
    dsimp only
    by_cases hi : i = cellOf a ha
    · rw [hi, Function.update_same]
      exact Or.inr hw.2
    · rw [Function.update_noteq hi]
      exact hw.1 i
  · show switchPlayer s.CurrentPlayer = 1 ∨ switchPlayer s.CurrentPlayer = 2
    rcases hw.2 with h | h <;> rw [h]
    · exact Or.inr switchPlayer_one
    · exact Or.inl switchPlayer_two
  · intro i hne
    show Function.update s.Board (cellOf a ha) s.CurrentPlayer i ≠ 0
    by_cases hi : i = cellOf a ha
    · rw [hi, Function.update_same]
      exact player_ne_zero hw.2
    · rw [Function.update_noteq hi]
      exact hne

/-- C15 on the position `forkState` and the occupied cell 1: the hypotheses hold there, and
so the conclusion. -/
theorem C15_wellFormed_preserved_witness :
    wellFormed forkState ∧ ((0 : Int) ≤ 1 ∧ (1 : Int) < 9)
      ∧ wellFormed NewState
      ∧ ∃ s', forkState.ApplyAction 1 = some s' ∧ wellFormed s'
          ∧ ∀ i : Fin 9, forkState.Board i ≠ 0 → s'.Board i ≠ 0 :=
  ⟨by decide, by decide, C15_wellFormed_preserved forkState 1 (by decide) (by decide)⟩

/-- C16: for every state and every depth `miniMaxScore` returns, and the score is -1, 0 or
1; it is never the initial `math.MinInt` of the loop, which runs on at least one legal action
since a non-terminal state has one. -/
theorem C16_score_range (s : State) (d : Int) :
    ∃ r, miniMaxScore s d = some r ∧ (r = -1 ∨ r = 0 ∨ r = 1) ∧ r ≠ minInt
      ∧ (s.IsTerminal = false → s.GetLegalActions ≠ []) := by
  have hb := plyBound_le s
  obtain ⟨r, hr, hrange⟩ := score_total searchFuel s d (by unfold searchFuel; omega)
  refine ⟨r, hr, hrange, ?_, legal_ne_nil_of_not_terminal⟩
  unfold minInt
  omega

/-- C17 fails at depth 2 on `forkState`: `miniMaxAction` returns cell 0, the position after
it scores 0 at depth 1, and `miniMaxScore` of `forkState` at depth 2 is 1 (the win at cell 8
is found one ply earlier than the fork pays off). -/
theorem C17_root_keeps_depth :
    forkState.IsTerminal = false ∧ miniMaxAction forkState 2 = some 0
      ∧ (forkState.ApplyAction 0).bind (fun t => miniMaxScore t (2 - 1)) = some 0
      ∧ miniMaxScore forkState 2 = some 1 :=
  ⟨by decide, by decide!, by decide!, by decide!⟩

/-- C17 amended: for a non-terminal state and a depth `d ≥ 1` (with `d + 1` a 64-bit
`int`), the action returned by `miniMaxAction(s, d)` attains the negamax value of `s` at
depth `d + 1`: the root decision searches the successors at the full depth `d`, it does not
consume a ply. -/
theorem C17_action_attains_next_depth (s : State) (d : Int) (ht : s.IsTerminal = false)
    (hd : 1 ≤ d) (hd2 : d + 1 < 9223372036854775808) :
    ∃ a s' r, miniMaxAction s d = some a ∧ s.ApplyAction a = some s'
      ∧ miniMaxScore s' d = some r ∧ miniMaxScore s (d + 1) = some (-r) := by
  have hb := plyBound_le s
  obtain ⟨a, va, ha, hmem, hva, hall⟩ := action_spec s d (legal_ne_nil_of_not_terminal ht)
  obtain ⟨s', r, hs', hr, hrange, hcs⟩ := childScore_unpack s d hmem
  obtain ⟨r0, hr0, ⟨b, hb1, hb2⟩, hge⟩ :=
    score_step_spec 19 s (d + 1) ht (by omega) (by omega)
  have hdw : wrap64 (d + 1 - 1) = d := by
    rw [wrap64_small (by omega) (by omega)]
    omega
  rw [hdw] at hb2 hge
  -- the loops of `miniMaxScore` and of `miniMaxAction` see the same scores
  have hsame : ∀ c ∈ s.GetLegalActions,
      childScore 19 s d c = childScore searchFuel s d c := by
    intro c hc
    obtain ⟨t, ht', hlt⟩ := apply_legal hc
    simp only [childScore, ht', Option.some_bind]
    rw [score_fuel_irrelevant 19 searchFuel t d (by omega) (by unfold searchFuel; omega)]
  have hva' : va = -r := by
    rw [hcs] at hva
    exact (Option.some.inj hva).symm
  refine ⟨a, s', r, ha, hs', hr, ?_⟩
  show miniMaxScoreFuel 20 s (d + 1) = some (-r)
  rw [hr0]
  congr 1
  obtain ⟨v1, hv1, hle1⟩ := hge a hmem
  rw [hsame a hmem, hva] at hv1
  obtain ⟨v2, hv2, hle2, -⟩ := hall b hb1
  rw [← hsame b hb1, hb2] at hv2
  have := Option.some.inj hv1
  have := Option.some.inj hv2
  omega

/-- C17 amended, on `forkState` at depth 2: the hypotheses hold there, and so the
conclusion. -/
theorem C17_action_attains_next_depth_witness :
    forkState.IsTerminal = false ∧ (1 : Int) ≤ 2 ∧ (2 : Int) + 1 < 9223372036854775808
      ∧ ∃ a s' r, miniMaxAction forkState 2 = some a ∧ forkState.ApplyAction a = some s'
          ∧ miniMaxScore s' 2 = some r ∧ miniMaxScore forkState (2 + 1) = some (-r) :=
  ⟨by decide, by decide, by decide,
    C17_action_attains_next_depth forkState 2 (by decide) (by decide) (by decide)⟩

/-! ## Termination of the play loops -/

theorem mark_legal_length (s : State) (a : Int)
    (hp : s.CurrentPlayer = 1 ∨ s.CurrentPlayer = 2) (ha : a ∈ s.GetLegalActions) :
    ∃ s', s.ApplyAction a = some s'
      ∧ (s'.CurrentPlayer = 1 ∨ s'.CurrentPlayer = 2)
      ∧ s'.GetLegalActions.length + 1 = s.GetLegalActions.length := by
  obtain ⟨i, rfl, hi⟩ := (mem_getLegalActions s a).mp ha
  exact ⟨s.mark i, applyAction_mark s i, (mark_player s i hp).1,
    length_legal_mark s i (player_ne_zero hp) hi⟩

/-- Every application of a legal action removes exactly one empty cell. -/
theorem playFrom_length (s : State) (moves : List Int) (t : State)
    (hp : s.CurrentPlayer = 1 ∨ s.CurrentPlayer = 2) (h : playFrom s moves = some t) :
    moves.length + t.GetLegalActions.length = s.GetLegalActions.length := by
  induction moves generalizing s with
  | nil =>
    simp only [playFrom, Option.some.injEq] at h
    rw [h]
    simp
  | cons a rest ih =>
    simp only [playFrom] at h
    split at h
    · rename_i hcond
      obtain ⟨s', hs', hp', hlen⟩ := mark_legal_length s a hp hcond.2
      rw [hs', Option.some_bind] at h
      have := ih s' hp' h
      simp only [List.length_cons]
      omega
    · exact Option.noConfusion h

theorem getElem?_mod_mem (l : List Int) (i : Nat) (h : l.length ≠ 0) :
    ∃ a, l[i % l.length]? = some a ∧ a ∈ l := by
  have hlt : i % l.length < l.length := Nat.mod_lt _ (Nat.pos_of_ne_zero h)
  exact ⟨l[i % l.length], List.getElem?_eq_getElem hlt, List.getElem_mem hlt⟩

theorem playout_of_terminal (rnd : Nat → Nat) (fuel : Nat) (s : State) (c : Nat)
    (ht : s.IsTerminal = true) :
    playoutFuel rnd (fuel + 1) s c = some (((s.GetScore + 1 : Int) : ℚ) / 2, c) := by
  simp only [playoutFuel, ht, if_true]

theorem playout_step (rnd : Nat → Nat) (fuel : Nat) (s s' : State) (c : Nat) (a : Int)
    (ht : s.IsTerminal = false) (hne : s.GetLegalActions.length ≠ 0)
    (ha : s.GetLegalActions[rnd c % s.GetLegalActions.length]? = some a)
    (hs' : s.ApplyAction a = some s') :
    playoutFuel rnd (fuel + 1) s c = playoutFuel rnd fuel s' (c + 1) := by
  conv_lhs => unfold playoutFuel
  simp only [ht, Bool.false_eq_true, if_false, hne, ha, Option.some_bind, hs']

theorem playout_value_range (s : State) :
    (((s.GetScore + 1 : Int) : ℚ) / 2 = 0) ∨ (((s.GetScore + 1 : Int) : ℚ) / 2 = 1 / 2)
      ∨ (((s.GetScore + 1 : Int) : ℚ) / 2 = 1) := by
  rcases getScore_range s with h | h | h <;> rw [h] <;> norm_num

/-- The playout loop returns after at most as many applications as there are empty cells;
the value is 0, 1/2 or 1. -/
theorem playout_total (rnd : Nat → Nat) (k : Nat) :
    ∀ (s : State) (c : Nat), (s.CurrentPlayer = 1 ∨ s.CurrentPlayer = 2) →
      s.GetLegalActions.length = k →
      ∃ v c', playoutFuel rnd (k + 1) s c = some (v, c') ∧ c' ≤ c + k
        ∧ (v = 0 ∨ v = 1 / 2 ∨ v = 1) := by
  induction k with
  | zero =>
    intro s c _ hlen
    have ht : s.IsTerminal = true := by simp [State.IsTerminal, hlen]
    exact ⟨_, c, playout_of_terminal rnd 0 s c ht, le_refl _, playout_value_range s⟩
  | succ k ih =>
    intro s c hp hlen
    by_cases ht : s.IsTerminal = true
    · exact ⟨_, c, playout_of_terminal rnd _ s c ht, by omega, playout_value_range s⟩
    · have ht' : s.IsTerminal = false := by simpa using ht
      have hne : s.GetLegalActions.length ≠ 0 := by omega
      obtain ⟨a, ha, hmem⟩ := getElem?_mod_mem s.GetLegalActions (rnd c) hne
      obtain ⟨s', hs', hp', hlen'⟩ := mark_legal_length s a hp hmem
      obtain ⟨v, c', hrun, hc', hv⟩ := ih s' (c + 1) hp' (by omega)
      refine ⟨v, c', ?_, by omega, hv⟩
      rw [playout_step rnd (k + 1) s s' c a ht' hne ha hs', hrun]

/-- The driver loop with negamax players returns a terminal state after at most as many
applications as there are empty cells. -/
theorem driver_total (d1 d2 : Int) (k : Nat) :
    ∀ s : State, (s.CurrentPlayer = 1 ∨ s.CurrentPlayer = 2) →
      s.GetLegalActions.length = k →
      ∃ t, driverFuel d1 d2 (k + 1) s = some t ∧ t.IsTerminal = true := by
  induction k with
  | zero =>
    intro s _ hlen
    have ht : s.IsTerminal = true := by simp [State.IsTerminal, hlen]
    exact ⟨s, driver_exit d1 d2 0 s ht, ht⟩
  | succ k ih =>
    intro s hp hlen
    by_cases ht : s.IsTerminal = true
    · exact ⟨s, driver_exit d1 d2 _ s ht, ht⟩
    · have ht' : s.IsTerminal = false := by simpa using ht
      have hne := legal_ne_nil_of_not_terminal ht'
      have hact : ∃ a, (if s.CurrentPlayer = 1 then miniMaxAction s d1
          else miniMaxAction s d2) = some a ∧ a ∈ s.GetLegalActions := by
        split
        · obtain ⟨a, -, ha, hmem, -⟩ := action_spec s d1 hne
          exact ⟨a, ha, hmem⟩
        · obtain ⟨a, -, ha, hmem, -⟩ := action_spec s d2 hne
          exact ⟨a, ha, hmem⟩
      obtain ⟨a, ha, hmem⟩ := hact
      obtain ⟨s', hs', hp', hlen'⟩ := mark_legal_length s a hp hmem
      obtain ⟨t, hrun, hterm⟩ := ih s' hp' (by omega)
      exact ⟨t, (driver_step d1 d2 (k + 1) s s' a ht' ha hs').trans hrun, hterm⟩

/-- C14: from a state with `k` empty cells that is a state of a legal game, or more generally
has player 1 or 2 to move, every application of a legal action removes exactly one empty
cell. So every play of legal actions has at most `k` applications and one of `k`
applications ends in a terminal state; the playout loop, for every random sequence, and the
driver loop with negamax players, for all depths, return with a terminal state within `k`
applications (`k + 1` tests of the loop condition); from `NewState` that is at most 9. -/
theorem C14_loops_terminate (s : State) (k : Nat)
    (hs : Reachable s ∨ (s.CurrentPlayer = 1 ∨ s.CurrentPlayer = 2))
    (hk : s.GetLegalActions.length = k) :
    (∀ moves t, playFrom s moves = some t →
        moves.length + t.GetLegalActions.length = k ∧ moves.length ≤ k
          ∧ (moves.length = k → t.IsTerminal = true))
      ∧ (∀ (rnd : Nat → Nat) (c : Nat), ∃ v c', playoutFuel rnd (k + 1) s c = some (v, c')
          ∧ c' ≤ c + k)
      ∧ (∀ d1 d2 : Int, ∃ t, driverFuel d1 d2 (k + 1) s = some t ∧ t.IsTerminal = true)
      ∧ NewState.GetLegalActions.length = 9 := by
  have hp : s.CurrentPlayer = 1 ∨ s.CurrentPlayer = 2 := hs.elim reachable_player id
  refine ⟨?_, ?_, ?_, by decide⟩
  · intro moves t h
    have hlen := playFrom_length s moves t hp h
    refine ⟨by omega, by omega, ?_⟩
    intro hfull
    have hnil : t.GetLegalActions = [] := List.length_eq_zero.mp (by omega)
    by_contra hnt
    exact legal_ne_nil_of_not_terminal (by simpa using hnt) hnil
  · intro rnd c
    obtain ⟨v, c', h, hc, -⟩ := playout_total rnd k s c hp hk
    exact ⟨v, c', h, hc⟩
  · intro d1 d2
    exact driver_total d1 d2 k s hp hk

/-- C14 on `NewState` with its 9 empty cells: the hypotheses hold there, and so the
conclusion. -/
theorem C14_loops_terminate_witness :
    (Reachable NewState ∨ (NewState.CurrentPlayer = 1 ∨ NewState.CurrentPlayer = 2))
      ∧ NewState.GetLegalActions.length = 9
      ∧ (∀ moves t, playFrom NewState moves = some t →
          moves.length + t.GetLegalActions.length = 9 ∧ moves.length ≤ 9
            ∧ (moves.length = 9 → t.IsTerminal = true))
      ∧ (∀ (rnd : Nat → Nat) (c : Nat), ∃ v c', playoutFuel rnd (9 + 1) NewState c = some (v, c')
          ∧ c' ≤ c + 9)
      ∧ (∀ d1 d2 : Int, ∃ t, driverFuel d1 d2 (9 + 1) NewState = some t ∧ t.IsTerminal = true)
      ∧ NewState.GetLegalActions.length = 9 :=
  ⟨Or.inl Reachable.init, by decide,
    C14_loops_terminate NewState 9 (Or.inl Reachable.init) (by decide)⟩

/-! ## Rounding of the float64 counters -/

theorem roundNat_of_lt {x : Nat} (h : x < 9007199254740992) : roundNat x = x := by
  unfold roundNat
  rw [if_pos h]

theorem log2_of_range {x : Nat} (m : Nat) (h1 : 2 ^ m ≤ x) (h2 : x < 2 ^ (m + 1)) :
    Nat.log2 x = m := by
  rw [Nat.log2_eq_log_two]
  exact Nat.log_eq_of_pow_le_of_lt_pow h1 h2

theorem roundNat_two_pow_53 : roundNat 9007199254740992 = 9007199254740992 := by
  unfold roundNat
  rw [if_neg (by decide), log2_of_range 53 (by norm_num) (by norm_num)]
  decide

theorem roundNat_two_pow_53_succ : roundNat 9007199254740993 = 9007199254740992 := by
  unfold roundNat
  rw [if_neg (by decide), log2_of_range 53 (by norm_num) (by norm_num)]
  decide

theorem roundNat_two_pow_54 : roundNat 18014398509481984 = 18014398509481984 := by
  unfold roundNat
  rw [if_neg (by decide), log2_of_range 54 (by norm_num) (by norm_num)]
  decide

theorem roundNat_two_pow_54_add_one : roundNat 18014398509481985 = 18014398509481984 := by
  unfold roundNat
  rw [if_neg (by decide), log2_of_range 54 (by norm_num) (by norm_num)]
  decide

theorem roundNat_two_pow_54_add_two : roundNat 18014398509481986 = 18014398509481984 := by
  unfold roundNat
  rw [if_neg (by decide), log2_of_range 54 (by norm_num) (by norm_num)]
  decide

/-- Between `2 ^ 53` and `2 ^ 54` float64 holds the even numbers: an odd number is a tie and
goes to the neighbour with an even half. -/
theorem roundNat_of_range {x : Nat} (h1 : 9007199254740992 ≤ x) (h2 : x < 18014398509481984) :
    roundNat x = if x % 2 = 0 then x else if x / 2 % 2 = 0 then x - 1 else x + 1 := by
  unfold roundNat
  rw [if_neg (by omega), log2_of_range 53 (by norm_num; exact h1) (by norm_num; exact h2)]
  simp only [show (53 : Nat) - 52 = 1 from rfl, pow_one]
  by_cases hx : x % 2 = 0
  · rw [if_pos (by omega), if_pos hx]
    omega
  · rw [if_neg (by omega), if_neg (by omega), if_neg hx]
    by_cases hk : x / 2 % 2 = 0
    · rw [if_pos hk, if_pos hk]
      omega
    · rw [if_neg hk, if_neg hk]
      omega

theorem roundNat_pos {x : Nat} (h : 1 ≤ x) : 1 ≤ roundNat x := by
  by_cases hlt : x < 9007199254740992
  · rw [roundNat_of_lt hlt]
    exact h
  · unfold roundNat
    rw [if_neg hlt]
    have hq : 0 < 2 ^ (Nat.log2 x - 52) := Nat.pow_pos (by decide)
    have hle : 2 ^ (Nat.log2 x - 52) ≤ x :=
      le_trans (Nat.pow_le_pow_right (by decide) (Nat.sub_le _ _))
        (Nat.log2_self_le (by omega))
    have hk : 1 ≤ x / 2 ^ (Nat.log2 x - 52) := (Nat.one_le_div_iff hq).mpr hle
    have h1 : 1 ≤ x / 2 ^ (Nat.log2 x - 52) * 2 ^ (Nat.log2 x - 52) :=
      Nat.mul_pos hk hq
    have h2 : 1 ≤ (x / 2 ^ (Nat.log2 x - 52) + 1) * 2 ^ (Nat.log2 x - 52) :=
      Nat.mul_pos (by omega) hq
    simp only
    split
    · exact h1
    · split
      · exact h2
      · split
        · exact h1
        · exact h2

/-- The increment `n++` of a visit count: exact below `2 ^ 53`, where the count stays. -/
theorem roundNat_succ {n : Nat} (hn : n ≤ 9007199254740992) :
    roundNat (n + 1) ≤ 9007199254740992 ∧ n ≤ roundNat (n + 1)
      ∧ (n < 9007199254740992 → roundNat (n + 1) = n + 1) := by
  by_cases h : n + 1 < 9007199254740992
  · rw [roundNat_of_lt h]
    omega
  · by_cases h' : n + 1 = 9007199254740992
    · rw [h', roundNat_two_pow_53]
      omega
    · have : n + 1 = 9007199254740993 := by omega
      rw [this, roundNat_two_pow_53_succ]
      omega

/-- The rounding of twice a win credit stays below twice the incremented visit count. -/
theorem roundNat_credit {h n : Nat} (hn : n ≤ 9007199254740992) (hh : h ≤ 2 * n + 2) :
    roundNat h ≤ 2 * roundNat (n + 1) := by
  have hn' : (n < 9007199254740992 ∧ roundNat (n + 1) = n + 1)
      ∨ (n = 9007199254740992 ∧ roundNat (n + 1) = 9007199254740992) := by
    by_cases hlt : n < 9007199254740992
    · exact Or.inl ⟨hlt, (roundNat_succ hn).2.2 hlt⟩
    · have : n = 9007199254740992 := by omega
      exact Or.inr ⟨this, by rw [this]; exact roundNat_two_pow_53_succ⟩
  by_cases h1 : h < 9007199254740992
  · rw [roundNat_of_lt h1]
    rcases hn' with ⟨-, he⟩ | ⟨-, he⟩ <;> omega
  · by_cases h2 : h < 18014398509481984
    · rw [roundNat_of_range (by omega) h2]
      rcases hn' with ⟨-, he⟩ | ⟨-, he⟩ <;> rw [he] <;> split <;> first | omega | (split; all_goals omega)
    · have hcases : h = 18014398509481984 ∨ h = 18014398509481985
          ∨ h = 18014398509481986 := by omega
      have hr : roundNat h = 18014398509481984 := by
        rcases hcases with rfl | rfl | rfl
        · exact roundNat_two_pow_54
        · exact roundNat_two_pow_54_add_one
        · exact roundNat_two_pow_54_add_two
      rw [hr]
      rcases hn' with ⟨-, he⟩ | ⟨-, he⟩ <;> omega

theorem fadd_half (h v2 : Nat) :
    fadd ((h : ℚ) / 2) ((v2 : ℚ) / 2) = ((roundNat (h + v2) : Nat) : ℚ) / 2 := by
  unfold fadd
  have h1 : 2 * ((h : ℚ) / 2 + (v2 : ℚ) / 2) = ((h + v2 : Nat) : ℚ) := by
    push_cast
    ring
  have h2 : ((h + v2 : Nat) : ℚ).floor = ((h + v2 : Nat) : Int) := by
    have h3 : ((h + v2 : Nat) : ℚ).floor = ⌊((h + v2 : Nat) : ℚ)⌋ := rfl
    rw [h3]
    exact Int.floor_natCast (h + v2)
  rw [h1, h2, Int.toNat_ofNat]

/-- The invariant of the counters is kept by a visit with a value 0, 1/2 or 1. -/
theorem counters_step {w : ℚ} {n : Nat} (hn : n ≤ 9007199254740992)
    (hw : ∃ h : Nat, w = (h : ℚ) / 2 ∧ h ≤ 2 * n) {v : ℚ} (hv : v = 0 ∨ v = 1 / 2 ∨ v = 1) :
    roundNat (n + 1) ≤ 9007199254740992
      ∧ ∃ h' : Nat, fadd w v = (h' : ℚ) / 2 ∧ h' ≤ 2 * roundNat (n + 1) := by
  obtain ⟨h, rfl, hh⟩ := hw
  refine ⟨(roundNat_succ hn).1, ?_⟩
  obtain ⟨v2, hv2, hle⟩ : ∃ v2 : Nat, v = (v2 : ℚ) / 2 ∧ v2 ≤ 2 := by
    rcases hv with rfl | rfl | rfl
    · exact ⟨0, by norm_num, by omega⟩
    · exact ⟨1, by norm_num, by omega⟩
    · exact ⟨2, by norm_num, by omega⟩
  rw [hv2, fadd_half]
  exact ⟨_, rfl, roundNat_credit hn (by omega)⟩

/-! ## The search tree -/

theorem good_n {b : Bool} {node : Node} (h : node.Good b) : node.n ≤ 9007199254740992 := by
  cases h
  assumption

theorem good_w {b : Bool} {node : Node} (h : node.Good b) :
    ∃ x : Nat, node.w = (x : ℚ) / 2 ∧ x ≤ 2 * node.n := by
  cases h
  assumption

theorem good_exp {node : Node} (h : node.Good false) :
    node.childNodes ≠ [] ↔ (node.state.IsTerminal = false ∧ EXPAND_THRESHOLD ≤ node.n) := by
  cases h with
  | mk _ _ _ _ _ _ _ hexp _ _ _ => exact hexp rfl

theorem good_root {node : Node} (h : node.Good true) :
    node.childNodes.length = node.state.GetLegalActions.length := by
  cases h with
  | mk _ _ _ _ _ _ _ _ hroot _ _ => exact hroot rfl

theorem good_states {b : Bool} {node : Node} (h : node.Good b) (hne : node.childNodes ≠ []) :
    List.Forall₂ (fun a c => node.state.ApplyAction a = some (Node.state c))
      node.state.GetLegalActions node.childNodes := by
  cases h with
  | mk _ _ _ _ _ _ _ _ _ hstates _ => exact hstates hne

theorem good_sub {b : Bool} {node : Node} (h : node.Good b) :
    ∀ c ∈ node.childNodes, c.Good false := by
  cases h
  assumption

theorem good_below {b : Bool} {x y : Node} (hy : y.Good b) (h : x.Below y) : x.Good false := by
  induction h generalizing b with
  | child y hmem => exact good_sub hy _ hmem
  | deeper c y hmem _ ih => exact ih (good_sub hy c hmem)

theorem node_eta (node : Node) :
    Node.mk node.state node.w node.n node.childNodes = node := by
  cases node
  rfl

theorem good_newNode (s : State) : (NewNode s).Good false := by
  refine Node.Good.mk false s 0 0 [] (by omega) ⟨0, by norm_num, by omega⟩ ?_ ?_ ?_ ?_
  · intro _
    constructor
    · intro h
      exact absurd rfl h
    · rintro ⟨-, h⟩
      unfold EXPAND_THRESHOLD at h
      omega
  · intro h
    cases h
  · intro h
    exact absurd rfl h
  · intro c hc
    cases hc

/-- The loop of `Expand` on legal actions: one unvisited node per action, holding the state
after the action. -/
theorem expandLoop_spec (state : State) (actions : List Int)
    (h : ∀ a ∈ actions, a ∈ state.GetLegalActions) :
    ∃ cs, expandLoop state actions = some cs
      ∧ List.Forall₂ (fun a c => state.ApplyAction a = some (Node.state c)) actions cs
      ∧ (∀ c ∈ cs, c.Good false ∧ c.n = 0 ∧ c.w = 0 ∧ c.childNodes = []) := by
  induction actions with
  | nil => exact ⟨[], rfl, List.Forall₂.nil, fun c hc => by cases hc⟩
  | cons a rest ih =>
    obtain ⟨cs, hcs, hf, hall⟩ := ih (fun b hb => h b (List.mem_cons_of_mem _ hb))
    obtain ⟨s', hs', -⟩ := apply_legal (h a (List.mem_cons_self _ _))
    refine ⟨NewNode s' :: cs, ?_, List.Forall₂.cons hs' hf, ?_⟩
    · simp only [expandLoop, hs', hcs, Option.some_bind, Option.map_some']
    · intro c hc
      rcases List.mem_cons.mp hc with rfl | hmem
      · exact ⟨good_newNode s', rfl, rfl, rfl⟩
      · exact hall c hmem

theorem expand_spec (node : Node) :
    ∃ cs, node.Expand = some (.mk node.state node.w node.n cs)
      ∧ List.Forall₂ (fun a c => node.state.ApplyAction a = some (Node.state c))
          node.state.GetLegalActions cs
      ∧ (∀ c ∈ cs, c.Good false ∧ c.n = 0 ∧ c.w = 0 ∧ c.childNodes = []) := by
  obtain ⟨cs, hcs, hf, hall⟩ :=
    expandLoop_spec node.state node.state.GetLegalActions (fun a ha => ha)
  exact ⟨cs, by simp only [Node.Expand, hcs, Option.map_some'], hf, hall⟩

/-- The playout loop returns on every state, within its fuel. -/
theorem playout_total_any (rnd : Nat → Nat) (fuel : Nat) :
    ∀ (s : State) (c : Nat), plyBound s < fuel →
      ∃ v c', playoutFuel rnd fuel s c = some (v, c') ∧ (v = 0 ∨ v = 1 / 2 ∨ v = 1) := by
  induction fuel with
  | zero =>
    intro s c h
    omega
  | succ fuel ih =>
    intro s c hf
    by_cases ht : s.IsTerminal = true
    · exact ⟨_, c, playout_of_terminal rnd _ s c ht, playout_value_range s⟩
    · have ht' : s.IsTerminal = false := by simpa using ht
      have hne : s.GetLegalActions.length ≠ 0 := fun h0 =>
        legal_ne_nil_of_not_terminal ht' (List.length_eq_zero.mp h0)
      obtain ⟨a, ha, hmem⟩ := getElem?_mod_mem s.GetLegalActions (rnd c) hne
      obtain ⟨s', hs', hlt⟩ := apply_legal hmem
      obtain ⟨v, c', hrun, hv⟩ := ih s' (c + 1) (by omega)
      exact ⟨v, c', by rw [playout_step rnd fuel s s' c a ht' hne ha hs', hrun], hv⟩

theorem playout_spec (rnd : Nat → Nat) (s : State) (c : Nat) :
    ∃ v c', playout rnd s c = some (v, c') ∧ (v = 0 ∨ v = 1 / 2 ∨ v = 1) := by
  have := plyBound_le s
  exact playout_total_any rnd 20 s c (by omega)

/-! ## The selection of the next child -/

theorem firstUnvisited_some (l : List Node) (i : Nat) (h : firstUnvisited l = some i) :
    (∃ c, l[i]? = some c ∧ c.n = 0) ∧ ∀ j < i, ∀ c, l[j]? = some c → c.n ≠ 0 := by
  induction l generalizing i with
  | nil => exact Option.noConfusion h
  | cons x xs ih =>
    simp only [firstUnvisited] at h
    by_cases hx : x.n = 0
    · rw [if_pos hx] at h
      have hi : i = 0 := (Option.some.inj h).symm
      subst hi
      exact ⟨⟨x, List.getElem?_cons_zero, hx⟩, fun j hj => absurd hj (Nat.not_lt_zero j)⟩
    · rw [if_neg hx] at h
      cases hrest : firstUnvisited xs with
      | none =>
        rw [hrest] at h
        exact Option.noConfusion h
      | some k =>
        rw [hrest] at h
        have hi : i = k + 1 := (Option.some.inj h).symm
        subst hi
        obtain ⟨⟨c, hc, hc0⟩, hbefore⟩ := ih k hrest
        refine ⟨⟨c, by rw [List.getElem?_cons_succ]; exact hc, hc0⟩, ?_⟩
        intro j hj c hc
        cases j with
        | zero =>
          simp only [List.getElem?_cons_zero, Option.some.injEq] at hc
          exact hc ▸ hx
        | succ j =>
          rw [List.getElem?_cons_succ] at hc
          exact hbefore j (by omega) c hc

theorem firstUnvisited_none (l : List Node) (h : firstUnvisited l = none) :
    ∀ c ∈ l, c.n ≠ 0 := by
  induction l with
  | nil =>
    intro c hc
    cases hc
  | cons x xs ih =>
    simp only [firstUnvisited] at h
    by_cases hx : x.n = 0
    · rw [if_pos hx] at h
      exact Option.noConfusion h
    · rw [if_neg hx] at h
      have hrest : firstUnvisited xs = none := by
        cases hr : firstUnvisited xs with
        | none => rfl
        | some k =>
          rw [hr] at h
          exact Option.noConfusion h
      intro c hc
      rcases List.mem_cons.mp hc with rfl | hmem
      · exact hx
      · exact ih hrest c hmem

theorem ucbLoop_best (ucb : Nat → ℚ → Nat → ℚ) (t : Nat) (l : List Node) (i : Nat)
    (best : Option ℚ × Option Nat) (j0 : Nat) (hbest : best.2 = some j0) (hj0 : j0 < i) :
    ∃ j, (ucbLoop ucb t l i best).2 = some j ∧ j < i + l.length := by
  induction l generalizing i best j0 with
  | nil => exact ⟨j0, hbest, by simpa using hj0⟩
  | cons x xs ih =>
    simp only [ucbLoop, List.length_cons]
    split
    · obtain ⟨j, hj, hlt⟩ := ih (i + 1) best j0 hbest (by omega)
      exact ⟨j, hj, by omega⟩
    · split
      · obtain ⟨j, hj, hlt⟩ := ih (i + 1) (_, some i) i rfl (by omega)
        exact ⟨j, hj, by omega⟩
      · obtain ⟨j, hj, hlt⟩ := ih (i + 1) best j0 hbest (by omega)
        exact ⟨j, hj, by omega⟩

theorem totalVisits_pos (l : List Node) (hne : l ≠ []) (h : ∀ c ∈ l, c.n ≠ 0) :
    1 ≤ totalVisits l := by
  obtain ⟨init, last, rfl⟩ : ∃ init last, l = init ++ [last] :=
    ⟨l.dropLast, l.getLast hne, (List.dropLast_append_getLast hne).symm⟩
  unfold totalVisits
  rw [List.foldl_append]
  simp only [List.foldl_cons, List.foldl_nil]
  have := h last (by simp)
  exact roundNat_pos (by omega)

/-- On a non-empty list of children `NextChildNode` returns a child: the first with a visit
count 0 if there is one, else a child picked by the UCB1 loop, which then runs on visit
counts and a total of at least 1. -/
theorem nextChildNode_spec (ucb : Nat → ℚ → Nat → ℚ) (l : List Node) (hne : l ≠ []) :
    ∃ i c, NextChildNode ucb l = some i ∧ l[i]? = some c
      ∧ ((c.n = 0 ∧ ∀ j < i, ∀ c', l[j]? = some c' → c'.n ≠ 0)
          ∨ ((∀ c' ∈ l, 1 ≤ c'.n) ∧ 1 ≤ totalVisits l
              ∧ ∀ c' ∈ l, (ucb1Value ucb (totalVisits l) c'.w c'.n).isSome = true)) := by
  unfold NextChildNode
  cases hfirst : firstUnvisited l with
  | some i =>
    obtain ⟨⟨c, hc, hc0⟩, hbefore⟩ := firstUnvisited_some l i hfirst
    exact ⟨i, c, rfl, hc, Or.inl ⟨hc0, hbefore⟩⟩
  | none =>
    have hall := firstUnvisited_none l hfirst
    obtain ⟨x, xs, rfl⟩ := List.exists_cons_of_ne_nil hne
    have hx := hall x (List.mem_cons_self _ _)
    have hstep : ∃ v, ucbLoop ucb (totalVisits (x :: xs)) (x :: xs) 0 (none, none)
        = ucbLoop ucb (totalVisits (x :: xs)) xs 1 (some v, some 0) := by
      refine ⟨ucb (totalVisits (x :: xs)) x.w x.n, ?_⟩
      conv_lhs => unfold ucbLoop
      simp only [ucb1Value, if_neg hx, if_true]
    obtain ⟨v, hv⟩ := hstep
    obtain ⟨j, hj, hlt⟩ := ucbLoop_best ucb (totalVisits (x :: xs)) xs 1 (some v, some 0) 0 rfl
      (by omega)
    have hlt' : j < (x :: xs).length := by
      simp only [List.length_cons]
      omega
    refine ⟨j, (x :: xs)[j], ?_, List.getElem?_eq_getElem hlt', Or.inr ⟨?_, ?_, ?_⟩⟩
    · simp only [hv, hj]
    · intro c' hc'
      have := hall c' hc'
      omega
    · exact totalVisits_pos _ hne hall
    · intro c' hc'
      simp only [ucb1Value, if_neg (hall c' hc'), Option.isSome_some]

/-! ## One call of `Evaluate` -/

theorem forall₂_getElem {α β : Type} {R : α → β → Prop} {l1 : List α} {l2 : List β}
    (h : List.Forall₂ R l1 l2) (i : Nat) (c : β) (hc : l2[i]? = some c) :
    ∃ a, l1[i]? = some a ∧ R a c := by
  induction h generalizing i with
  | nil => simp at hc
  | cons hab _ ih =>
    cases i with
    | zero =>
      simp only [List.getElem?_cons_zero, Option.some.injEq] at hc
      exact ⟨_, List.getElem?_cons_zero, hc ▸ hab⟩
    | succ i =>
      rw [List.getElem?_cons_succ] at hc
      obtain ⟨a, ha, hr⟩ := ih i hc
      exact ⟨a, by rw [List.getElem?_cons_succ]; exact ha, hr⟩

theorem forall₂_set {α β : Type} {R : α → β → Prop} {l1 : List α} {l2 : List β}
    (h : List.Forall₂ R l1 l2) (i : Nat) (c c' : β) (hc : l2[i]? = some c)
    (hr : ∀ a, R a c → R a c') : List.Forall₂ R l1 (l2.set i c') := by
  induction h generalizing i with
  | nil => exact List.Forall₂.nil
  | cons hab hrest ih =>
    cases i with
    | zero =>
      simp only [List.getElem?_cons_zero, Option.some.injEq] at hc
      exact List.Forall₂.cons (hr _ (hc ▸ hab)) hrest
    | succ i =>
      rw [List.getElem?_cons_succ] at hc
      exact List.Forall₂.cons hab (ih i hc)

theorem evaluate_terminal (ucb : Nat → ℚ → Nat → ℚ) (rnd : Nat → Nat) (fuel : Nat)
    (node : Node) (k : Nat) (ht : node.state.IsTerminal = true) :
    EvaluateFuel ucb rnd (fuel + 1) node k
      = some (.mk node.state (fadd node.w (if node.state.GetScore = -1 then 0 else 1 / 2))
          (roundNat (node.n + 1)) node.childNodes,
          if node.state.GetScore = -1 then 0 else 1 / 2, k) := by
  conv_lhs => unfold EvaluateFuel
  simp only [ht, if_true]

theorem evaluate_leaf (ucb : Nat → ℚ → Nat → ℚ) (rnd : Nat → Nat) (fuel : Nat)
    (node : Node) (k : Nat) (ht : node.state.IsTerminal = false)
    (hlen : node.childNodes.length = 0) :
    EvaluateFuel ucb rnd (fuel + 1) node k
      = (playout rnd node.state k).bind fun vk =>
          if roundNat (node.n + 1) = EXPAND_THRESHOLD then
            (Node.Expand (.mk node.state (fadd node.w vk.1) (roundNat (node.n + 1))
              node.childNodes)).map fun e => (e, vk.1, vk.2)
          else some (.mk node.state (fadd node.w vk.1) (roundNat (node.n + 1))
            node.childNodes, vk.1, vk.2) := by
  conv_lhs => unfold EvaluateFuel
  simp only [ht, Bool.false_eq_true, if_false, hlen, if_true, Node.n]

theorem evaluate_inner (ucb : Nat → ℚ → Nat → ℚ) (rnd : Nat → Nat) (fuel : Nat)
    (node : Node) (k : Nat) (ht : node.state.IsTerminal = false)
    (hlen : node.childNodes.length ≠ 0) :
    EvaluateFuel ucb rnd (fuel + 1) node k
      = (NextChildNode ucb node.childNodes).bind fun i =>
          node.childNodes[i]?.bind fun child =>
          (EvaluateFuel ucb rnd fuel child k).bind fun r =>
            some (.mk node.state (fadd node.w (1 - r.2.1)) (roundNat (node.n + 1))
              (node.childNodes.set i r.1), 1 - r.2.1, r.2.2) := by
  conv_lhs => unfold EvaluateFuel
  simp only [ht, Bool.false_eq_true, if_false, hlen]

theorem value_flip {v : ℚ} (hv : v = 0 ∨ v = 1 / 2 ∨ v = 1) :
    1 - v = 0 ∨ 1 - v = 1 / 2 ∨ 1 - v = 1 := by
  rcases hv with rfl | rfl | rfl <;> norm_num

/-- One call of `Evaluate` on a node satisfying the invariant returns; the node keeps its
state and the invariant, its visit count is incremented, its win credit receives the
returned value, which is 0, 1/2 or 1, and the children are unchanged (terminal state), or
new and unvisited (leaf), or one of them has been evaluated. -/
theorem evaluate_good (ucb : Nat → ℚ → Nat → ℚ) (rnd : Nat → Nat) (fuel : Nat) :
    ∀ (b : Bool) (node : Node) (k : Nat), node.Good b → plyBound node.state < fuel →
      ∃ node' v k', EvaluateFuel ucb rnd fuel node k = some (node', v, k')
        ∧ node'.Good b ∧ node'.state = node.state ∧ node'.n = roundNat (node.n + 1)
        ∧ node'.w = fadd node.w v ∧ (v = 0 ∨ v = 1 / 2 ∨ v = 1)
        ∧ ((node.state.IsTerminal = true ∧ node'.childNodes = node.childNodes)
          ∨ (node.state.IsTerminal = false ∧ node.childNodes = []
              ∧ ∀ c ∈ node'.childNodes, c.n = 0)
          ∨ (node.state.IsTerminal = false ∧ ∃ i child child',
              node.childNodes[i]? = some child
                ∧ node'.childNodes = node.childNodes.set i child'
                ∧ child'.n = roundNat (child.n + 1))) := by
  induction fuel with
  | zero =>
    intro b node k _ h
    omega
  | succ fuel ih =>
    intro b node k hgood hf
    have hn := good_n hgood
    have hw := good_w hgood
    by_cases ht : node.state.IsTerminal = true
    · -- a terminal state
      have hv : (if node.state.GetScore = -1 then (0 : ℚ) else 1 / 2) = 0
          ∨ (if node.state.GetScore = -1 then (0 : ℚ) else 1 / 2) = 1 / 2
          ∨ (if node.state.GetScore = -1 then (0 : ℚ) else 1 / 2) = 1 := by
        split
        · exact Or.inl rfl
        · exact Or.inr (Or.inl rfl)
      obtain ⟨hn', hw'⟩ := counters_step hn hw hv
      refine ⟨_, _, k, evaluate_terminal ucb rnd fuel node k ht, ?_, rfl, rfl, rfl, hv,
        Or.inl ⟨ht, rfl⟩⟩
      refine Node.Good.mk b _ _ _ _ hn' hw' ?_ ?_ ?_ (good_sub hgood)
      · intro hb
        subst hb
        have hexp := good_exp hgood
        constructor
        · intro hne
          have := (hexp.mp hne).1
          rw [ht] at this
          exact Bool.noConfusion this
        · rintro ⟨h1, -⟩
          rw [ht] at h1
          exact Bool.noConfusion h1
      · intro hb
        subst hb
        exact good_root hgood
      · exact good_states hgood
    · have ht' : node.state.IsTerminal = false := by simpa using ht
      have hlegal := legal_ne_nil_of_not_terminal ht'
      by_cases hlen : node.childNodes.length = 0
      · -- a leaf: playout, and expansion at the threshold
        have hnil : node.childNodes = [] := List.length_eq_zero.mp hlen
        have hb : b = false := by
          cases b with
          | false => rfl
          | true =>
            have := good_root hgood
            rw [hlen] at this
            exact absurd (List.length_eq_zero.mp this.symm) hlegal
        subst hb
        have hsmall : node.n < EXPAND_THRESHOLD := by
          by_contra hge
          exact (good_exp hgood).mpr ⟨ht', by omega⟩ hnil
        unfold EXPAND_THRESHOLD at hsmall
        have hsucc : roundNat (node.n + 1) = node.n + 1 := roundNat_of_lt (by omega)
        obtain ⟨v, k', hplay, hv⟩ := playout_spec rnd node.state k
        obtain ⟨hn', hw'⟩ := counters_step hn hw hv
        rw [evaluate_leaf ucb rnd fuel node k ht' hlen, hplay, Option.some_bind]
        by_cases hthr : roundNat (node.n + 1) = EXPAND_THRESHOLD
        · rw [if_pos hthr]
          obtain ⟨cs, hexpand, hf2, hall⟩ := expand_spec
            (.mk node.state (fadd node.w v) (roundNat (node.n + 1)) node.childNodes)
          rw [hexpand]
          have hcs : cs ≠ [] := by
            intro h0
            rw [h0] at hf2
            exact hlegal (List.length_eq_zero.mp (by simpa using hf2.length_eq))
          refine ⟨_, v, k', rfl, ?_, rfl, rfl, rfl, hv, Or.inr (Or.inl ⟨ht', hnil, ?_⟩)⟩
          · refine Node.Good.mk false _ _ _ _ hn' hw' ?_ ?_ (fun _ => hf2)
              (fun c hc => (hall c hc).1)
            · intro _
              exact ⟨fun _ => ⟨ht', le_of_eq hthr.symm⟩, fun _ => hcs⟩
            · intro h
              cases h
          · intro c hc
            exact (hall c hc).2.1
        · rw [if_neg hthr]
          refine ⟨_, v, k', rfl, ?_, rfl, rfl, rfl, hv, Or.inr (Or.inl ⟨ht', hnil, ?_⟩)⟩
          · refine Node.Good.mk false _ _ _ _ hn' hw' ?_ ?_ ?_ (good_sub hgood)
            · intro _
              constructor
              · intro hne
                exact absurd hnil hne
              · rintro ⟨-, hge⟩
                unfold EXPAND_THRESHOLD at hthr hge
                omega
            · intro h
              cases h
            · intro hne
              exact absurd hnil hne
          · intro c hc
            show c.n = 0
            have hc' : c ∈ node.childNodes := hc
            rw [hnil] at hc'
            cases hc'
      · -- an inner node: the next child is evaluated
        have hne : node.childNodes ≠ [] := fun h0 => hlen (by rw [h0]; rfl)
        obtain ⟨i, child, hnext, hget, -⟩ := nextChildNode_spec ucb node.childNodes hne
        have hmem : child ∈ node.childNodes := List.getElem?_mem hget
        have hstates := good_states hgood hne
        obtain ⟨a, ha, happ⟩ := forall₂_getElem hstates i child hget
        have hamem : a ∈ node.state.GetLegalActions := List.getElem?_mem ha
        obtain ⟨s', hs', hlt⟩ := apply_legal hamem
        have hs'' : s' = child.state := by
          rw [hs'] at happ
          exact Option.some.inj happ
        subst hs''
        obtain ⟨child', v, k', heval, hgood', hstate', hn'', -, hv, -⟩ :=
          ih false child k (good_sub hgood child hmem) (by omega)
        have hv' := value_flip hv
        obtain ⟨hn', hw'⟩ := counters_step hn hw hv'
        rw [evaluate_inner ucb rnd fuel node k ht' hlen, hnext, Option.some_bind, hget,
          Option.some_bind, heval, Option.some_bind]
        refine ⟨_, 1 - v, k', rfl, ?_, rfl, rfl, rfl, hv',
          Or.inr (Or.inr ⟨ht', i, child, child', hget, rfl, hn''⟩)⟩
        have hset : node.childNodes.set i child' ≠ [] := by
          intro h0
          apply hne
          have := congrArg List.length h0
          simp only [List.length_set, List.length_nil] at this
          exact List.length_eq_zero.mp this
        refine Node.Good.mk b _ _ _ _ hn' hw' ?_ ?_ ?_ ?_
        · intro hb
          subst hb
          have hold := ((good_exp hgood).mp hne).2
          have := (roundNat_succ hn).2.1
          exact ⟨fun _ => ⟨ht', by omega⟩, fun _ => hset⟩
        · intro hb
          subst hb
          rw [List.length_set]
          exact good_root hgood
        · intro _
          exact forall₂_set hstates i child child' hget (fun a' h' => by rw [hstate']; exact h')
        · intro c hc
          rcases List.mem_or_eq_of_mem_set hc with h | h
          · exact good_sub hgood c h
          · exact h ▸ hgood'

/-! ## The loop of `mctsAction` -/

theorem sum_visits_set (l : List Node) (i : Nat) (c c' : Node) (hc : l[i]? = some c) :
    ((l.set i c').map Node.n).sum + c.n = (l.map Node.n).sum + c'.n := by
  induction l generalizing i with
  | nil => simp at hc
  | cons x xs ih =>
    cases i with
    | zero =>
      simp only [List.getElem?_cons_zero, Option.some.injEq] at hc
      subst hc
      simp only [List.set_cons_zero, List.map_cons, List.sum_cons]
      omega
    | succ i =>
      rw [List.getElem?_cons_succ] at hc
      have := ih i hc
      simp only [List.set_cons_succ, List.map_cons, List.sum_cons]
      omega

theorem visits_le_sum (l : List Node) (c : Node) (hc : c ∈ l) : c.n ≤ (l.map Node.n).sum := by
  induction l with
  | nil => cases hc
  | cons x xs ih =>
    simp only [List.map_cons, List.sum_cons]
    rcases List.mem_cons.mp hc with rfl | hmem
    · omega
    · have := ih hmem
      omega

theorem sum_visits_zero (l : List Node) (h : ∀ c ∈ l, c.n = 0) : (l.map Node.n).sum = 0 := by
  induction l with
  | nil => rfl
  | cons x xs ih =>
    simp only [List.map_cons, List.sum_cons, h x (List.mem_cons_self _ _),
      ih (fun c hc => h c (List.mem_cons_of_mem _ hc))]

/-- The root after the first step of `mctsAction`: expanded, not yet visited. -/
theorem root_expand (s : State) :
    ∃ root, (NewNode s).Expand = some root ∧ root.Good true ∧ root.state = s ∧ root.n = 0
      ∧ root.w = 0 ∧ (root.childNodes.map Node.n).sum = 0 := by
  obtain ⟨cs, hexpand, hf, hall⟩ := expand_spec (NewNode s)
  refine ⟨_, hexpand, ?_, rfl, rfl, rfl, sum_visits_zero cs (fun c hc => (hall c hc).2.1)⟩
  refine Node.Good.mk true _ _ _ _ (by show (0 : Nat) ≤ _; omega)
    ⟨0, by show (0 : ℚ) = _; norm_num, by omega⟩ ?_ ?_ (fun _ => hf) (fun c hc => (hall c hc).1)
  · intro h
    cases h
  · intro _
    exact hf.length_eq.symm

theorem min_succ_round (m : Nat) :
    roundNat (min m 9007199254740992 + 1) = min (m + 1) 9007199254740992 := by
  by_cases h : m < 9007199254740992
  · rw [Nat.min_eq_left (le_of_lt h), (roundNat_succ (le_of_lt h)).2.2 h]
    omega
  · rw [Nat.min_eq_right (by omega), roundNat_two_pow_53_succ]
    omega

/-- The loop of `mctsAction` returns; the root keeps its state and the invariant, its visit
count is the number of iterations as long as this is not above `2 ^ 53`, where it stays, and
below that bound the visit counts of the children of a non-terminal root sum to it. -/
theorem evaluateLoop_spec (ucb : Nat → ℚ → Nat → ℚ) (rnd : Nat → Nat) (j : Nat) :
    ∀ (root : Node) (k m : Nat), root.Good true → root.n = min m 9007199254740992 →
      ∃ root' k', evaluateLoop ucb rnd j root k = some (root', k') ∧ root'.Good true
        ∧ root'.state = root.state ∧ root'.n = min (m + j) 9007199254740992
        ∧ (root.state.IsTerminal = false → (root.childNodes.map Node.n).sum = root.n →
            m + j ≤ 9007199254740992 → (root'.childNodes.map Node.n).sum = m + j) := by
  induction j with
  | zero =>
    intro root k m hgood hn
    refine ⟨root, k, rfl, hgood, rfl, hn, ?_⟩
    intro _ hsum hm
    rw [hsum, hn]
    omega
  | succ j ih =>
    intro root k m hgood hn
    have hply := plyBound_le root.state
    obtain ⟨root1, v, k1, heval, hgood1, hstate1, hn1, -, -, hchildren⟩ :=
      evaluate_good ucb rnd 20 true root k hgood (by omega)
    have hn1' : root1.n = min (m + 1) 9007199254740992 := by
      rw [hn1, hn]
      exact min_succ_round m
    obtain ⟨root', k', hloop, hgood', hstate', hn', hsum'⟩ := ih root1 k1 (m + 1) hgood1 hn1'
    refine ⟨root', k', ?_, hgood', hstate'.trans hstate1, ?_, ?_⟩
    · show (Node.Evaluate ucb rnd root k).bind _ = _
      unfold Node.Evaluate
      rw [heval, Option.some_bind]
      exact hloop
    · rw [hn']
      congr 1
      omega
    · intro hnt hsum hm
      have hsum1 : (root1.childNodes.map Node.n).sum = root1.n := by
        rcases hchildren with ⟨ht, -⟩ | ⟨-, hnil, -⟩ | ⟨-, i, child, child', hget, hset, hcn⟩
        · rw [hnt] at ht
          exact Bool.noConfusion ht
        · exfalso
          have hlen := good_root hgood
          rw [hnil] at hlen
          exact legal_ne_nil_of_not_terminal hnt (List.length_eq_zero.mp hlen.symm)
        · have hle := visits_le_sum root.childNodes child (List.getElem?_mem hget)
          have hrn : root.n = m := by
            rw [hn]
            exact Nat.min_eq_left (by omega)
          have hchild : child'.n = child.n + 1 := by
            rw [hcn]
            exact (roundNat_succ (by omega)).2.2 (by omega)
          have := sum_visits_set root.childNodes i child child' hget
          rw [hset, hn1']
          have : min (m + 1) 9007199254740992 = m + 1 := Nat.min_eq_left (by omega)
          omega
      have := hsum' (by rw [hstate1]; exact hnt) hsum1 (by omega)
      omega

/-- The tree of `mctsAction` exists for every state, budget, random sequence and UCB1
function. -/
theorem mctsTree_spec (ucb : Nat → ℚ → Nat → ℚ) (rnd : Nat → Nat) (s : State) (N : Int) :
    ∃ root, mctsTree ucb rnd s N = some root ∧ root.Good true ∧ root.state = s
      ∧ root.n = min N.toNat 9007199254740992
      ∧ (s.IsTerminal = false → N.toNat ≤ 9007199254740992 →
          (root.childNodes.map Node.n).sum = N.toNat) := by
  obtain ⟨root0, hexpand, hgood0, hstate0, hn0, -, hsum0⟩ := root_expand s
  obtain ⟨root, k', hloop, hgood, hstate, hn, hsum⟩ :=
    evaluateLoop_spec ucb rnd N.toNat root0 0 0 hgood0 (by rw [hn0]; rfl)
  refine ⟨root, ?_, hgood, hstate.trans hstate0, by simpa using hn, ?_⟩
  · simp only [mctsTree, hexpand, Option.some_bind, hloop, Option.map_some']
  · intro hnt hN
    have := hsum (by rw [hstate0]; exact hnt) (by rw [hsum0, hn0]) (by omega)
    omega

/-! ## The decision of `mctsAction` -/

/-- The final loop of `mctsAction` from index `i` on, with the best pair so far: it keeps
`best` when no remaining child has more visits, and otherwise returns the visit count and
the action of the first remaining child with the largest visit count. -/
theorem decisionLoop_spec (childNodes : List Node) :
    ∀ (actions : List Int) (i : Nat) (best : Int × Int),
      i + actions.length = childNodes.length →
      ∃ r, decisionLoop childNodes actions i best = some r
        ∧ ((r = best ∧ ∀ j c, i ≤ j → childNodes[j]? = some c → (c.n : Int) ≤ best.1)
          ∨ ∃ m c a, i ≤ m ∧ childNodes[m]? = some c ∧ actions[m - i]? = some a
              ∧ r = ((c.n : Int), a) ∧ best.1 < (c.n : Int)
              ∧ (∀ j c', i ≤ j → childNodes[j]? = some c' → c'.n ≤ c.n)
              ∧ (∀ j c', i ≤ j → j < m → childNodes[j]? = some c' → c'.n < c.n)) := by
  intro actions
  induction actions with
  | nil =>
    intro i best hlen
    refine ⟨best, rfl, Or.inl ⟨rfl, ?_⟩⟩
    intro j c hij hget
    have hj : j < childNodes.length := (List.getElem?_eq_some_iff.mp hget).1
    simp only [List.length_nil] at hlen
    omega
  | cons a rest ih =>
    intro i best hlen
    simp only [List.length_cons] at hlen
    have hi : i < childNodes.length := by omega
    have hget : childNodes[i]? = some childNodes[i] := List.getElem?_eq_getElem hi
    generalize childNodes[i] = c at hget
    have hstep : decisionLoop childNodes (a :: rest) i best
        = if (c.n : Int) > best.1 then decisionLoop childNodes rest (i + 1) ((c.n : Int), a)
          else decisionLoop childNodes rest (i + 1) best := by
      show (childNodes[i]?).bind _ = _
      rw [hget, Option.some_bind]
    have hsame : ∀ j c', j = i → childNodes[j]? = some c' → c' = c := by
      intro j c' hj hc'
      subst hj
      rw [hget] at hc'
      exact (Option.some.inj hc').symm
    by_cases hgt : (c.n : Int) > best.1
    · rw [hstep, if_pos hgt]
      obtain ⟨r, hr, hcase⟩ := ih (i + 1) ((c.n : Int), a) (by omega)
      refine ⟨r, hr, Or.inr ?_⟩
      rcases hcase with ⟨hbest, hall⟩ | ⟨m, cm, am, him, hcm, ham, hrm, hlt, hall, hbefore⟩
      · refine ⟨i, c, a, le_refl i, hget, ?_, hbest, hgt, ?_, ?_⟩
        · rw [Nat.sub_self]
          exact List.getElem?_cons_zero
        · intro j c' hij hc'
          by_cases hj : j = i
          · rw [hsame j c' hj hc']
          · have := hall j c' (by omega) hc'
            dsimp only at this
            exact_mod_cast this
        · intro j c' hij hji
          omega
      · have hlt' : c.n < cm.n := by
          dsimp only at hlt
          exact_mod_cast hlt
        refine ⟨m, cm, am, by omega, hcm, ?_, hrm, ?_, ?_, ?_⟩
        · have hm : m - i = (m - (i + 1)) + 1 := by omega
          rw [hm, List.getElem?_cons_succ]
          exact ham
        · have : best.1 < (c.n : Int) := hgt
          dsimp only at hlt
          omega
        · intro j c' hij hc'
          by_cases hj : j = i
          · rw [hsame j c' hj hc']
            omega
          · exact hall j c' (by omega) hc'
        · intro j c' hij hjm hc'
          by_cases hj : j = i
          · rw [hsame j c' hj hc']
            exact hlt'
          · exact hbefore j c' (by omega) hjm hc'
    · rw [hstep, if_neg hgt]
      obtain ⟨r, hr, hcase⟩ := ih (i + 1) best (by omega)
      refine ⟨r, hr, ?_⟩
      rcases hcase with ⟨hbest, hall⟩ | ⟨m, cm, am, him, hcm, ham, hrm, hlt, hall, hbefore⟩
      · refine Or.inl ⟨hbest, ?_⟩
        intro j c' hij hc'
        by_cases hj : j = i
        · rw [hsame j c' hj hc']
          omega
        · exact hall j c' (by omega) hc'
      · have hlt' : c.n < cm.n := by
          have : (c.n : Int) < (cm.n : Int) := by omega
          exact_mod_cast this
        refine Or.inr ⟨m, cm, am, by omega, hcm, ?_, hrm, hlt, ?_, ?_⟩
        · have hm : m - i = (m - (i + 1)) + 1 := by omega
          rw [hm, List.getElem?_cons_succ]
          exact ham
        · intro j c' hij hc'
          by_cases hj : j = i
          · rw [hsame j c' hj hc']
            omega
          · exact hall j c' (by omega) hc'
        · intro j c' hij hjm hc'
          by_cases hj : j = i
          · rw [hsame j c' hj hc']
            exact hlt'
          · exact hbefore j c' (by omega) hjm hc'

/-- The decision of `mctsAction` on a tree whose root has one child per legal action. -/
theorem decision_of_root (s : State) (root : Node) (hgood : root.Good true)
    (hstate : root.state = s) (hnt : s.IsTerminal = false) :
    ∃ (i : Nat) (a : Int) (c : Node),
      (decisionLoop root.childNodes s.GetLegalActions 0 (-1, -1)).map Prod.snd = some a
      ∧ s.GetLegalActions[i]? = some a ∧ root.childNodes[i]? = some c
      ∧ (∀ (j : Nat) (c' : Node), root.childNodes[j]? = some c' → c'.n ≤ c.n)
      ∧ (∀ (j : Nat) (c' : Node), j < i → root.childNodes[j]? = some c' → c'.n < c.n) := by
  have hlen := good_root hgood
  rw [hstate] at hlen
  obtain ⟨r, hr, hcase⟩ :=
    decisionLoop_spec root.childNodes s.GetLegalActions 0 (-1, -1) (by omega)
  rcases hcase with ⟨-, hall⟩ | ⟨m, c, a, -, hc, ha, hrm, -, hall, hbefore⟩
  · exfalso
    have hne := legal_ne_nil_of_not_terminal hnt
    have hpos : 0 < root.childNodes.length := by
      rw [hlen]
      exact List.length_pos.mpr hne
    have := hall 0 _ (le_refl 0) (List.getElem?_eq_getElem hpos)
    have h0 : (-1 : Int × Int).1 = -1 := rfl
    simp only at this
    omega
  · refine ⟨m, a, c, ?_, ?_, hc, ?_, ?_⟩
    · rw [hr, hrm]
      rfl
    · simpa using ha
    · intro j c' hc'
      exact hall j c' (Nat.zero_le j) hc'
    · intro j c' hj hc'
      exact hbefore j c' (Nat.zero_le j) hj hc'

/-! ## The search tree of `mctsAction`: claims -/

/-- A root with exactly one child: the visit count of the child follows the one of the root
through every call of `Evaluate`, also where the counters stop growing. -/
theorem evaluateLoop_single (ucb : Nat → ℚ → Nat → ℚ) (rnd : Nat → Nat) (j : Nat) :
    ∀ (root : Node) (k : Nat), root.Good true → root.state.IsTerminal = false →
      (∃ c, root.childNodes = [c] ∧ c.n = root.n) →
      ∃ root' k', evaluateLoop ucb rnd j root k = some (root', k')
        ∧ ∃ c, root'.childNodes = [c] ∧ c.n = root'.n := by
  induction j with
  | zero =>
    intro root k _ _ hsingle
    exact ⟨root, k, rfl, hsingle⟩
  | succ j ih =>
    intro root k hgood hnt ⟨c, hc, hcn⟩
    have hply := plyBound_le root.state
    obtain ⟨root1, v, k1, heval, hgood1, hstate1, hn1, -, -, hchildren⟩ :=
      evaluate_good ucb rnd 20 true root k hgood (by omega)
    have hsingle1 : ∃ c1, root1.childNodes = [c1] ∧ c1.n = root1.n := by
      rcases hchildren with ⟨ht, -⟩ | ⟨-, hnil, -⟩ | ⟨-, i, child, child', hget, hset, hchild⟩
      · rw [hnt] at ht
        exact Bool.noConfusion ht
      · rw [hc] at hnil
        exact List.noConfusion hnil
      · rw [hc] at hget hset
        cases i with
        | zero =>
          rw [List.getElem?_cons_zero] at hget
          have hcc : c = child := Option.some.inj hget
          refine ⟨child', hset, ?_⟩
          rw [hchild, hn1, ← hcc, hcn]
        | succ i =>
          rw [List.getElem?_cons_succ] at hget
          simp at hget
    obtain ⟨root', k', hloop, hsingle'⟩ :=
      ih root1 k1 hgood1 (by rw [hstate1]; exact hnt) hsingle1
    refine ⟨root', k', ?_, hsingle'⟩
    show (Node.Evaluate ucb rnd root k).bind _ = _
    unfold Node.Evaluate
    rw [heval, Option.some_bind]
    exact hloop

/-- The tree of a non-terminal root with one legal action: the only child has the visit
count of the root, `min N (2 ^ 53)`. -/
theorem mctsTree_single (ucb : Nat → ℚ → Nat → ℚ) (rnd : Nat → Nat) (s : State) (N : Int)
    (hnt : s.IsTerminal = false) (hlen : s.GetLegalActions.length = 1) :
    ∃ root, mctsTree ucb rnd s N = some root
      ∧ root.n = min N.toNat 9007199254740992
      ∧ (root.childNodes.map Node.n).sum = min N.toNat 9007199254740992 := by
  obtain ⟨root, htree, -, -, hn, -⟩ := mctsTree_spec ucb rnd s N
  obtain ⟨root0, hexpand, hgood0, hstate0, hn0, -, hsum0⟩ := root_expand s
  have hlen0 := good_root hgood0
  rw [hstate0, hlen] at hlen0
  obtain ⟨c, hc⟩ := List.length_eq_one.mp hlen0
  have hcn : c.n = root0.n := by
    rw [hc] at hsum0
    simp only [List.map_cons, List.map_nil, List.sum_cons, List.sum_nil] at hsum0
    omega
  obtain ⟨root', k', hloop, c', hc', hcn'⟩ :=
    evaluateLoop_single ucb rnd N.toNat root0 0 hgood0 (by rw [hstate0]; exact hnt) ⟨c, hc, hcn⟩
  have htree' : mctsTree ucb rnd s N = some root' := by
    simp only [mctsTree, hexpand, Option.some_bind, hloop, Option.map_some']
  have heq : root = root' := Option.some.inj (htree.symm.trans htree')
  refine ⟨root, htree, hn, ?_⟩
  rw [heq, hc']
  simp only [List.map_cons, List.map_nil, List.sum_cons, List.sum_nil]
  rw [hcn', ← heq, hn]
  omega

/-- Below `2 ^ 52` visits the addition of a playout value to the win credit is exact. -/
theorem fadd_exact {w : ℚ} {n h : Nat} (hw : w = (h : ℚ) / 2) (hle : h ≤ 2 * n)
    (hn : n < 4503599627370496) {v : ℚ} (hv : v = 0 ∨ v = 1 / 2 ∨ v = 1) :
    fadd w v = w + v := by
  obtain ⟨v2, hv2, hle2⟩ : ∃ v2 : Nat, v = (v2 : ℚ) / 2 ∧ v2 ≤ 2 := by
    rcases hv with rfl | rfl | rfl
    · exact ⟨0, by norm_num, by omega⟩
    · exact ⟨1, by norm_num, by omega⟩
    · exact ⟨2, by norm_num, by omega⟩
  have hround : roundNat (h + v2) = h + v2 := by
    by_cases hlt : h + v2 < 9007199254740992
    · exact roundNat_of_lt hlt
    · have heq : h + v2 = 9007199254740992 := by omega
      rw [heq]
      exact roundNat_two_pow_53
  rw [hw, hv2, fadd_half, hround]
  push_cast
  ring

/-- C12: for every non-terminal root state, every iteration budget, every sequence of random
playout choices and every UCB1 value function, `mctsAction` returns `legalActions[i]` where
`i` is the smallest index whose child of the root has the largest visit count `n` among all
children of the root in the tree built by the loop: no child has more visits than the child
at `i`, and every child before `i` has strictly fewer. -/
theorem C12_returns_first_most_visited (ucb : Nat → ℚ → Nat → ℚ) (rnd : Nat → Nat) (s : State)
    (N : Int) (hnt : s.IsTerminal = false) :
    ∃ (root : Node) (i : Nat) (a : Int) (c : Node),
      mctsTree ucb rnd s N = some root ∧ mctsAction ucb rnd s N = some a
      ∧ s.GetLegalActions[i]? = some a ∧ root.childNodes[i]? = some c
      ∧ (∀ (j : Nat) (c' : Node), root.childNodes[j]? = some c' → c'.n ≤ c.n)
      ∧ (∀ (j : Nat) (c' : Node), j < i → root.childNodes[j]? = some c' → c'.n < c.n) := by
  obtain ⟨root, htree, hgood, hstate, -, -⟩ := mctsTree_spec ucb rnd s N
  obtain ⟨i, a, c, hdec, ha, hc, hmax, hfirst⟩ := decision_of_root s root hgood hstate hnt
  refine ⟨root, i, a, c, htree, ?_, ha, hc, hmax, hfirst⟩
  unfold mctsAction
  rw [htree, Option.some_bind]
  exact hdec

/-- C12 at the initial position with a budget of three iterations. -/
theorem C12_returns_first_most_visited_witness :
    NewState.IsTerminal = false ∧
    ∃ (root : Node) (i : Nat) (a : Int) (c : Node),
      mctsTree (fun _ _ _ => 0) (fun _ => 0) NewState 3 = some root
      ∧ mctsAction (fun _ _ _ => 0) (fun _ => 0) NewState 3 = some a
      ∧ NewState.GetLegalActions[i]? = some a ∧ root.childNodes[i]? = some c
      ∧ (∀ (j : Nat) (c' : Node), root.childNodes[j]? = some c' → c'.n ≤ c.n)
      ∧ (∀ (j : Nat) (c' : Node), j < i → root.childNodes[j]? = some c' → c'.n < c.n) :=
  ⟨by decide, C12_returns_first_most_visited (fun _ _ _ => 0) (fun _ => 0) NewState 3 (by decide)⟩

/-- C13 (counterexample): the visit counts are float64 values, and `n++` leaves `2 ^ 53`
unchanged. From the non-terminal position with one empty cell, after `2 ^ 53 + 1` calls of
`Evaluate` the root and its only child both have visit count `2 ^ 53`, not the budget. -/
theorem C13_counts_stop_at_two_pow_53 :
    lastMoveState.IsTerminal = false ∧
    (mctsTree (fun _ _ _ => 0) (fun _ => 0) lastMoveState 9007199254740993).map
        (fun root => ((root.childNodes.map Node.n).sum, root.n))
      = some (9007199254740992, 9007199254740992) := by
  refine ⟨by decide, ?_⟩
  obtain ⟨root, htree, hn, hsum⟩ :=
    mctsTree_single (fun _ _ _ => 0) (fun _ => 0) lastMoveState 9007199254740993
      (by decide) (by decide)
  have hN : Int.toNat 9007199254740993 = 9007199254740993 := rfl
  rw [hN] at hn hsum
  rw [htree, Option.map_some', hn, hsum]
  rfl

/-- C13 (amended): for every non-terminal root state, every budget `0 ≤ N ≤ 2 ^ 53`, every
sequence of random playout choices and every UCB1 value function, after the `N` calls of
`Evaluate` in `mctsAction` the visit counts of the children of the root sum to exactly `N`,
which is also the visit count of the root. -/
theorem C13_children_visits_sum (ucb : Nat → ℚ → Nat → ℚ) (rnd : Nat → Nat) (s : State)
    (N : Int) (hnt : s.IsTerminal = false) (h0 : 0 ≤ N) (hN : N ≤ 9007199254740992) :
    ∃ root, mctsTree ucb rnd s N = some root
      ∧ (((root.childNodes.map Node.n).sum : Nat) : Int) = N ∧ ((root.n : Nat) : Int) = N := by
  obtain ⟨root, htree, -, -, hn, hsum⟩ := mctsTree_spec ucb rnd s N
  have hle : N.toNat ≤ 9007199254740992 := by omega
  refine ⟨root, htree, ?_, ?_⟩
  · rw [hsum hnt hle]
    exact Int.toNat_of_nonneg h0
  · rw [hn, Nat.min_eq_left hle]
    exact Int.toNat_of_nonneg h0

/-- C13 (amended) at the initial position with a budget of 1000 iterations. -/
theorem C13_children_visits_sum_witness :
    NewState.IsTerminal = false ∧ (0 : Int) ≤ 1000 ∧ (1000 : Int) ≤ 9007199254740992 ∧
    ∃ root, mctsTree (fun _ _ _ => 0) (fun _ => 0) NewState 1000 = some root
      ∧ (((root.childNodes.map Node.n).sum : Nat) : Int) = 1000
      ∧ ((root.n : Nat) : Int) = 1000 :=
  ⟨by decide, by decide, by decide,
    C13_children_visits_sum (fun _ _ _ => 0) (fun _ => 0) NewState 1000
      (by decide) (by decide) (by decide)⟩

/-- C18: for every root state, every number of `Evaluate` calls, every sequence of random
playout choices and every UCB1 value function, the tree exists and every node of it, the root
and every node below it, satisfies `0 ≤ w ≤ n`; a single call of `Evaluate` on a node with
these bounds adds 1 to `n` and a value among `0`, `1/2`, `1` to `w` in float64 arithmetic
(exactly so below `2 ^ 52` visits), and keeps `0 ≤ w ≤ n` on the node and on every node
below it. -/
theorem C18_credit_between_zero_and_visits (ucb : Nat → ℚ → Nat → ℚ) (rnd : Nat → Nat) :
    (∀ (s : State) (N : Int), ∃ root, mctsTree ucb rnd s N = some root
      ∧ (0 ≤ root.w ∧ root.w ≤ (root.n : ℚ))
      ∧ ∀ x : Node, x.Below root → 0 ≤ x.w ∧ x.w ≤ (x.n : ℚ))
    ∧ (∀ (b : Bool) (node : Node) (k : Nat), node.Good b →
        ∃ node' v k', node.Evaluate ucb rnd k = some (node', v, k')
          ∧ node'.n = roundNat (node.n + 1) ∧ node'.w = fadd node.w v
          ∧ (v = 0 ∨ v = 1 / 2 ∨ v = 1)
          ∧ (node.n < 4503599627370496 → node'.n = node.n + 1 ∧ node'.w = node.w + v)
          ∧ (0 ≤ node'.w ∧ node'.w ≤ (node'.n : ℚ))
          ∧ ∀ x : Node, x.Below node' → 0 ≤ x.w ∧ x.w ≤ (x.n : ℚ)) := by
  have hbound : ∀ (b : Bool) (x : Node), x.Good b → 0 ≤ x.w ∧ x.w ≤ (x.n : ℚ) := by
    intro b x hx
    obtain ⟨h, hw, hle⟩ := good_w hx
    rw [hw]
    constructor
    · positivity
    · have hq : (h : ℚ) ≤ 2 * (x.n : ℚ) := by exact_mod_cast hle
      linarith
  constructor
  · intro s N
    obtain ⟨root, htree, hgood, -, -, -⟩ := mctsTree_spec ucb rnd s N
    exact ⟨root, htree, hbound true root hgood,
      fun x hx => hbound false x (good_below hgood hx)⟩
  · intro b node k hgood
    have hply := plyBound_le node.state
    obtain ⟨node', v, k', heval, hgood', -, hn', hw', hv, -⟩ :=
      evaluate_good ucb rnd 20 b node k hgood (by omega)
    refine ⟨node', v, k', heval, hn', hw', hv, ?_, hbound b node' hgood',
      fun x hx => hbound false x (good_below hgood' hx)⟩
    intro hlt
    have hsucc := (roundNat_succ (good_n hgood)).2.2 (by omega)
    refine ⟨by rw [hn', hsucc], ?_⟩
    rw [hw']
    obtain ⟨h, hw, hle⟩ := good_w hgood
    exact fadd_exact hw hle hlt hv

/-- C18 for a call of `Evaluate` on a fresh node of the initial position. -/
theorem C18_credit_between_zero_and_visits_witness :
    (NewNode NewState).Good false ∧
    ∃ node' v k', (NewNode NewState).Evaluate (fun _ _ _ => 0) (fun _ => 0) 0 = some (node', v, k')
      ∧ node'.n = roundNat ((NewNode NewState).n + 1) ∧ 0 ≤ node'.w ∧ node'.w ≤ (node'.n : ℚ) :=
  ⟨good_newNode NewState, by
    obtain ⟨node', v, k', h1, h2, -, -, -, h3, -⟩ :=
      (C18_credit_between_zero_and_visits (fun _ _ _ => 0) (fun _ => 0)).2 false
        (NewNode NewState) 0 (good_newNode NewState)
    exact ⟨node', v, k', h1, h2, h3.1, h3.2⟩⟩

/-- C19: for every non-empty list of children, `NextChildNode` returns a child (never nil);
it returns the first child in child order whose visit count is 0 whenever there is one; and
the UCB1 loop is entered only when no child is unvisited, in which case every child has
`n ≥ 1`, the total `t` is at least 1 and every UCB1 value is defined. -/
theorem C19_unvisited_child_first (ucb : Nat → ℚ → Nat → ℚ) (l : List Node) (hne : l ≠ []) :
    (∃ (i : Nat) (c : Node), NextChildNode ucb l = some i ∧ l[i]? = some c)
    ∧ (∀ (i : Nat) (c : Node), l[i]? = some c → c.n = 0 →
        (∀ (j : Nat) (c' : Node), j < i → l[j]? = some c' → c'.n ≠ 0) →
        NextChildNode ucb l = some i)
    ∧ (NextChildNode ucb l = match firstUnvisited l with
        | some i => some i
        | none => (ucbLoop ucb (totalVisits l) l 0 (none, none)).2)
    ∧ (firstUnvisited l = none →
        (∀ c ∈ l, 1 ≤ c.n) ∧ 1 ≤ totalVisits l
          ∧ ∀ c ∈ l, (ucb1Value ucb (totalVisits l) c.w c.n).isSome = true) := by
  refine ⟨?_, ?_, rfl, ?_⟩
  · obtain ⟨i, c, hi, hc, -⟩ := nextChildNode_spec ucb l hne
    exact ⟨i, c, hi, hc⟩
  · intro i c hc hc0 hbefore
    unfold NextChildNode
    cases hfirst : firstUnvisited l with
    | none => exact absurd hc0 (firstUnvisited_none l hfirst c (List.getElem?_mem hc))
    | some i0 =>
      obtain ⟨⟨c0, hget0, hzero0⟩, hbefore0⟩ := firstUnvisited_some l i0 hfirst
      have h1 : ¬ i0 < i := fun h => hbefore i0 c0 h hget0 hzero0
      have h2 : ¬ i < i0 := fun h => hbefore0 i h c hc hc0
      have : i0 = i := by omega
      rw [this]
  · intro hfirst
    have hall := firstUnvisited_none l hfirst
    refine ⟨fun c hc => Nat.one_le_iff_ne_zero.mpr (hall c hc), totalVisits_pos l hne hall, ?_⟩
    intro c hc
    unfold ucb1Value
    rw [if_neg (hall c hc)]
    rfl

/-- C19 for a list of two fresh nodes: a child is returned. -/
theorem C19_unvisited_child_first_witness :
    List.map NewNode [NewState, forkState] ≠ [] ∧
    ∃ (i : Nat) (c : Node),
      NextChildNode (fun _ _ _ => 0) (List.map NewNode [NewState, forkState]) = some i
        ∧ (List.map NewNode [NewState, forkState])[i]? = some c :=
  ⟨by simp, (C19_unvisited_child_first (fun _ _ _ => 0)
    (List.map NewNode [NewState, forkState]) (by simp)).1⟩

/-- C20 (counterexample): the root is expanded without a test of its state. On the won board
`wonState`, which is terminal and has four empty cells, the root of the tree built with a
budget of 100 is terminal and has four children. -/
theorem C20_terminal_root_has_children :
    (mctsTree (fun _ _ _ => 0) (fun _ => 0) wonState 100).map
        (fun root => (root.state.IsTerminal, root.childNodes.length)) = some (true, 4) := by
  obtain ⟨root, htree, hgood, hstate, -, -⟩ :=
    mctsTree_spec (fun _ _ _ => 0) (fun _ => 0) wonState 100
  have hlen := good_root hgood
  rw [htree, Option.map_some', hlen, hstate]
  decide

/-- C20 (amended): in every tree built by `mctsAction`, for every root state, budget, random
sequence and UCB1 value function, the root has one child per legal action of its state, so
it has children exactly when the board has an empty cell, whether or not the state is
terminal; and a node below the root has children exactly when its state is non-terminal and
its visit count is at least the expansion threshold 10. -/
theorem C20_children_presence (ucb : Nat → ℚ → Nat → ℚ) (rnd : Nat → Nat) (s : State)
    (N : Int) :
    ∃ root, mctsTree ucb rnd s N = some root ∧ root.state = s
      ∧ root.childNodes.length = s.GetLegalActions.length
      ∧ (root.childNodes ≠ [] ↔ ∃ i : Fin 9, s.Board i = 0)
      ∧ (s.IsTerminal = false → root.childNodes ≠ [])
      ∧ ∀ x : Node, x.Below root →
          (x.childNodes ≠ [] ↔ (x.state.IsTerminal = false ∧ 10 ≤ x.n)) := by
  obtain ⟨root, htree, hgood, hstate, -, -⟩ := mctsTree_spec ucb rnd s N
  have hlen := good_root hgood
  rw [hstate] at hlen
  have hiff : root.childNodes ≠ [] ↔ s.GetLegalActions ≠ [] := by
    rw [← List.length_pos, ← List.length_pos, hlen]
  refine ⟨root, htree, hstate, hlen, hiff.trans (legal_ne_nil_iff s), ?_, ?_⟩
  · intro hnt
    exact hiff.mpr (legal_ne_nil_of_not_terminal hnt)
  · intro x hx
    exact good_exp (good_below hgood hx)

/-! ## Complete lines in a legal game -/

/-- A state reached by `ApplyAction` of a legal action is the state marked at a cell that was
empty. -/
theorem apply_legal_mark {s s' : State} {a : Int} (ha : a ∈ s.GetLegalActions)
    (hs' : s.ApplyAction a = some s') : ∃ i : Fin 9, s.Board i = 0 ∧ s' = s.mark i := by
  obtain ⟨i, hi, h0⟩ := (mem_getLegalActions s a).mp ha
  refine ⟨i, h0, ?_⟩
  rw [← hi, applyAction_mark] at hs'
  exact (Option.some.inj hs').symm

/-- In a legal game every complete line is held by the player who moved last. -/
theorem reachable_line_owner {s : State} (h : Reachable s) :
    ∀ l ∈ lines, lineComplete s.Board l → s.Board l.1 = switchPlayer s.CurrentPlayer := by
  induction h with
  | init =>
    intro l _ hl
    exact absurd rfl hl.1
  | step s s' a hs ht ha hs' _ =>
    intro l hl hc
    obtain ⟨i, -, rfl⟩ := apply_legal_mark ha hs'
    have h0 : scanLines s.Board lines = 0 := winner_of_not_terminal ht
    have hown := (lineComplete_update hl h0 hc).2.2.2.2
    rw [(mark_player s i (reachable_player hs)).2.2]
    exact hown

/-- In a legal game the winner is 0 or the player who moved last, never the player to
move. -/
theorem reachable_winner {s : State} (h : Reachable s) :
    (s.GetWinner = 0 ∨ s.GetWinner = switchPlayer s.CurrentPlayer)
      ∧ s.GetWinner ≠ s.CurrentPlayer := by
  have hp := reachable_player h
  have hcases : s.GetWinner = 0 ∨ s.GetWinner = switchPlayer s.CurrentPlayer := by
    by_cases h0 : s.GetWinner = 0
    · exact Or.inl h0
    · obtain ⟨l, hl, hc, hw⟩ := scanLines_ne_zero s.Board lines h0
      exact Or.inr (hw.trans (reachable_line_owner h l hl hc))
  refine ⟨hcases, ?_⟩
  rcases hcases with h0 | hw <;> rcases hp with h1 | h2
  · rw [h0, h1]
    decide
  · rw [h0, h2]
    decide
  · rw [hw, h1, switchPlayer_one]
    decide
  · rw [hw, h2, switchPlayer_two]
    decide

/-- In a legal game the score of a state is -1 or 0. -/
theorem reachable_score {s : State} (h : Reachable s) : s.GetScore = -1 ∨ s.GetScore = 0 := by
  obtain ⟨hcases, hne⟩ := reachable_winner h
  unfold State.GetScore
  dsimp only
  rw [if_neg hne]
  rcases hcases with h0 | hw
  · by_cases h1 : s.GetWinner = switchPlayer s.CurrentPlayer
    · exact Or.inl (if_pos h1)
    · exact Or.inr (if_neg h1)
  · exact Or.inl (if_pos hw)

/-- The scan of any list with the same lines as the table gives the result of `GetWinner`
when all complete lines have the same occupant. -/
theorem scanLines_same_owner (b : Fin 9 → Int) (L : List (Fin 9 × Fin 9 × Fin 9)) (w : Int)
    (hmem : ∀ l, l ∈ L ↔ l ∈ lines)
    (hown : ∀ l ∈ lines, lineComplete b l → b l.1 = w) :
    scanLines b L = scanLines b lines := by
  by_cases h0 : scanLines b lines = 0
  · rw [h0, scanLines_eq_zero_iff]
    intro l hl
    exact (scanLines_eq_zero_iff b lines).mp h0 l ((hmem l).mp hl)
  · obtain ⟨l, hl, hc, hw⟩ := scanLines_ne_zero b lines h0
    have hL : scanLines b L ≠ 0 := by
      intro hz
      exact (scanLines_eq_zero_iff b L).mp hz l ((hmem l).mpr hl) hc
    obtain ⟨l', hl', hc', hw'⟩ := scanLines_ne_zero b L hL
    rw [hw, hw', hown l hl hc, hown l' ((hmem l').mp hl') hc']

/-- C21: in every state of a legal game (reached from `NewState` by legal actions applied to
non-terminal states) at most one player holds a complete line: any two complete lines have
the same occupant, the player who moved last. Hence the find-first scan of `GetWinner` gives
the same result for every order of the 8 lines. -/
theorem C21_winner_independent_of_scan_order (s : State) (h : Reachable s) :
    (∀ l1 ∈ lines, ∀ l2 ∈ lines, lineComplete s.Board l1 → lineComplete s.Board l2 →
        s.Board l1.1 = s.Board l2.1)
      ∧ (∀ l ∈ lines, lineComplete s.Board l → s.Board l.1 = switchPlayer s.CurrentPlayer)
      ∧ (∀ L : List (Fin 9 × Fin 9 × Fin 9), L.Perm lines →
          scanLines s.Board L = s.GetWinner) := by
  have hown := reachable_line_owner h
  refine ⟨?_, hown, ?_⟩
  · intro l1 h1 l2 h2 hc1 hc2
    rw [hown l1 h1 hc1, hown l2 h2 hc2]
  · intro L hperm
    exact scanLines_same_owner s.Board L _ (fun l => hperm.mem_iff) hown

/-- C21 on the finished game `columnState`, where player 1 holds the left column. -/
theorem C21_winner_independent_of_scan_order_witness :
    Reachable columnState
      ∧ lineComplete columnState.Board (0, 3, 6)
      ∧ (∀ l1 ∈ lines, ∀ l2 ∈ lines, lineComplete columnState.Board l1 →
          lineComplete columnState.Board l2 → columnState.Board l1.1 = columnState.Board l2.1)
      ∧ (∀ l ∈ lines, lineComplete columnState.Board l →
          columnState.Board l.1 = switchPlayer columnState.CurrentPlayer)
      ∧ (∀ L : List (Fin 9 × Fin 9 × Fin 9), L.Perm lines →
          scanLines columnState.Board L = columnState.GetWinner) :=
  ⟨reachable_of_play [0, 1, 3, 4, 6] columnState (by decide), by decide,
    C21_winner_independent_of_scan_order columnState
      (reachable_of_play [0, 1, 3, 4, 6] columnState (by decide))⟩

/-! ## Rewards in a legal game -/

/-- On a state of a legal game the reward of a terminal node in `Evaluate` is the value
`playout` returns for the state. -/
theorem reachable_reward {s : State} (h : Reachable s) :
    (if s.GetScore = -1 then (0 : ℚ) else 1 / 2) = ((s.GetScore + 1 : Int) : ℚ) / 2
      ∧ ((((s.GetScore + 1 : Int) : ℚ) / 2 = 0) ∨ (((s.GetScore + 1 : Int) : ℚ) / 2 = 1 / 2)) := by
  rcases reachable_score h with hs | hs <;> rw [hs] <;> norm_num

/-- From a state of a legal game the loop of `playout` returns 0 or 1/2. -/
theorem playout_reachable (rnd : Nat → Nat) (fuel : Nat) :
    ∀ (s : State) (c : Nat), Reachable s → plyBound s < fuel →
      ∃ v c', playoutFuel rnd fuel s c = some (v, c') ∧ (v = 0 ∨ v = 1 / 2) := by
  induction fuel with
  | zero =>
    intro s c _ h
    omega
  | succ fuel ih =>
    intro s c hr hf
    by_cases ht : s.IsTerminal = true
    · exact ⟨_, c, playout_of_terminal rnd _ s c ht, (reachable_reward hr).2⟩
    · have ht' : s.IsTerminal = false := by simpa using ht
      have hne : s.GetLegalActions.length ≠ 0 := fun h0 =>
        legal_ne_nil_of_not_terminal ht' (List.length_eq_zero.mp h0)
      obtain ⟨a, ha, hmem⟩ := getElem?_mod_mem s.GetLegalActions (rnd c) hne
      obtain ⟨s', hs', hlt⟩ := apply_legal hmem
      obtain ⟨v, c', hrun, hv⟩ :=
        ih s' (c + 1) (Reachable.step s s' a hr ht' hmem hs') (by omega)
      exact ⟨v, c', by rw [playout_step rnd fuel s s' c a ht' hne ha hs', hrun], hv⟩

/-- C23: in every state of a legal game `GetScore` is -1 or 0 and never +1, because the
player to move holds no complete line. Hence on a terminal state of a legal game the reward
that `Evaluate` records (0 if the score is -1, else 1/2) is the value `(GetScore() + 1) / 2`
of `playout`, and a call of `playout` on a state of a legal game returns 0 or 1/2, for every
random sequence. -/
theorem C23_score_never_plus_one (s : State) (h : Reachable s) :
    (s.GetScore = -1 ∨ s.GetScore = 0) ∧ s.GetScore ≠ 1
      ∧ (∀ l ∈ lines, lineComplete s.Board l → s.Board l.1 ≠ s.CurrentPlayer)
      ∧ (s.IsTerminal = true →
          ∀ (ucb : Nat → ℚ → Nat → ℚ) (rnd : Nat → Nat) (node : Node) (k : Nat),
            node.state = s →
            ∃ node', node.Evaluate ucb rnd k
                = some (node', ((s.GetScore + 1 : Int) : ℚ) / 2, k)
              ∧ playout rnd s k = some (((s.GetScore + 1 : Int) : ℚ) / 2, k))
      ∧ (∀ (rnd : Nat → Nat) (k : Nat),
          ∃ v k', playout rnd s k = some (v, k') ∧ (v = 0 ∨ v = 1 / 2)) := by
  have hscore := reachable_score h
  have hp := reachable_player h
  refine ⟨hscore, ?_, ?_, ?_, ?_⟩
  · rcases hscore with hs | hs <;> rw [hs] <;> decide
  · intro l hl hc heq
    have hown := reachable_line_owner h l hl hc
    rw [heq] at hown
    rcases hp with h1 | h2
    · rw [h1, switchPlayer_one] at hown
      exact absurd hown (by decide)
    · rw [h2, switchPlayer_two] at hown
      exact absurd hown (by decide)
  · intro ht ucb rnd node k hstate
    subst hstate
    have heval := evaluate_terminal ucb rnd 19 node k ht
    rw [(reachable_reward h).1] at heval
    exact ⟨_, heval, playout_of_terminal rnd 19 node.state k ht⟩
  · intro rnd k
    have := plyBound_le s
    exact playout_reachable rnd 20 s k h (by omega)

/-- C23 on the finished game `columnState`, won by the player who moved last: the score for
the player to move is -1. -/
theorem C23_score_never_plus_one_witness :
    Reachable columnState ∧ columnState.IsTerminal = true ∧ columnState.GetScore = -1
      ∧ ∀ (rnd : Nat → Nat) (k : Nat),
          ∃ v k', playout rnd columnState k = some (v, k') ∧ (v = 0 ∨ v = 1 / 2) :=
  ⟨reachable_of_play [0, 1, 3, 4, 6] columnState (by decide), by decide, by decide,
    (C23_score_never_plus_one columnState
      (reachable_of_play [0, 1, 3, 4, 6] columnState (by decide))).2.2.2.2⟩

/-! ## The negamax of `main.go` against the negamax of `ttt/minmax` -/

theorem toMain_legal (s : State) : s.toMain.GetLegalActions = s.GetLegalActions := rfl

theorem toMain_winner (s : State) : s.toMain.GetWinner = s.GetWinner := rfl

theorem toMain_terminal (s : State) : s.toMain.IsTerminal = s.IsTerminal := rfl

theorem toMain_apply (s : State) (a : Int) :
    s.toMain.ApplyAction a = (s.ApplyAction a).map State.toMain := by
  unfold Main.State.ApplyAction State.ApplyAction
  by_cases h : 0 ≤ a ∧ a < 9
  · rw [dif_pos h, dif_pos h]
    rfl
  · rw [dif_neg h, dif_neg h]
    rfl

/-- On a well-formed state the winner is 0, 1 or 2. -/
theorem wellFormed_winner {s : State} (hw : wellFormed s) :
    s.GetWinner = 0 ∨ s.GetWinner = 1 ∨ s.GetWinner = 2 := by
  by_cases h0 : s.GetWinner = 0
  · exact Or.inl h0
  · obtain ⟨l, -, -, hl⟩ := scanLines_ne_zero s.Board lines h0
    have hl' : s.GetWinner = s.Board l.1 := hl
    rw [hl']
    exact hw.1 l.1

/-- On a well-formed state the two versions of `GetScore` agree: `GetScore(currentPlayer)`
of `main.go`, called with the player to move, and the parameterless `GetScore()`. -/
theorem toMain_score {s : State} (hw : wellFormed s) :
    s.toMain.GetScore s.CurrentPlayer = s.GetScore := by
  unfold Main.State.GetScore State.GetScore
  rw [toMain_winner]
  dsimp only
  rcases wellFormed_winner hw with h | h | h <;> rcases hw.2 with hp | hp <;>
    rw [h, hp] <;> decide

/-- A legal action applies to a well-formed state and gives a well-formed state. -/
theorem wellFormed_apply {s : State} (hw : wellFormed s) {a : Int}
    (ha : a ∈ s.GetLegalActions) : ∃ s', s.ApplyAction a = some s' ∧ wellFormed s' := by
  obtain ⟨i, hi, -⟩ := (mem_getLegalActions s a).mp ha
  refine ⟨s.mark i, by rw [← hi]; exact applyAction_mark s i, ?_, (mark_player s i hw.2).1⟩
  intro j
  show Function.update s.Board i s.CurrentPlayer j = 0
    ∨ Function.update s.Board i s.CurrentPlayer j = 1
    ∨ Function.update s.Board i s.CurrentPlayer j = 2
  by_cases hj : j = i
  · rw [hj, Function.update_same]
    exact Or.inr hw.2
  · rw [Function.update_noteq hj]
    exact hw.1 j

theorem foldlM_congr_mem {β : Type} (f g : β → Int → Option β) (l : List Int) (init : β)
    (h : ∀ a ∈ l, ∀ b, f b a = g b a) : l.foldlM f init = l.foldlM g init := by
  induction l generalizing init with
  | nil => rfl
  | cons x xs ih =>
    simp only [List.foldlM_cons]
    rw [h x (List.mem_cons_self _ _) init]
    cases g init x with
    | none => rfl
    | some v =>
      simp only [Option.some_bind, Option.bind_eq_bind]
      exact ih v (fun a ha b => h a (List.mem_cons_of_mem _ ha) b)

/-- On well-formed states the two versions of `miniMaxScore` agree for every fuel. -/
theorem main_score_eq (fuel : Nat) :
    ∀ (s : State) (d : Int), wellFormed s →
      Main.miniMaxScoreFuel fuel s.toMain d = miniMaxScoreFuel fuel s d := by
  induction fuel with
  | zero =>
    intro s d _
    rfl
  | succ fuel ih =>
    intro s d hw
    unfold Main.miniMaxScoreFuel miniMaxScoreFuel
    have hsc : s.toMain.GetScore s.toMain.currentPlayer = s.GetScore := toMain_score hw
    rw [toMain_terminal, hsc]
    dsimp only
    rw [toMain_legal]
    by_cases hc : (s.IsTerminal || d == 0) = true
    · rw [if_pos hc, if_pos hc]
    · rw [if_neg hc, if_neg hc]
      by_cases hl : (s.GetLegalActions.length == 0) = true
      · rw [if_pos hl, if_pos hl]
      · rw [if_neg hl, if_neg hl]
        apply foldlM_congr_mem
        intro a ha b
        obtain ⟨s', hs', hw'⟩ := wellFormed_apply hw ha
        rw [toMain_apply, hs', Option.map_some', Option.some_bind, Option.some_bind,
          ih s' _ hw']

/-- On well-formed states the two versions of `miniMaxAction` agree for every fuel. -/
theorem main_action_eq (fuel : Nat) (s : State) (d : Int) (hw : wellFormed s) :
    Main.miniMaxActionFuel fuel s.toMain d = miniMaxActionFuel fuel s d := by
  unfold Main.miniMaxActionFuel miniMaxActionFuel
  rw [toMain_legal]
  congr 1
  apply foldlM_congr_mem
  intro a ha b
  obtain ⟨s', hs', hw'⟩ := wellFormed_apply hw ha
  rw [toMain_apply, hs', Option.map_some', Option.some_bind, Option.some_bind,
    main_score_eq fuel s' d hw']

/-- C22: for every well-formed state (cells 0, 1 or 2, player to move 1 or 2) and every
depth, the negamax of `main.go`, which scores with `GetScore(state.currentPlayer)`, run on
the state with the same board and player, returns the same `miniMaxScore` and the same
`miniMaxAction` as the negamax of `ttt/minmax`, which scores with the parameterless
`GetScore()`; both searches return, and the two scores of the state itself agree. -/
theorem C22_main_negamax_agrees (s : State) (d : Int) (hw : wellFormed s) :
    s.toMain.GetScore s.toMain.currentPlayer = s.GetScore
      ∧ (∃ r, Main.miniMaxScore s.toMain d = some r ∧ miniMaxScore s d = some r)
      ∧ (∃ a, Main.miniMaxAction s.toMain d = some a ∧ miniMaxAction s d = some a) := by
  have hb := plyBound_le s
  refine ⟨toMain_score hw, ?_, ?_⟩
  · obtain ⟨r, hr, -⟩ := score_total searchFuel s d (by unfold searchFuel; omega)
    refine ⟨r, ?_, hr⟩
    unfold Main.miniMaxScore
    rw [main_score_eq searchFuel s d hw]
    exact hr
  · have hsome : ∃ a, miniMaxAction s d = some a := by
      by_cases hne : s.GetLegalActions = []
      · exact ⟨-1, action_of_no_legal s d hne⟩
      · obtain ⟨a, -, ha, -⟩ := action_spec s d hne
        exact ⟨a, ha⟩
    obtain ⟨a, ha⟩ := hsome
    refine ⟨a, ?_, ha⟩
    unfold Main.miniMaxAction
    rw [main_action_eq searchFuel s d hw]
    exact ha

/-- C22 on the position `forkState` at depth 2. -/
theorem C22_main_negamax_agrees_witness :
    wellFormed forkState
      ∧ forkState.toMain.GetScore forkState.toMain.currentPlayer = forkState.GetScore
      ∧ (∃ r, Main.miniMaxScore forkState.toMain 2 = some r ∧ miniMaxScore forkState 2 = some r)
      ∧ (∃ a, Main.miniMaxAction forkState.toMain 2 = some a
          ∧ miniMaxAction forkState 2 = some a) :=
  ⟨by decide, C22_main_negamax_agrees forkState 2 (by decide)⟩

end TTT
